import Mathlib

/-!
Verification development for the streamvbyte64 crate: a byte-aligned
group varint codec.  Groups of four unsigned integers share a one-byte
tag (four 2-bit value-tags); payload bytes live in a separate data
stream.  We shallowly embed the coding descriptors
(`CodingDescriptor1234`, `Group0124`'s constants, `CodingDescriptor1248`),
the scalar `RawGroup` kernel from `raw_group.rs` / `unsafe_group.rs`,
the stream driver from `group_impl.rs`, the NEON kernel of
`group1234/neon.rs`, and the table builders from `tag_utils.rs`,
`arch/neon.rs` and `arch/shuffle.rs`.

Conventions of the embedding:
* machine integers are `Nat`; wrapping arithmetic carries an explicit
  `% 2 ^ (8 * width)`;
* `x >> k` is `x / 2 ^ k`, `x << k` is `x * 2 ^ k`, `x & (2^k - 1)` is
  `x % 2 ^ k` (`x | y` stays `Nat.lor` where the source uses `|=`);
* byte buffers read through a pointer become `List Nat` plus an offset,
  out-of-range reads defaulting to `0`; byte buffers written through a
  pointer become functions `Nat → Nat` updated pointwise;
* a panicking `assert!` becomes an `Option` guard returning `none`.
-/

/-- Byte `k` of the little-endian representation of `v`. -/
def leByte (v k : Nat) : Nat := v / 2 ^ (8 * k) % 256

/-- Read a `w`-byte little-endian integer at `off` (Rust
`read_unaligned` of an element followed by `from_le`); bytes past the
end of the list read as 0. -/
def loadLE (w : Nat) (data : List Nat) (off : Nat) : Nat :=
  (List.range w).foldr (fun k acc => acc * 256 + data.getD (off + k) 0) 0

/-- Write the `w` low bytes of `v` little-endian at `off` (Rust
`write_unaligned` of an element converted by `to_le`). -/
def storeLE (w : Nat) (mem : Nat → Nat) (off v : Nat) : Nat → Nat :=
  fun a => if off ≤ a ∧ a < off + w then leByte v (a - off) else mem a

/-- `tag_utils::tag_to_encoded_len`: total byte length of a group with
the given tag, `tag_len[tag & 3] + tag_len[(tag>>2)&3] + tag_len[(tag>>4)&3]
+ tag_len[(tag>>6)&3]`. -/
def tagToEncodedLen (tagLen : Nat → Nat) (tag : Nat) : Nat :=
  tagLen (tag % 4) + tagLen (tag / 4 % 4) + tagLen (tag / 16 % 4) +
    tagLen (tag / 64 % 4)

/-- `tag_utils::tag_mask32`. -/
def tagMask32 (len : Nat) : Nat :=
  if len = 4 then 4294967295 else 2 ^ (len * 8) - 1

/-- `tag_utils::tag_mask64`. -/
def tagMask64 (len : Nat) : Nat :=
  if len = 8 then 18446744073709551615 else 2 ^ (len * 8) - 1

/-- Bit length of `v`, computed with explicit fuel so that the kernel
can evaluate it (`bitLenAux fuel v` is the bit length whenever
`v < 2 ^ fuel`). -/
def bitLenAux : Nat → Nat → Nat
  | 0, _ => 0
  | fuel + 1, v => if v = 0 then 0 else bitLenAux fuel (v / 2) + 1

/-- `u32::leading_zeros` / `u64::leading_zeros` for a value known to fit
in `bits` bits: the word size minus the bit length. -/
def leadingZeros (bits v : Nat) : Nat := bits - bitLenAux bits v

/-- A coding descriptor: the compile-time bundle of
`coding_descriptor.rs` (element width in bytes, `TAG_LEN`, `TAG_MAX`,
and the scalar `tag_value` returning 2-bit tag plus encoded length). -/
structure Desc where
  width : Nat
  TAG_LEN : Nat → Nat
  TAG_MAX : Nat → Nat
  tagValue : Nat → Nat × Nat

/-- Modulus of the element type (`2 ^ 32` or `2 ^ 64`). -/
def Desc.M (d : Desc) : Nat := 2 ^ (8 * d.width)

/-- `data_len` looks up `LENGTH_TABLE`, the 256-entry table built by
`tag_utils::tag_length_table`, whose entry for `tag` is
`tag_to_encoded_len(tag, TAG_LEN)`. -/
def dataLen (d : Desc) (tag : Nat) : Nat := tagToEncodedLen d.TAG_LEN tag

/-- `TAG_LEN` of `CodingDescriptor1234`. -/
def tagLen1234 : Nat → Nat
  | 0 => 1 | 1 => 2 | 2 => 3 | _ => 4

/-- `TAG_LEN` of `group0124`. -/
def tagLen0124 : Nat → Nat
  | 0 => 0 | 1 => 1 | 2 => 2 | _ => 4

/-- `TAG_LEN` of `CodingDescriptor1248`. -/
def tagLen1248 : Nat → Nat
  | 0 => 1 | 1 => 2 | 2 => 4 | _ => 8

/-- `group0124::TAG_VALUE_MAP = [0, 1, 2, 3, 3]`. -/
def TAG_VALUE_MAP : Nat → Nat
  | 0 => 0 | 1 => 1 | 2 => 2 | 3 => 3 | _ => 3

/-- `CodingDescriptor1234`: `tag_value(v)` is
`3u32.saturating_sub(v.leading_zeros() / 8)` paired with `tag + 1`. -/
def desc1234 : Desc where
  width := 4
  TAG_LEN := tagLen1234
  TAG_MAX := fun i => tagMask32 (tagLen1234 i)
  tagValue := fun v =>
    let tag := 3 - leadingZeros 32 v / 8
    (tag, tag + 1)

/-- `group0124`: `tag_value(v)` is `TAG_VALUE_MAP[4 - leading_zeros/8]`;
the macro-generated scalar kernel derives the length as `TAG_LEN[tag]`. -/
def desc0124 : Desc where
  width := 4
  TAG_LEN := tagLen0124
  TAG_MAX := fun i => tagMask32 (tagLen0124 i)
  tagValue := fun v =>
    let tag := TAG_VALUE_MAP (4 - leadingZeros 32 v / 8)
    (tag, tagLen0124 tag)

/-- `CodingDescriptor1248`: `t3 = 7u32.saturating_sub(leading_zeros/8)`,
`tag = u32::BITS - t3.leading_zeros()`, length `TAG_LEN[tag]`. -/
def desc1248 : Desc where
  width := 8
  TAG_LEN := tagLen1248
  TAG_MAX := fun i => tagMask64 (tagLen1248 i)
  tagValue := fun v =>
    let t3 := 7 - leadingZeros 64 v / 8
    let tag := 32 - leadingZeros 32 t3
    (tag, tagLen1248 tag)

/-- Wrapping addition of two elements. -/
def wadd (d : Desc) (a b : Nat) : Nat := (a + b) % d.M

/-- Wrapping subtraction of two elements. -/
def wsub (d : Desc) (a b : Nat) : Nat := (a + (d.M - b % d.M)) % d.M

/-- `ScalarRawGroupImpl::encode`: for each of the four values, write the
whole element little-endian at the running offset, fold the value-tag
into the group tag, and advance by the value's encoded length.
Returns `(tag, written, memory)`. -/
def scalarEncode (d : Desc) (mem : Nat → Nat) (off : Nat) (g : List Nat) :
    Nat × Nat × (Nat → Nat) :=
  (List.range 4).foldl
    (fun (s : Nat × Nat × (Nat → Nat)) i =>
      let v := g.getD i 0
      let m2 := storeLE d.width s.2.2 (off + s.2.1) v
      let tv := d.tagValue v
      (s.1 ||| tv.1 * 2 ^ (i * 2), s.2.1 + tv.2, m2))
    (0, 0, mem)

/-- `ScalarRawGroupImpl::encode_deltas`: encode the group of wrapping
differences against the previous group (`base`). -/
def scalarEncodeDeltas (d : Desc) (mem : Nat → Nat) (off : Nat)
    (base g : List Nat) : Nat × Nat × (Nat → Nat) :=
  scalarEncode d mem off
    [wsub d (g.getD 0 0) (base.getD 3 0),
     wsub d (g.getD 1 0) (g.getD 0 0),
     wsub d (g.getD 2 0) (g.getD 1 0),
     wsub d (g.getD 3 0) (g.getD 2 0)]

/-- `ScalarRawGroupImpl::decode`: for each value-tag, read a whole
element little-endian at the running offset, mask with `TAG_MAX`, and
advance by `TAG_LEN[vtag]`.  Returns `(read, group)`. -/
def scalarDecode (d : Desc) (data : List Nat) (off tag : Nat) :
    Nat × List Nat :=
  (List.range 4).foldl
    (fun (s : Nat × List Nat) i =>
      let vtag := tag / 4 ^ i % 4
      let v := loadLE d.width data (off + s.1) &&& d.TAG_MAX vtag
      (s.1 + d.TAG_LEN vtag, s.2 ++ [v]))
    (0, [])

/-- `ScalarRawGroupImpl::decode_deltas`: decode then integrate with
wrapping addition starting from the last element of `base`. -/
def scalarDecodeDeltas (d : Desc) (data : List Nat) (off tag : Nat)
    (base : List Nat) : Nat × List Nat :=
  let r := scalarDecode d data off tag
  let g0 := wadd d (base.getD 3 0) (r.2.getD 0 0)
  let g1 := wadd d g0 (r.2.getD 1 0)
  let g2 := wadd d g1 (r.2.getD 2 0)
  let g3 := wadd d g2 (r.2.getD 3 0)
  (r.1, [g0, g1, g2, g3])

/-- `ScalarRawGroupImpl::skip_deltas`: decode and return the wrapping
sum of the four deltas. -/
def scalarSkipDeltas (d : Desc) (data : List Nat) (off tag : Nat) :
    Nat × Nat :=
  let r := scalarDecode d data off tag
  (r.1, r.2.foldl (fun s v => wadd d s v) 0)

/-- `RawGroup::set1`. -/
def set1 (v : Nat) : List Nat := [v, v, v, v]

/-- Groups of four, dropping any incomplete remainder
(`values.chunks_exact(4)`). -/
def chunks4 : List Nat → List (List Nat)
  | a :: b :: c :: d :: rest => [a, b, c, d] :: chunks4 rest
  | _ => []

/-- Chunks of eight tag bytes (`tags.chunks_exact(8)`). -/
def chunks8 : List Nat → List (List Nat)
  | a :: b :: c :: d :: e :: f :: g :: h :: rest =>
      [a, b, c, d, e, f, g, h] :: chunks8 rest
  | _ => []

/-- The `EncodeSink` trait of `group_impl.rs`: handles one group given
the current memory, the write offset and the group; returns the tag,
the number of bytes written, the new memory and the new sink state. -/
structure EncSink (σ : Type) where
  handle : σ → (Nat → Nat) → Nat → List Nat → Nat × Nat × (Nat → Nat) × σ

/-- The loop body of `group_impl::encode_to_sink`: process each group,
record its tag, advance the data cursor by the returned length. -/
def encodeGroupsLoop {σ : Type} (sink : EncSink σ) :
    List (List Nat) → (Nat → Nat) → Nat → σ → List Nat × Nat × (Nat → Nat)
  | [], mem, written, _ => ([], written, mem)
  | g :: gs, mem, written, s =>
      let r := sink.handle s mem written g
      let rest := encodeGroupsLoop sink gs r.2.2.1 (written + r.2.1) r.2.2.2
      (r.1 :: rest.1, rest.2.1, rest.2.2)

/-- `group_impl::encode_to_sink` with its three entry assertions
(`values.len() % 4 == 0`, `num_groups <= tags.len()`,
`num_groups * TAG_LEN[3] * 4 <= data.len()`).  Returns the tag bytes
written, the data byte count, and the final data memory. -/
def encodeToSink (d : Desc) {σ : Type} (sink : EncSink σ) (values : List Nat)
    (tagsCap dataCap : Nat) (mem : Nat → Nat) (s : σ) :
    Option (List Nat × Nat × (Nat → Nat)) :=
  if values.length % 4 = 0 ∧ values.length / 4 ≤ tagsCap ∧
      values.length / 4 * d.TAG_LEN 3 * 4 ≤ dataCap then
    some (encodeGroupsLoop sink (chunks4 values) mem 0 s)
  else none

/-- `StandardEncodeSink`. -/
def stdEncSink (d : Desc) : EncSink Unit :=
  ⟨fun _ mem off g =>
    let r := scalarEncode d mem off g
    (r.1, r.2.1, r.2.2, ())⟩

/-- `DeltaEncodeSink`: carries the previous group. -/
def deltaEncSink (d : Desc) : EncSink (List Nat) :=
  ⟨fun base mem off g =>
    let r := scalarEncodeDeltas d mem off base g
    (r.1, r.2.1, r.2.2, g)⟩

/-- `group_impl::encode` (scalar backend). -/
def encode (d : Desc) (values : List Nat) (tagsCap dataCap : Nat)
    (mem : Nat → Nat) : Option (List Nat × Nat × (Nat → Nat)) :=
  encodeToSink d (stdEncSink d) values tagsCap dataCap mem ()

/-- `group_impl::encode_deltas` (scalar backend): the initial base group
is `set1 initial`. -/
def encode_deltas (d : Desc) (initial : Nat) (values : List Nat)
    (tagsCap dataCap : Nat) (mem : Nat → Nat) :
    Option (List Nat × Nat × (Nat → Nat)) :=
  encodeToSink d (deltaEncSink d) values tagsCap dataCap mem (set1 initial)

/-- The `DecodeSink` trait of `group_impl.rs`.  `handle1` takes the sink
state, the tag index, one tag byte, and the data buffer with the read
offset; `handle8` takes a packed 8-tag word instead. -/
structure DecSink (σ : Type) where
  handle1 : σ → Nat → Nat → List Nat → Nat → Nat × σ
  handle8 : σ → Nat → Nat → List Nat → Nat → Nat × σ

/-- Default `RawGroup::data_len8`: sum `data_len` over the eight bytes
of the packed word. -/
def data_len8 (d : Desc) (tag8 : Nat) : Nat :=
  ((List.range 8).map (fun i => dataLen d (tag8 / 2 ^ (8 * i) % 256))).sum

/-- First loop of `group_impl::decode_to_sink`: iterate 8-tag chunks
while the data buffer retains `data_len8(tag8) + (TAG_LEN[3] - TAG_LEN[0]) * 4`
bytes of headroom, breaking out otherwise.  Returns the sink state, the
read cursor and the tag index. -/
def decodeBatchLoop (d : Desc) {σ : Type} (sink : DecSink σ)
    (data : List Nat) :
    List (List Nat) → σ → Nat → Nat → σ × Nat × Nat
  | [], s, read, ti => (s, read, ti)
  | c :: cs, s, read, ti =>
      let tag8 := loadLE 8 c 0
      let maxRead := data_len8 d tag8 + (d.TAG_LEN 3 - d.TAG_LEN 0) * 4
      if data.length < read + maxRead then (s, read, ti)
      else
        let r := sink.handle8 s ti tag8 data read
        decodeBatchLoop d sink data cs r.2 (read + r.1) (ti + 8)

/-- Second loop of `group_impl::decode_to_sink`: group-by-group over the
remaining tags while at least `TAG_LEN[3] * 4` data bytes remain. -/
def decodeSingleLoop (d : Desc) {σ : Type} (sink : DecSink σ)
    (data : List Nat) :
    List Nat → σ → Nat → Nat → σ × Nat × Nat
  | [], s, read, ti => (s, read, ti)
  | t :: ts, s, read, ti =>
      if data.length < read + d.TAG_LEN 3 * 4 then (s, read, ti)
      else
        let r := sink.handle1 s ti t data read
        decodeSingleLoop d sink data ts r.2 (read + r.1) (ti + 1)

/-- The tail scratch buffer of `group_impl::decode_to_sink`: the
remaining data bytes copied into a zero-filled `[0u8; 64]` buffer. -/
def scratchBuf (data : List Nat) (read : Nat) : List Nat :=
  data.drop read ++ List.replicate (64 - (data.length - read)) 0

/-- Tail loop of `group_impl::decode_to_sink` over the scratch buffer,
with the per-group assertion `bufr < TAG_LEN[3] * 4`. -/
def decodeRemainderLoop (d : Desc) {σ : Type} (sink : DecSink σ)
    (buf : List Nat) :
    List Nat → σ → Nat → Nat → Option (σ × Nat)
  | [], s, bufr, _ => some (s, bufr)
  | t :: ts, s, bufr, ti =>
      if bufr < d.TAG_LEN 3 * 4 then
        let r := sink.handle1 s ti t buf bufr
        decodeRemainderLoop d sink buf ts r.2 (bufr + r.1) (ti + 1)
      else none

/-- `group_impl::decode_to_sink`: batch loop, single loop, then the
zero-padded scratch tail guarded by `assert!(read <= data.len())` on
both sides (and the implicit panic of `copy_from_slice` if more than 64
bytes remain).  Returns the data bytes consumed and the sink state. -/
def decodeToSink (d : Desc) {σ : Type} (sink : DecSink σ)
    (tags data : List Nat) (s : σ) : Option (Nat × σ) :=
  let b := decodeBatchLoop d sink data (chunks8 tags) s 0 0
  let si := decodeSingleLoop d sink data (tags.drop b.2.2) b.1 b.2.1 b.2.2
  let read := si.2.1
  let ti := si.2.2
  let rem := tags.drop ti
  if rem.isEmpty then some (read, si.1)
  else
    if read ≤ data.length ∧ data.length - read ≤ 64 then
      match decodeRemainderLoop d sink (scratchBuf data read) rem si.1 0 ti with
      | none => none
      | some (s2, bufr) =>
          if read + bufr ≤ data.length then some (read + bufr, s2) else none
    else none

/-- `raw_group::default_decode8`: decode eight groups in sequence,
extracting each tag byte from the packed word. -/
def default_decode8 (d : Desc) (data : List Nat) (off tag8 : Nat) :
    Nat × List (List Nat) :=
  (List.range 8).foldl
    (fun (s : Nat × List (List Nat)) i =>
      let tag := tag8 / 2 ^ (i * 8) % 256
      let r := scalarDecode d data (off + s.1) tag
      (s.1 + r.1, s.2 ++ [r.2]))
    (0, [])

/-- `raw_group::default_decode_deltas8`. -/
def default_decode_deltas8 (d : Desc) (data : List Nat) (off tag8 : Nat)
    (base : List Nat) : Nat × List (List Nat) × List Nat :=
  (List.range 8).foldl
    (fun (s : Nat × List (List Nat) × List Nat) i =>
      let tag := tag8 / 2 ^ (i * 8) % 256
      let r := scalarDecodeDeltas d data (off + s.1) tag s.2.2
      (s.1 + r.1, s.2.1 ++ [r.2], r.2))
    (0, [], base)

/-- `raw_group::default_skip_deltas8`. -/
def default_skip_deltas8 (d : Desc) (data : List Nat) (off tag8 : Nat) :
    Nat × Nat :=
  (List.range 8).foldl
    (fun (s : Nat × Nat) i =>
      let tag := tag8 / 2 ^ (i * 8) % 256
      let r := scalarSkipDeltas d data (off + s.1) tag
      (s.1 + r.1, wadd d s.2 r.2))
    (0, 0)

/-- The four element stores a decode sink performs for the group at tag
index `ti`: element `ti*4+j` receives the group's `j`-th member. -/
def groupWrites (ti : Nat) (g : List Nat) : List (Nat × Nat) :=
  (List.range 4).map (fun j => (ti * 4 + j, g.getD j 0))

/-- The stores `default_decode8` performs through
`output.add(tag_index * 4)`: group `i` lands at tag index `ti + i`. -/
def groupWrites8 (ti : Nat) (gs : List (List Nat)) : List (Nat × Nat) :=
  (gs.enum.map (fun p => groupWrites (ti + p.1) p.2)).flatten

/-- `StandardDecodeSink` (scalar backend): the state is the log of
element stores performed through the raw `values` pointer. -/
def stdDecSink (d : Desc) : DecSink (List (Nat × Nat)) where
  handle1 := fun s ti tag data off =>
    let r := scalarDecode d data off tag
    (r.1, s ++ groupWrites ti r.2)
  handle8 := fun s ti tag8 data off =>
    let r := default_decode8 d data off tag8
    (r.1, s ++ groupWrites8 ti r.2)

/-- `DeltaDecodeSink` (scalar backend): store log plus previous group. -/
def deltaDecSink (d : Desc) : DecSink (List (Nat × Nat) × List Nat) where
  handle1 := fun s ti tag data off =>
    let r := scalarDecodeDeltas d data off tag s.2
    (r.1, (s.1 ++ groupWrites ti r.2, r.2))
  handle8 := fun s ti tag8 data off =>
    let r := default_decode_deltas8 d data off tag8 s.2
    (r.1, (s.1 ++ groupWrites8 ti r.2.1, r.2.2))

/-- `SkipDeltasSink`: wrapping sum of group delta sums. -/
def skipDeltasSink (d : Desc) : DecSink Nat where
  handle1 := fun s _ tag data off =>
    let r := scalarSkipDeltas d data off tag
    (r.1, wadd d s r.2)
  handle8 := fun s _ tag8 data off =>
    let r := default_skip_deltas8 d data off tag8
    (r.1, wadd d s r.2)

/-- `group_impl::decode` (scalar backend) with its entry assertions
(`values.len() % 4 == 0`, `tags.len() >= values.len() / 4`).  The
`values` slice is represented only by its length; the result carries
the log of element stores. -/
def decode (d : Desc) (tags data : List Nat) (valuesLen : Nat) :
    Option (Nat × List (Nat × Nat)) :=
  if valuesLen % 4 = 0 ∧ valuesLen / 4 ≤ tags.length then
    decodeToSink d (stdDecSink d) tags data []
  else none

/-- `group_impl::decode_deltas` (scalar backend). -/
def decode_deltas (d : Desc) (initial : Nat) (tags data : List Nat)
    (valuesLen : Nat) : Option (Nat × (List (Nat × Nat) × List Nat)) :=
  if valuesLen % 4 = 0 ∧ valuesLen / 4 ≤ tags.length then
    decodeToSink d (deltaDecSink d) tags data ([], set1 initial)
  else none

/-- `group_impl::skip_deltas` (scalar backend): no entry assertion. -/
def skip_deltas (d : Desc) (tags data : List Nat) : Option (Nat × Nat) :=
  decodeToSink d (skipDeltasSink d) tags data 0

/-- `Group32::max_compressed_bytes` / `Group64::max_compressed_bytes`. -/
def max_compressed_bytes (d : Desc) (len : Nat) : Nat × Nat :=
  ((len + 3) / 4, (len + 3) / 4 * 4 * d.width)

/-- Replay a store log onto a values buffer (`List.set` discards the
stores that fall outside the buffer, which the Rust code would perform
through the raw pointer regardless). -/
def applyWrites (vals : List Nat) (log : List (Nat × Nat)) : List Nat :=
  log.foldl (fun vs w => vs.set w.1 w.2) vals

/-- First `n` bytes of an output memory: the data stream it holds. -/
def memBytes (mem : Nat → Nat) (n : Nat) : List Nat :=
  (List.range n).map mem

/-- `arch/shuffle.rs::encode_shuffle_entry` (the `while` loops write the
gathered source indices consecutively from position 0; every untouched
position keeps `fill_byte`). -/
def encode_shuffle_entry (elemLen entryLen tag : Nat) (tagLen : Nat → Nat)
    (fillByte : Nat) : List Nat :=
  let fill := (List.range (entryLen / elemLen)).foldl
    (fun acc i =>
      acc ++ (List.range (tagLen (tag / 4 ^ i % 4))).map
        (fun j => i * elemLen + j)) []
  fill ++ List.replicate (entryLen - fill.length) fillByte

/-- `arch/shuffle.rs::decode_shuffle_entry` (element `i` occupies entry
positions `i*ELEM_LEN..`, its first `len` positions receiving the
running input index; every untouched position keeps `fill_byte`). -/
def decode_shuffle_entry (elemLen entryLen tag : Nat) (tagLen : Nat → Nat)
    (fillByte : Nat) : List Nat :=
  ((List.range (entryLen / elemLen)).foldl
    (fun (s : List Nat × Nat) i =>
      let len := tagLen (tag / 4 ^ i % 4)
      (s.1 ++ (List.range elemLen).map
        (fun j => if j < len then s.2 + j else fillByte), s.2 + len))
    ([], 0)).1

/-- One entry of `arch/neon.rs::tag_encode_shuffle_table32` (macro
`generate_encode_shuffle_table` for `u32`): default fill 64. -/
def tag_encode_shuffle_entry32 (tagLen : Nat → Nat) (tag : Nat) :
    List Nat :=
  let fill := (List.range 4).foldl
    (fun acc i =>
      acc ++ (List.range (tagLen (tag / 4 ^ i % 4))).map
        (fun j => i * 4 + j)) []
  fill ++ List.replicate (16 - fill.length) 64

/-- One entry of `arch/neon.rs::tag_decode_shuffle_table32` (macro
`generate_decode_shuffle_table` for `u32`): default fill 64. -/
def tag_decode_shuffle_entry32 (tagLen : Nat → Nat) (tag : Nat) :
    List Nat :=
  ((List.range 4).foldl
    (fun (s : List Nat × Nat) i =>
      let len := tagLen (tag / 4 ^ i % 4)
      (s.1 ++ (List.range 4).map
        (fun j => if j < len then s.2 + j else 64), s.2 + len))
    ([], 0)).1

/-- `arch/neon.rs::generate_nibble_tag_len_table`: data length of the
two values described by one tag nibble. -/
def generate_nibble_tag_len_table (tagLen : Nat → Nat) : List Nat :=
  (List.range 16).map (fun t => tagLen (t % 4) + tagLen (t / 4 % 4))

/-- `arch/neon.rs::data_len8`: treat `[tag8, tag8 >> 4]` as 16 byte
lanes, mask each to its low nibble, look the nibble up in the table and
sum across the vector (`vaddlvq_u8`). -/
def data_len8_neon (tagLen : Nat → Nat) (tag8 : Nat) : Nat :=
  (((List.range 8).map (fun i =>
      (generate_nibble_tag_len_table tagLen).getD
        (tag8 / 2 ^ (8 * i) % 256 % 16) 0)) ++
    (List.range 8).map (fun i =>
      (generate_nibble_tag_len_table tagLen).getD
        (tag8 / 16 / 2 ^ (8 * i) % 256 % 16) 0)).sum

/-- Byte `k` of a `uint32x4_t` register holding the group `g` (lane
`k / 4`, byte `k % 4`). -/
def regBytes32 (g : List Nat) (k : Nat) : Nat :=
  leByte (g.getD (k / 4) 0) (k % 4)

/-- `group1234/neon.rs::RawGroupImpl::encode`: per-lane value tags via
`vqsubq_u32(3, vclzq_u32 >> 3)`, tag by summing lane-shifted value tags
(`vaddvq_u32(vshlq_u32(.., [0,2,4,6])) as u8`), written as the value-tag
sum plus 4, and a 16-byte `vst1q_u8` of the table-shuffled group bytes
(out-of-range shuffle indices produce 0). -/
def neonEncode1234 (mem : Nat → Nat) (off : Nat) (g : List Nat) :
    Nat × Nat × (Nat → Nat) :=
  let vt := fun i => 3 - leadingZeros 32 (g.getD i 0) / 8
  let tag := (vt 0 + vt 1 * 4 + vt 2 * 16 + vt 3 * 64) % 2 ^ 32 % 256
  let written := (vt 0 + vt 1 + vt 2 + vt 3) % 2 ^ 32 + 4
  let entry := tag_encode_shuffle_entry32 tagLen1234 tag
  let m2 := fun a =>
    if off ≤ a ∧ a < off + 16 then
      (if entry.getD (a - off) 64 < 16 then
        regBytes32 g (entry.getD (a - off) 64)
      else 0)
    else mem a
  (tag, written, m2)

/-- `group1234/neon.rs::RawGroupImpl::encode_deltas`:
`vsubq_u32(group, vextq_u32(base, group, 3))` then `encode`. -/
def neonEncodeDeltas1234 (mem : Nat → Nat) (off : Nat) (base g : List Nat) :
    Nat × Nat × (Nat → Nat) :=
  neonEncode1234 mem off
    [wsub desc1234 (g.getD 0 0) (base.getD 3 0),
     wsub desc1234 (g.getD 1 0) (g.getD 0 0),
     wsub desc1234 (g.getD 2 0) (g.getD 1 0),
     wsub desc1234 (g.getD 3 0) (g.getD 2 0)]

/-- `group1234/neon.rs::RawGroupImpl::decode`: `vqtbl1q_u8` of 16 input
bytes through the decode table (out-of-range indices give 0),
reinterpreted as four little-endian `u32` lanes; read is `data_len`. -/
def neonDecode1234 (data : List Nat) (off tag : Nat) : Nat × List Nat :=
  let entry := tag_decode_shuffle_entry32 tagLen1234 tag
  let outByte := fun k =>
    if entry.getD k 64 < 16 then data.getD (off + entry.getD k 64) 0 else 0
  let lane := fun i =>
    outByte (i * 4) + outByte (i * 4 + 1) * 256 +
      outByte (i * 4 + 2) * 65536 + outByte (i * 4 + 3) * 16777216
  (dataLen desc1234 tag, [lane 0, lane 1, lane 2, lane 3])

/-- One shuffled output byte of the NEON decode kernel (abstraction
helper for the statements below; `neonDecode1234`'s `outByte`). -/
def neonOutByte (data : List Nat) (off tag k : Nat) : Nat :=
  if (tag_decode_shuffle_entry32 tagLen1234 tag).getD k 64 < 16 then
    data.getD (off + (tag_decode_shuffle_entry32 tagLen1234 tag).getD k 64) 0
  else 0

/-- Modelled from the spec: `arch::neon::sum_deltas32` is called by
`group1234/neon.rs` but absent from the source tree.  Per spec section
4.4, it forms the within-group prefix sums of `deltas` with two vector
extend-and-add steps and adds them lane-wise (wrapping, `u32`) to
`base`. -/
def sum_deltas32 (base deltas : List Nat) : List Nat :=
  [(base.getD 0 0 + deltas.getD 0 0) % 2 ^ 32,
   (base.getD 1 0 + (deltas.getD 0 0 + deltas.getD 1 0)) % 2 ^ 32,
   (base.getD 2 0 + (deltas.getD 0 0 + deltas.getD 1 0 + deltas.getD 2 0)) %
     2 ^ 32,
   (base.getD 3 0 +
       (deltas.getD 0 0 + deltas.getD 1 0 + deltas.getD 2 0 +
         deltas.getD 3 0)) % 2 ^ 32]

/-- `group1234/neon.rs::RawGroupImpl::decode_deltas`: decode then
`sum_deltas32` against `vdupq_laneq_u32::<3>(base)`. -/
def neonDecodeDeltas1234 (data : List Nat) (off tag : Nat)
    (base : List Nat) : Nat × List Nat :=
  let r := neonDecode1234 data off tag
  (r.1, sum_deltas32 (set1 (base.getD 3 0)) r.2)

/-- `group1234/neon.rs::RawGroupImpl::skip_deltas`: decode then
`vaddvq_u32` (wrapping lane sum). -/
def neonSkipDeltas1234 (data : List Nat) (off tag : Nat) : Nat × Nat :=
  let r := neonDecode1234 data off tag
  (r.1,
    (r.2.getD 0 0 + r.2.getD 1 0 + r.2.getD 2 0 + r.2.getD 3 0) % 2 ^ 32)

/-- Value-tag of member `i` of a group (abstraction helper used in the
statements below). -/
def groupVTag (d : Desc) (g : List Nat) (i : Nat) : Nat :=
  (d.tagValue (g.getD i 0)).1

/-- Encoded length of member `i` of a group. -/
def groupLen (d : Desc) (g : List Nat) (i : Nat) : Nat :=
  (d.tagValue (g.getD i 0)).2

/-- Offset of member `i` inside the group's encoded bytes. -/
def groupOff (d : Desc) (g : List Nat) (i : Nat) : Nat :=
  ((List.range i).map (groupLen d g)).sum

/-- Tag byte of a group. -/
def groupTag (d : Desc) (g : List Nat) : Nat :=
  groupVTag d g 0 + groupVTag d g 1 * 4 + groupVTag d g 2 * 16 +
    groupVTag d g 3 * 64

/-- Encoded byte count of a group. -/
def groupWritten (d : Desc) (g : List Nat) : Nat := groupOff d g 4

/-- The `len` low bytes of `v`, little-endian: the wire payload of one
value. -/
def valueBytes (len v : Nat) : List Nat := (List.range len).map (leByte v)

/-- Wire bytes of one group. -/
def groupBytes (d : Desc) (g : List Nat) : List Nat :=
  valueBytes (groupLen d g 0) (g.getD 0 0) ++
    valueBytes (groupLen d g 1) (g.getD 1 0) ++
    valueBytes (groupLen d g 2) (g.getD 2 0) ++
    valueBytes (groupLen d g 3) (g.getD 3 0)

/-- The wrapping first differences of a group against the previous
group's last element. -/
def deltaGroup (d : Desc) (prev g : List Nat) : List Nat :=
  [wsub d (g.getD 0 0) (prev.getD 3 0),
   wsub d (g.getD 1 0) (g.getD 0 0),
   wsub d (g.getD 2 0) (g.getD 1 0),
   wsub d (g.getD 3 0) (g.getD 2 0)]

/-- Spec-side definition (for the minimality claim): the smallest
value-tag whose mask covers `v`. -/
def minCoveringTag (d : Desc) (v : Nat) : Nat :=
  if v ≤ d.TAG_MAX 0 then 0
  else if v ≤ d.TAG_MAX 1 then 1
  else if v ≤ d.TAG_MAX 2 then 2
  else 3

/-- Well-formedness facts about a descriptor, shared by all three
parameterizations (proved below for each instance). -/
structure DescOk (d : Desc) : Prop where
  width_pos : 0 < d.width
  width_le : d.width ≤ 8
  len_le : ∀ i, d.TAG_LEN (i % 4) ≤ d.width
  len_mono : ∀ i, i < 4 → d.TAG_LEN i ≤ d.TAG_LEN 3
  len3_pos : 0 < d.TAG_LEN 3
  tv_lt4 : ∀ v, (d.tagValue v).1 < 4
  tv_len : ∀ v, (d.tagValue v).2 = d.TAG_LEN (d.tagValue v).1
  tv_covers : ∀ v, v < d.M → v ≤ d.TAG_MAX (d.tagValue v).1
  max_eq : ∀ i, i < 4 → d.TAG_MAX i = 2 ^ (8 * d.TAG_LEN i) - 1

/-- Sum of the data lengths of a tag stream. -/
def sumLens (d : Desc) (tags : List Nat) : Nat :=
  (tags.map (dataLen d)).sum

/-- The eight bytes of a packed tag word, low to high. -/
def tag8Bytes (tag8 : Nat) : List Nat :=
  (List.range 8).map (fun i => tag8 / 2 ^ (i * 8) % 256)

/-- Sequential per-group processing: the reference semantics a decode
sink's loops must implement (one `handle1` per tag, the read cursor
advancing by the handled length). -/
def stepFold {σ : Type} (step : σ → Nat → Nat → List Nat → Nat → Nat × σ)
    (data : List Nat) :
    List Nat → σ → Nat → Nat → σ × Nat
  | [], s, read, _ => (s, read)
  | t :: ts, s, read, ti =>
      let r := step s ti t data read
      stepFold step data ts r.2 (read + r.1) (ti + 1)

/-- A decode sink whose handlers read the documented number of bytes,
depend on the data only through the window at the given offset, and
whose `handle8` processes the eight packed tags sequentially. -/
structure SinkLawful (d : Desc) {σ : Type} (sink : DecSink σ) : Prop where
  read1 : ∀ s ti tag data off,
    (sink.handle1 s ti tag data off).1 = dataLen d tag
  shift1 : ∀ s ti tag d1 o1 d2 o2,
    (∀ k, d1.getD (o1 + k) 0 = d2.getD (o2 + k) 0) →
    sink.handle1 s ti tag d1 o1 = sink.handle1 s ti tag d2 o2
  h8 : ∀ s ti tag8 data off,
    sink.handle8 s ti tag8 data off =
      (let f := stepFold sink.handle1 data (tag8Bytes tag8) s off ti
       (f.2 - off, f.1))

/-- `data` holds, starting at `off`, the concatenated wire bytes of the
given encoded groups. -/
def matchesStream (d : Desc) (data : List Nat) (off : Nat) :
    List (List Nat) → Prop
  | [] => True
  | e :: es =>
      (∀ q, q < groupWritten d e →
        data.getD (off + q) 0 = (groupBytes d e).getD q 0) ∧
      matchesStream d data (off + groupWritten d e) es

/-- The groups an encode sink run actually encodes: `E s g` is the group
written for input `g` in sink state `s` (identity for the standard sink,
wrapping differences for the delta sink), `upd` the state transition. -/
def encGroupsE {σ : Type} (E : σ → List Nat → List Nat)
    (upd : σ → List Nat → σ) : σ → List (List Nat) → List (List Nat)
  | _, [] => []
  | s, g :: gs => E s g :: encGroupsE E upd (upd s g) gs

/-- `mem` holds, starting at `off`, the concatenated wire bytes of the
given encoded groups (function-memory analogue of `matchesStream`). -/
def matchesStreamFn (d : Desc) (mem : Nat → Nat) (off : Nat) :
    List (List Nat) → Prop
  | [] => True
  | e :: es =>
      (∀ q, q < groupWritten d e →
        mem (off + q) = (groupBytes d e).getD q 0) ∧
      matchesStreamFn d mem (off + groupWritten d e) es

/-- The element stores performed when the groups `gs` are decoded
starting at tag index `ti`. -/
def expectedWrites (ti : Nat) : List (List Nat) → List (Nat × Nat)
  | [] => []
  | g :: gs => groupWrites ti g ++ expectedWrites (ti + 1) gs

/-- Last member (index 3) of the final group of `gs`, or of `base` when
`gs` is empty: the anchor a running delta stream ends on. -/
def lastOf (base : List Nat) : List (List Nat) → Nat
  | [] => base.getD 3 0
  | g :: gs => lastOf g gs

example : desc1234.tagValue 256 = (1, 2) := by decide
example : desc1234.tagValue 0 = (0, 1) := by decide
example : desc0124.tagValue 0 = (0, 0) := by decide
example : desc0124.tagValue 70000 = (3, 4) := by decide
example : desc1248.tagValue 4294967296 = (3, 8) := by decide
example : desc1248.tagValue 65535 = (1, 2) := by decide
example : dataLen desc1234 0 = 4 := by decide
example : dataLen desc1234 255 = 16 := by decide
example :
    (scalarEncode desc1234 (fun _ => 0) 0 [1, 256, 65536, 16777216]).1 =
      228 := by decide
example :
    (scalarEncode desc1234 (fun _ => 0) 0 [1, 256, 65536, 16777216]).2.1 =
      10 := by decide
example :
    (encode desc1234 [1, 256, 65536, 16777216, 1, 2, 3, 4] 2 32
        (fun _ => 0)).map (fun r => (r.1, r.2.1, memBytes r.2.2 r.2.1)) =
      some ([228, 0], 14, [1, 0, 1, 0, 0, 1, 0, 0, 0, 1, 1, 2, 3, 4]) := by
  decide
example :
    decode desc1234 [228, 0] [1, 0, 1, 0, 0, 1, 0, 0, 0, 1, 1, 2, 3, 4] 8 =
      some (14, (List.range 8).zip [1, 256, 65536, 16777216, 1, 2, 3, 4]) := by
  decide
example :
    (encode_deltas desc1234 0 [1, 2, 3, 4] 1 16 (fun _ => 0)).map
      (fun r => (r.1, r.2.1, memBytes r.2.2 r.2.1)) =
      some ([0], 4, [1, 1, 1, 1]) := by decide
example :
    decode_deltas desc1234 0 [0] [1, 1, 1, 1] 4 =
      some (4, ((List.range 4).zip [1, 2, 3, 4], [1, 2, 3, 4])) := by decide
example : skip_deltas desc1234 [0] [1, 1, 1, 1] = some (4, 4) := by decide

/-! ### Arithmetic and byte-level foundations -/

theorem bitLenAux_le_iff (fuel : Nat) :
    ∀ v k, v < 2 ^ fuel → k ≤ fuel → (bitLenAux fuel v ≤ k ↔ v < 2 ^ k) := by
  induction fuel with
  | zero =>
      intro v k hv hk
      have hk0 : k = 0 := Nat.le_zero.mp hk
      subst hk0
      simp only [bitLenAux, pow_zero] at hv ⊢
      omega
  | succ fuel ih =>
      intro v k hv hk
      by_cases h0 : v = 0
      · subst h0
        rw [show bitLenAux (fuel + 1) 0 = 0 from rfl]
        have : 0 < (2 : Nat) ^ k := Nat.pos_pow_of_pos k (by norm_num)
        omega
      · rw [bitLenAux, if_neg h0]
        cases k with
        | zero =>
            simp only [pow_zero]
            omega
        | succ k =>
            have hdiv : v / 2 < 2 ^ fuel := by
              have h2 : (2 : Nat) ^ (fuel + 1) = 2 ^ fuel * 2 := by ring
              omega
            rw [Nat.succ_le_succ_iff, ih (v / 2) k hdiv (by omega)]
            have h2 : (2 : Nat) ^ (k + 1) = 2 ^ k * 2 := by ring
            omega

theorem loadLE_zero (data : List Nat) (off : Nat) : loadLE 0 data off = 0 :=
  rfl

theorem loadLE_foldr (data : List Nat) (off : Nat) :
    ∀ (n : Nat) (init : Nat),
      (List.range n).foldr
        (fun k acc => acc * 256 + data.getD (off + k) 0) init =
        loadLE n data off + init * 2 ^ (8 * n) := by
  intro n
  induction n with
  | zero => intro init; simp [loadLE]
  | succ n ih =>
      intro init
      have hL : loadLE (n + 1) data off =
          loadLE n data off + data.getD (off + n) 0 * 2 ^ (8 * n) := by
        show (List.range (n + 1)).foldr
            (fun k acc => acc * 256 + data.getD (off + k) 0) 0 = _
        rw [List.range_succ, List.foldr_append]
        simp only [List.foldr]
        rw [ih]
        ring
      rw [List.range_succ, List.foldr_append]
      simp only [List.foldr]
      rw [ih, hL]
      have h2 : (2 : Nat) ^ (8 * (n + 1)) = 2 ^ (8 * n) * 256 := by
        rw [show 8 * (n + 1) = 8 * n + 8 by ring, pow_add]
        norm_num
      rw [h2]
      ring

theorem loadLE_succ (w : Nat) (data : List Nat) (off : Nat) :
    loadLE (w + 1) data off =
      loadLE w data off + data.getD (off + w) 0 * 2 ^ (8 * w) := by
  show (List.range (w + 1)).foldr
      (fun k acc => acc * 256 + data.getD (off + k) 0) 0 = _
  rw [List.range_succ, List.foldr_append]
  simp only [List.foldr]
  rw [loadLE_foldr data off w]
  ring

theorem loadLE_congr (w : Nat) (d1 d2 : List Nat) (o1 o2 : Nat)
    (h : ∀ k, k < w → d1.getD (o1 + k) 0 = d2.getD (o2 + k) 0) :
    loadLE w d1 o1 = loadLE w d2 o2 := by
  induction w with
  | zero => rfl
  | succ w ih =>
      rw [loadLE_succ, loadLE_succ, ih (fun k hk => h k (by omega)),
        h w (by omega)]

theorem getD_lt_256 (data : List Nat) (h : ∀ b ∈ data, b < 256) (i : Nat) :
    data.getD i 0 < 256 := by
  by_cases hi : i < data.length
  · rw [List.getD_eq_getElem data 0 hi]
    exact h _ (List.getElem_mem hi)
  · rw [List.getD_eq_default data 0 (by omega)]
    norm_num

theorem loadLE_lt (w : Nat) (data : List Nat) (off : Nat)
    (h : ∀ b ∈ data, b < 256) : loadLE w data off < 2 ^ (8 * w) := by
  induction w with
  | zero => simp [loadLE]
  | succ w ih =>
      rw [loadLE_succ]
      have hb := getD_lt_256 data h (off + w)
      have h2 : (2 : Nat) ^ (8 * (w + 1)) = 2 ^ (8 * w) * 256 := by
        rw [show 8 * (w + 1) = 8 * w + 8 by ring, pow_add]
        norm_num
      nlinarith [ih]

theorem loadLE_mod (w l : Nat) (data : List Nat) (off : Nat) (hlw : l ≤ w) :
    loadLE w data off % 2 ^ (8 * l) = loadLE l data off % 2 ^ (8 * l) := by
  induction w with
  | zero =>
      have : l = 0 := by omega
      subst this; rfl
  | succ w ih =>
      rcases Nat.lt_or_ge l (w + 1) with hl | hl
      · have hlw2 : l ≤ w := by omega
        have hsplit : (2 : Nat) ^ (8 * w) =
            2 ^ (8 * l) * 2 ^ (8 * w - 8 * l) := by
          rw [← pow_add]
          congr 1
          omega
        rw [loadLE_succ, hsplit,
          show data.getD (off + w) 0 * (2 ^ (8 * l) * 2 ^ (8 * w - 8 * l)) =
            data.getD (off + w) 0 * 2 ^ (8 * w - 8 * l) * 2 ^ (8 * l) by ring,
          Nat.add_mul_mod_self_right]
        exact ih hlw2
      · have : l = w + 1 := by omega
        subst this; rfl

theorem loadLE_mask (w l : Nat) (data : List Nat) (off : Nat) (hlw : l ≤ w)
    (h : ∀ b ∈ data, b < 256) :
    loadLE w data off % 2 ^ (8 * l) = loadLE l data off :=
  (loadLE_mod w l data off hlw).trans
    (Nat.mod_eq_of_lt (loadLE_lt l data off h))

theorem leByte_lt (v k : Nat) : leByte v k < 256 := by
  unfold leByte
  omega

theorem loadLE_leBytes (l : Nat) (v : Nat) (data : List Nat) (off : Nat)
    (h : ∀ k, k < l → data.getD (off + k) 0 = leByte v k) :
    loadLE l data off = v % 2 ^ (8 * l) := by
  induction l with
  | zero => simp [loadLE, Nat.mod_one]
  | succ l ih =>
      rw [loadLE_succ, ih (fun k hk => h k (by omega)), h l (by omega)]
      unfold leByte
      have h2 : (2 : Nat) ^ (8 * (l + 1)) = 2 ^ (8 * l) * 256 := by
        rw [show 8 * (l + 1) = 8 * l + 8 by ring, pow_add]
        norm_num
      rw [h2, Nat.mod_mul]
      ring

theorem storeLE_before (w : Nat) (mem : Nat → Nat) (off v a : Nat)
    (h : a < off) : storeLE w mem off v a = mem a := by
  unfold storeLE
  rw [if_neg (by omega)]

theorem storeLE_after (w : Nat) (mem : Nat → Nat) (off v a : Nat)
    (h : off + w ≤ a) : storeLE w mem off v a = mem a := by
  unfold storeLE
  rw [if_neg (by omega)]

theorem storeLE_at (w : Nat) (mem : Nat → Nat) (off v a : Nat)
    (h1 : off ≤ a) (h2 : a < off + w) :
    storeLE w mem off v a = leByte v (a - off) := by
  unfold storeLE
  rw [if_pos (by omega)]

/-! ### Descriptor facts: tag selection and well-formedness -/

theorem tagValue1234_eq_min (v : Nat) (hv : v < 2 ^ 32) :
    (desc1234.tagValue v).1 = minCoveringTag desc1234 v := by
  have h8 := bitLenAux_le_iff 32 v 8 hv (by norm_num)
  have h16 := bitLenAux_le_iff 32 v 16 hv (by norm_num)
  have h24 := bitLenAux_le_iff 32 v 24 hv (by norm_num)
  show 3 - (32 - bitLenAux 32 v) / 8 = minCoveringTag desc1234 v
  show 3 - (32 - bitLenAux 32 v) / 8 =
    if v ≤ 255 then 0 else if v ≤ 65535 then 1
    else if v ≤ 16777215 then 2 else 3
  norm_num at h8 h16 h24
  split_ifs <;> omega

theorem tagValue0124_eq_min (v : Nat) (hv : v < 2 ^ 32) :
    (desc0124.tagValue v).1 = minCoveringTag desc0124 v := by
  have h0 := bitLenAux_le_iff 32 v 0 hv (by norm_num)
  have h8 := bitLenAux_le_iff 32 v 8 hv (by norm_num)
  have h16 := bitLenAux_le_iff 32 v 16 hv (by norm_num)
  show TAG_VALUE_MAP (4 - (32 - bitLenAux 32 v) / 8) =
    minCoveringTag desc0124 v
  show TAG_VALUE_MAP (4 - (32 - bitLenAux 32 v) / 8) =
    if v ≤ 0 then 0 else if v ≤ 255 then 1
    else if v ≤ 65535 then 2 else 3
  norm_num at h0 h8 h16
  split_ifs with h1 h2 h3
  · have hx : 4 - (32 - bitLenAux 32 v) / 8 = 0 := by omega
    rw [hx]; rfl
  · have hx : 4 - (32 - bitLenAux 32 v) / 8 = 1 := by omega
    rw [hx]; rfl
  · have hx : 4 - (32 - bitLenAux 32 v) / 8 = 2 := by omega
    rw [hx]; rfl
  · have hx : 4 - (32 - bitLenAux 32 v) / 8 = 3 ∨
        4 - (32 - bitLenAux 32 v) / 8 = 4 := by omega
    rcases hx with hx | hx <;> rw [hx] <;> rfl

theorem tagValue1248_eq_min (v : Nat) (hv : v < 2 ^ 64) :
    (desc1248.tagValue v).1 = minCoveringTag desc1248 v := by
  have h8 := bitLenAux_le_iff 64 v 8 hv (by norm_num)
  have h16 := bitLenAux_le_iff 64 v 16 hv (by norm_num)
  have h32 := bitLenAux_le_iff 64 v 32 hv (by norm_num)
  have h64 := bitLenAux_le_iff 64 v 64 hv (by norm_num)
  show 32 - (32 - bitLenAux 32 (7 - (64 - bitLenAux 64 v) / 8)) =
    minCoveringTag desc1248 v
  show 32 - (32 - bitLenAux 32 (7 - (64 - bitLenAux 64 v) / 8)) =
    if v ≤ 255 then 0 else if v ≤ 65535 then 1
    else if v ≤ 4294967295 then 2 else 3
  norm_num at h8 h16 h32 h64
  split_ifs with h1 h2 h3
  · have hx : 7 - (64 - bitLenAux 64 v) / 8 = 0 := by omega
    rw [hx]; rfl
  · have hx : 7 - (64 - bitLenAux 64 v) / 8 = 1 := by omega
    rw [hx]; rfl
  · have hx : 7 - (64 - bitLenAux 64 v) / 8 = 2 ∨
        7 - (64 - bitLenAux 64 v) / 8 = 3 := by omega
    rcases hx with hx | hx <;> rw [hx] <;> rfl
  · have hx : 7 - (64 - bitLenAux 64 v) / 8 = 4 ∨
        7 - (64 - bitLenAux 64 v) / 8 = 5 ∨
        7 - (64 - bitLenAux 64 v) / 8 = 6 ∨
        7 - (64 - bitLenAux 64 v) / 8 = 7 := by omega
    rcases hx with hx | hx | hx | hx <;> rw [hx] <;> rfl

theorem minCoveringTag_lt4 (d : Desc) (v : Nat) : minCoveringTag d v < 4 := by
  unfold minCoveringTag
  split_ifs <;> omega

theorem minCoveringTag_covers (d : Desc) (v : Nat)
    (hmax3 : d.M - 1 ≤ d.TAG_MAX 3) (hv : v < d.M) :
    v ≤ d.TAG_MAX (minCoveringTag d v) := by
  unfold minCoveringTag
  split_ifs with h1 h2 h3
  · exact h1
  · exact h2
  · exact h3
  · omega

theorem descOk1234 : DescOk desc1234 := by
  refine ⟨by decide, by decide, ?_, ?_, by decide, ?_, ?_, ?_, ?_⟩
  · intro i
    have h4 : i % 4 < 4 := Nat.mod_lt _ (by norm_num)
    set j := i % 4 with hj
    interval_cases j <;> norm_num [desc1234, tagLen1234]
  · intro i hi
    interval_cases i <;> norm_num [desc1234, tagLen1234]
  · intro v
    show 3 - leadingZeros 32 v / 8 < 4
    omega
  · intro v
    show 3 - leadingZeros 32 v / 8 + 1 =
      tagLen1234 (3 - leadingZeros 32 v / 8)
    set t := 3 - leadingZeros 32 v / 8 with ht
    have h4 : t ≤ 3 := by omega
    interval_cases t <;> rfl
  · intro v hv
    have hv32 : v < 2 ^ 32 := hv
    rw [show (desc1234.tagValue v).1 = minCoveringTag desc1234 v from
      tagValue1234_eq_min v hv32]
    exact minCoveringTag_covers desc1234 v (by norm_num [desc1234, Desc.M, tagLen1234, tagMask32]) hv
  · intro i hi
    interval_cases i <;> norm_num [desc1234, tagLen1234, tagMask32]

theorem descOk0124 : DescOk desc0124 := by
  refine ⟨by decide, by decide, ?_, ?_, by decide, ?_, ?_, ?_, ?_⟩
  · intro i
    have h4 : i % 4 < 4 := Nat.mod_lt _ (by norm_num)
    set j := i % 4 with hj
    interval_cases j <;> norm_num [desc0124, tagLen0124]
  · intro i hi
    interval_cases i <;> norm_num [desc0124, tagLen0124]
  · intro v
    show TAG_VALUE_MAP (4 - leadingZeros 32 v / 8) < 4
    set k := 4 - leadingZeros 32 v / 8 with hk
    have h4 : k ≤ 4 := by omega
    interval_cases k <;> norm_num [TAG_VALUE_MAP]
  · intro v
    rfl
  · intro v hv
    have hv32 : v < 2 ^ 32 := hv
    rw [show (desc0124.tagValue v).1 = minCoveringTag desc0124 v from
      tagValue0124_eq_min v hv32]
    exact minCoveringTag_covers desc0124 v (by norm_num [desc0124, Desc.M, tagLen0124, tagMask32]) hv
  · intro i hi
    interval_cases i <;> norm_num [desc0124, tagLen0124, tagMask32]

theorem descOk1248 : DescOk desc1248 := by
  refine ⟨by decide, by decide, ?_, ?_, by decide, ?_, ?_, ?_, ?_⟩
  · intro i
    have h4 : i % 4 < 4 := Nat.mod_lt _ (by norm_num)
    set j := i % 4 with hj
    interval_cases j <;> norm_num [desc1248, tagLen1248]
  · intro i hi
    interval_cases i <;> norm_num [desc1248, tagLen1248]
  · intro v
    show 32 - leadingZeros 32 (7 - leadingZeros 64 v / 8) < 4
    unfold leadingZeros
    set t3 := 7 - (64 - bitLenAux 64 v) / 8 with ht3
    have h7 : t3 ≤ 7 := by omega
    have hle := bitLenAux_le_iff 32 t3 3 (by omega) (by norm_num)
    have : bitLenAux 32 t3 ≤ 3 := hle.mpr (by norm_num; omega)
    have hle32 := bitLenAux_le_iff 32 t3 32 (by omega) (by norm_num)
    omega
  · intro v
    rfl
  · intro v hv
    have hv64 : v < 2 ^ 64 := hv
    rw [show (desc1248.tagValue v).1 = minCoveringTag desc1248 v from
      tagValue1248_eq_min v hv64]
    exact minCoveringTag_covers desc1248 v (by norm_num [desc1248, Desc.M, tagLen1248, tagMask64]) hv
  · intro i hi
    interval_cases i <;> norm_num [desc1248, tagLen1248, tagMask64]

/-! ### Scalar group kernel: characterization -/

theorem groupOff_zero (d : Desc) (g : List Nat) : groupOff d g 0 = 0 := rfl

theorem groupOff_succ (d : Desc) (g : List Nat) (i : Nat) :
    groupOff d g (i + 1) = groupOff d g i + groupLen d g i := by
  unfold groupOff
  rw [List.range_succ, List.map_append, List.sum_append]
  simp

theorem groupOff_one (d : Desc) (g : List Nat) :
    groupOff d g 1 = groupLen d g 0 := by
  rw [groupOff_succ, groupOff_zero, Nat.zero_add]

theorem groupOff_two (d : Desc) (g : List Nat) :
    groupOff d g 2 = groupLen d g 0 + groupLen d g 1 := by
  rw [groupOff_succ, groupOff_one]

theorem groupOff_three (d : Desc) (g : List Nat) :
    groupOff d g 3 = groupLen d g 0 + groupLen d g 1 + groupLen d g 2 := by
  rw [groupOff_succ, groupOff_two]

theorem groupWritten_eq (d : Desc) (g : List Nat) :
    groupWritten d g =
      groupLen d g 0 + groupLen d g 1 + groupLen d g 2 + groupLen d g 3 := by
  unfold groupWritten
  rw [groupOff_succ, groupOff_three]

theorem groupLen_le_width (d : Desc) (hOk : DescOk d) (g : List Nat)
    (i : Nat) : groupLen d g i ≤ d.width := by
  unfold groupLen
  rw [hOk.tv_len]
  have h4 := hOk.tv_lt4 (g.getD i 0)
  have := hOk.len_le (d.tagValue (g.getD i 0)).1
  rwa [Nat.mod_eq_of_lt h4] at this

theorem scalarEncode_def (d : Desc) (mem : Nat → Nat) (off : Nat)
    (g : List Nat) :
    scalarEncode d mem off g =
      ((((0 ||| (d.tagValue (g.getD 0 0)).1 * 2 ^ (0 * 2)) |||
          (d.tagValue (g.getD 1 0)).1 * 2 ^ (1 * 2)) |||
          (d.tagValue (g.getD 2 0)).1 * 2 ^ (2 * 2)) |||
          (d.tagValue (g.getD 3 0)).1 * 2 ^ (3 * 2),
        0 + (d.tagValue (g.getD 0 0)).2 + (d.tagValue (g.getD 1 0)).2 +
          (d.tagValue (g.getD 2 0)).2 + (d.tagValue (g.getD 3 0)).2,
        storeLE d.width
          (storeLE d.width
            (storeLE d.width
              (storeLE d.width mem (off + 0) (g.getD 0 0))
              (off + (0 + (d.tagValue (g.getD 0 0)).2)) (g.getD 1 0))
            (off +
              (0 + (d.tagValue (g.getD 0 0)).2 + (d.tagValue (g.getD 1 0)).2))
            (g.getD 2 0))
          (off +
            (0 + (d.tagValue (g.getD 0 0)).2 + (d.tagValue (g.getD 1 0)).2 +
              (d.tagValue (g.getD 2 0)).2))
          (g.getD 3 0)) := rfl

theorem lor_mul4 (a b c e : Nat) (ha : a < 4) (hb : b < 4) (hc : c < 4)
    (he : e < 4) :
    (((0 ||| a * 2 ^ (0 * 2)) ||| b * 2 ^ (1 * 2)) ||| c * 2 ^ (2 * 2)) |||
        e * 2 ^ (3 * 2) =
      a + b * 4 + c * 16 + e * 64 := by
  interval_cases a <;> interval_cases b <;> interval_cases c <;>
    interval_cases e <;> rfl

theorem scalarEncode_tag (d : Desc) (hOk : DescOk d) (mem : Nat → Nat)
    (off : Nat) (g : List Nat) :
    (scalarEncode d mem off g).1 = groupTag d g := by
  rw [scalarEncode_def]
  exact lor_mul4 _ _ _ _ (hOk.tv_lt4 _) (hOk.tv_lt4 _) (hOk.tv_lt4 _)
    (hOk.tv_lt4 _)

theorem scalarEncode_written (d : Desc) (mem : Nat → Nat) (off : Nat)
    (g : List Nat) :
    (scalarEncode d mem off g).2.1 = groupWritten d g := by
  have h : (scalarEncode d mem off g).2.1 =
      0 + (d.tagValue (g.getD 0 0)).2 + (d.tagValue (g.getD 1 0)).2 +
        (d.tagValue (g.getD 2 0)).2 + (d.tagValue (g.getD 3 0)).2 := rfl
  rw [h, groupWritten_eq]
  unfold groupLen
  omega

theorem scalarEncode_mem_before (d : Desc) (mem : Nat → Nat) (off : Nat)
    (g : List Nat) (a : Nat) (h : a < off) :
    (scalarEncode d mem off g).2.2 a = mem a := by
  rw [scalarEncode_def]
  simp only [storeLE]
  rw [if_neg (by omega), if_neg (by omega), if_neg (by omega),
    if_neg (by omega)]

theorem scalarEncode_mem_after (d : Desc) (hOk : DescOk d) (mem : Nat → Nat)
    (off : Nat) (g : List Nat) (a : Nat) (h : off + 4 * d.width ≤ a) :
    (scalarEncode d mem off g).2.2 a = mem a := by
  have hl0 := groupLen_le_width d hOk g 0
  have hl1 := groupLen_le_width d hOk g 1
  have hl2 := groupLen_le_width d hOk g 2
  have hl3 := groupLen_le_width d hOk g 3
  unfold groupLen at hl0 hl1 hl2 hl3
  rw [scalarEncode_def]
  simp only [storeLE]
  rw [if_neg (by omega), if_neg (by omega), if_neg (by omega),
    if_neg (by omega)]

theorem scalarEncode_mem_at (d : Desc) (hOk : DescOk d) (mem : Nat → Nat)
    (off : Nat) (g : List Nat) (i j : Nat) (hi : i < 4)
    (hj : j < groupLen d g i) :
    (scalarEncode d mem off g).2.2 (off + groupOff d g i + j) =
      leByte (g.getD i 0) j := by
  have hl0 := groupLen_le_width d hOk g 0
  have hl1 := groupLen_le_width d hOk g 1
  have hl2 := groupLen_le_width d hOk g 2
  have hl3 := groupLen_le_width d hOk g 3
  have e0 : groupLen d g 0 = (d.tagValue (g.getD 0 0)).2 := rfl
  have e1 : groupLen d g 1 = (d.tagValue (g.getD 1 0)).2 := rfl
  have e2 : groupLen d g 2 = (d.tagValue (g.getD 2 0)).2 := rfl
  have e3 : groupLen d g 3 = (d.tagValue (g.getD 3 0)).2 := rfl
  rw [scalarEncode_def]
  simp only [storeLE]
  rw [← e0, ← e1, ← e2]
  interval_cases i
  · rw [groupOff_zero]
    rw [if_neg (by omega), if_neg (by omega), if_neg (by omega),
      if_pos (by omega)]
    congr 1
    omega
  · rw [groupOff_one]
    rw [if_neg (by omega), if_neg (by omega), if_pos (by omega)]
    congr 1
    omega
  · rw [groupOff_two]
    rw [if_neg (by omega), if_pos (by omega)]
    congr 1
    omega
  · rw [groupOff_three]
    rw [if_pos (by omega)]
    congr 1
    omega

theorem valueBytes_length (len v : Nat) : (valueBytes len v).length = len := by
  simp [valueBytes]

theorem valueBytes_getD (len v j : Nat) (hj : j < len) :
    (valueBytes len v).getD j 0 = leByte v j := by
  unfold valueBytes
  rw [List.getD_eq_getElem _ _ (by simpa using hj)]
  simp

theorem groupBytes_length (d : Desc) (g : List Nat) :
    (groupBytes d g).length = groupWritten d g := by
  unfold groupBytes
  rw [groupWritten_eq]
  simp [valueBytes_length]
  ring

theorem groupBytes_getD (d : Desc) (g : List Nat) (i j : Nat) (hi : i < 4)
    (hj : j < groupLen d g i) :
    (groupBytes d g).getD (groupOff d g i + j) 0 = leByte (g.getD i 0) j := by
  unfold groupBytes
  interval_cases i
  · rw [groupOff_zero, Nat.zero_add,
      List.getD_append _ _ _ _
        (by simp only [List.length_append, valueBytes_length]; omega),
      List.getD_append _ _ _ _
        (by simp only [List.length_append, valueBytes_length]; omega),
      List.getD_append _ _ _ _ (by rw [valueBytes_length]; omega)]
    exact valueBytes_getD _ _ _ hj
  · rw [groupOff_one,
      List.getD_append _ _ _ _
        (by simp only [List.length_append, valueBytes_length]; omega),
      List.getD_append _ _ _ _
        (by simp only [List.length_append, valueBytes_length]; omega),
      List.getD_append_right _ _ _ _ (by rw [valueBytes_length]; omega),
      valueBytes_length, Nat.add_sub_cancel_left]
    exact valueBytes_getD _ _ _ hj
  · rw [groupOff_two,
      List.getD_append _ _ _ _
        (by simp only [List.length_append, valueBytes_length]; omega),
      List.getD_append_right _ _ _ _
        (by simp only [List.length_append, valueBytes_length]; omega)]
    simp only [List.length_append, valueBytes_length]
    rw [show groupLen d g 0 + groupLen d g 1 + j -
        (groupLen d g 0 + groupLen d g 1) = j by omega]
    exact valueBytes_getD _ _ _ hj
  · rw [groupOff_three,
      List.getD_append_right _ _ _ _
        (by simp only [List.length_append, valueBytes_length]; omega)]
    simp only [List.length_append, valueBytes_length]
    rw [show groupLen d g 0 + groupLen d g 1 + groupLen d g 2 + j -
        (groupLen d g 0 + groupLen d g 1 + groupLen d g 2) = j by omega]
    exact valueBytes_getD _ _ _ hj

theorem scalarDecode_def (d : Desc) (data : List Nat) (off tag : Nat) :
    scalarDecode d data off tag =
      (0 + d.TAG_LEN (tag / 4 ^ 0 % 4) + d.TAG_LEN (tag / 4 ^ 1 % 4) +
        d.TAG_LEN (tag / 4 ^ 2 % 4) + d.TAG_LEN (tag / 4 ^ 3 % 4),
       [] ++ [loadLE d.width data (off + 0) &&& d.TAG_MAX (tag / 4 ^ 0 % 4)] ++
        [loadLE d.width data (off + (0 + d.TAG_LEN (tag / 4 ^ 0 % 4))) &&&
          d.TAG_MAX (tag / 4 ^ 1 % 4)] ++
        [loadLE d.width data
            (off + (0 + d.TAG_LEN (tag / 4 ^ 0 % 4) +
              d.TAG_LEN (tag / 4 ^ 1 % 4))) &&&
          d.TAG_MAX (tag / 4 ^ 2 % 4)] ++
        [loadLE d.width data
            (off + (0 + d.TAG_LEN (tag / 4 ^ 0 % 4) +
              d.TAG_LEN (tag / 4 ^ 1 % 4) + d.TAG_LEN (tag / 4 ^ 2 % 4))) &&&
          d.TAG_MAX (tag / 4 ^ 3 % 4)]) := rfl

theorem scalarDecode_read (d : Desc) (data : List Nat) (off tag : Nat) :
    (scalarDecode d data off tag).1 = dataLen d tag := by
  have h : (scalarDecode d data off tag).1 =
      0 + d.TAG_LEN (tag / 4 ^ 0 % 4) + d.TAG_LEN (tag / 4 ^ 1 % 4) +
        d.TAG_LEN (tag / 4 ^ 2 % 4) + d.TAG_LEN (tag / 4 ^ 3 % 4) := rfl
  rw [h]
  unfold dataLen tagToEncodedLen
  norm_num

theorem groupOff_add_len_le (d : Desc) (g : List Nat) (i : Nat) (hi : i < 4) :
    groupOff d g i + groupLen d g i ≤ groupWritten d g := by
  rw [groupWritten_eq]
  interval_cases i <;>
    simp only [groupOff_zero, groupOff_one, groupOff_two, groupOff_three] <;>
    omega

theorem decode_value (d : Desc) (hOk : DescOk d) (data : List Nat)
    (off : Nat) (e : List Nat) (i : Nat) (hi : i < 4)
    (hval : e.getD i 0 < d.M)
    (hwin : ∀ q, q < groupWritten d e →
      data.getD (off + q) 0 = (groupBytes d e).getD q 0) :
    loadLE d.width data (off + groupOff d e i) &&&
        d.TAG_MAX (groupVTag d e i) = e.getD i 0 := by
  have hlt : groupVTag d e i < 4 := hOk.tv_lt4 (e.getD i 0)
  have hmax : d.TAG_MAX (groupVTag d e i) =
      2 ^ (8 * d.TAG_LEN (groupVTag d e i)) - 1 := hOk.max_eq _ hlt
  have hlen : d.TAG_LEN (groupVTag d e i) = groupLen d e i :=
    (hOk.tv_len (e.getD i 0)).symm
  have hcov : e.getD i 0 ≤ d.TAG_MAX (groupVTag d e i) :=
    hOk.tv_covers (e.getD i 0) hval
  have hwidth : groupLen d e i ≤ d.width := groupLen_le_width d hOk e i
  rw [hmax, hlen] at *
  rw [Nat.and_pow_two_sub_one_eq_mod,
    loadLE_mod d.width (groupLen d e i) data _ hwidth,
    loadLE_leBytes (groupLen d e i) (e.getD i 0) data _ ?_,
    Nat.mod_mod_of_dvd _ dvd_rfl,
    Nat.mod_eq_of_lt (by have := Nat.pos_pow_of_pos (8 * groupLen d e i) (show 0 < 2 by norm_num); omega)]
  intro k hk
  rw [show off + groupOff d e i + k = off + (groupOff d e i + k) by ring,
    hwin _ (by have := groupOff_add_len_le d e i hi; omega),
    groupBytes_getD d e i k hi hk]

theorem scalarDecode_stream (d : Desc) (hOk : DescOk d) (data : List Nat)
    (off : Nat) (e : List Nat)
    (hvals : ∀ i, i < 4 → e.getD i 0 < d.M)
    (hwin : ∀ q, q < groupWritten d e →
      data.getD (off + q) 0 = (groupBytes d e).getD q 0) :
    scalarDecode d data off (groupTag d e) =
      (groupWritten d e,
       [e.getD 0 0, e.getD 1 0, e.getD 2 0, e.getD 3 0]) := by
  have ht0 : groupVTag d e 0 < 4 := hOk.tv_lt4 _
  have ht1 : groupVTag d e 1 < 4 := hOk.tv_lt4 _
  have ht2 : groupVTag d e 2 < 4 := hOk.tv_lt4 _
  have ht3 : groupVTag d e 3 < 4 := hOk.tv_lt4 _
  have hx0 : groupTag d e / 4 ^ 0 % 4 = groupVTag d e 0 := by
    unfold groupTag; norm_num; omega
  have hx1 : groupTag d e / 4 ^ 1 % 4 = groupVTag d e 1 := by
    unfold groupTag; norm_num; omega
  have hx2 : groupTag d e / 4 ^ 2 % 4 = groupVTag d e 2 := by
    unfold groupTag; norm_num; omega
  have hx3 : groupTag d e / 4 ^ 3 % 4 = groupVTag d e 3 := by
    unfold groupTag; norm_num; omega
  have hL0 : d.TAG_LEN (groupVTag d e 0) = groupLen d e 0 :=
    (hOk.tv_len (e.getD 0 0)).symm
  have hL1 : d.TAG_LEN (groupVTag d e 1) = groupLen d e 1 :=
    (hOk.tv_len (e.getD 1 0)).symm
  have hL2 : d.TAG_LEN (groupVTag d e 2) = groupLen d e 2 :=
    (hOk.tv_len (e.getD 2 0)).symm
  have hL3 : d.TAG_LEN (groupVTag d e 3) = groupLen d e 3 :=
    (hOk.tv_len (e.getD 3 0)).symm
  rw [scalarDecode_def, hx0, hx1, hx2, hx3, hL0, hL1, hL2, hL3]
  have o0 : off + 0 = off + groupOff d e 0 := by rw [groupOff_zero]
  have o1 : off + (0 + groupLen d e 0) = off + groupOff d e 1 := by
    rw [groupOff_one]; ring
  have o2 : off + (0 + groupLen d e 0 + groupLen d e 1) =
      off + groupOff d e 2 := by rw [groupOff_two]; ring
  have o3 : off + (0 + groupLen d e 0 + groupLen d e 1 + groupLen d e 2) =
      off + groupOff d e 3 := by rw [groupOff_three]; ring
  rw [o0, o1, o2, o3,
    decode_value d hOk data off e 0 (by norm_num) (hvals 0 (by norm_num)) hwin,
    decode_value d hOk data off e 1 (by norm_num) (hvals 1 (by norm_num)) hwin,
    decode_value d hOk data off e 2 (by norm_num) (hvals 2 (by norm_num)) hwin,
    decode_value d hOk data off e 3 (by norm_num) (hvals 3 (by norm_num)) hwin]
  rw [Prod.mk.injEq]
  constructor
  · rw [groupWritten_eq]; omega
  · simp

/-! ### Wrapping arithmetic -/

theorem M_pos (d : Desc) : 0 < d.M :=
  Nat.pos_pow_of_pos _ (by norm_num)

theorem wadd_lt (d : Desc) (a b : Nat) : wadd d a b < d.M :=
  Nat.mod_lt _ (M_pos d)

theorem wsub_lt (d : Desc) (a b : Nat) : wsub d a b < d.M :=
  Nat.mod_lt _ (M_pos d)

theorem wadd_wsub_cancel (d : Desc) (a b : Nat) (hb : b < d.M) :
    wadd d a (wsub d b a) = b := by
  unfold wadd wsub
  rw [Nat.add_mod_mod]
  have hdm := Nat.div_add_mod a d.M
  have hmod : a % d.M < d.M := Nat.mod_lt _ (M_pos d)
  have key : a + (b + (d.M - a % d.M)) = b + d.M * (a / d.M) + d.M := by
    omega
  rw [key,
    show b + d.M * (a / d.M) + d.M = b + (a / d.M + 1) * d.M by ring,
    Nat.add_mul_mod_self_right, Nat.mod_eq_of_lt hb]

/-! ### Encode driver -/

theorem groupWritten_pos_decomp (d : Desc) (e : List Nat) (q : Nat)
    (hq : q < groupWritten d e) :
    ∃ i j, i < 4 ∧ j < groupLen d e i ∧ q = groupOff d e i + j := by
  rw [groupWritten_eq] at hq
  rcases Nat.lt_or_ge q (groupLen d e 0) with h0 | h0
  · exact ⟨0, q, by norm_num, h0, by rw [groupOff_zero]; omega⟩
  rcases Nat.lt_or_ge q (groupLen d e 0 + groupLen d e 1) with h1 | h1
  · exact ⟨1, q - groupLen d e 0, by norm_num, by omega,
      by rw [groupOff_one]; omega⟩
  rcases Nat.lt_or_ge q
      (groupLen d e 0 + groupLen d e 1 + groupLen d e 2) with h2 | h2
  · exact ⟨2, q - (groupLen d e 0 + groupLen d e 1), by norm_num, by omega,
      by rw [groupOff_two]; omega⟩
  · exact ⟨3, q - (groupLen d e 0 + groupLen d e 1 + groupLen d e 2),
      by norm_num, by omega, by rw [groupOff_three]; omega⟩

theorem memBytes_getD (mem : Nat → Nat) (n p : Nat) (hp : p < n) :
    (memBytes mem n).getD p 0 = mem p := by
  unfold memBytes
  rw [List.getD_eq_getElem _ _ (by simpa using hp)]
  simp

theorem matchesStreamFn_to_list (d : Desc) (mem : Nat → Nat) (n : Nat) :
    ∀ (es : List (List Nat)) (off : Nat),
      matchesStreamFn d mem off es →
      off + (es.map (groupWritten d)).sum ≤ n →
      matchesStream d (memBytes mem n) off es := by
  intro es
  induction es with
  | nil => intro off _ _; trivial
  | cons e es ih =>
      intro off h hn
      simp only [List.map_cons, List.sum_cons] at hn
      refine ⟨fun q hq => ?_, ih (off + groupWritten d e) h.2 (by omega)⟩
      rw [memBytes_getD mem n _ (by omega)]
      exact h.1 q hq

theorem encodeGroupsLoop_spec (d : Desc) (hOk : DescOk d) {σ : Type}
    (sink : EncSink σ) (E : σ → List Nat → List Nat)
    (upd : σ → List Nat → σ)
    (hsink : ∀ s mem off g, sink.handle s mem off g =
      ((scalarEncode d mem off (E s g)).1,
       (scalarEncode d mem off (E s g)).2.1,
       (scalarEncode d mem off (E s g)).2.2, upd s g)) :
    ∀ (gs : List (List Nat)) (mem : Nat → Nat) (w0 : Nat) (s : σ),
      (encodeGroupsLoop sink gs mem w0 s).1 =
        (encGroupsE E upd s gs).map (groupTag d) ∧
      (encodeGroupsLoop sink gs mem w0 s).2.1 =
        w0 + ((encGroupsE E upd s gs).map (groupWritten d)).sum ∧
      (∀ a, a < w0 → (encodeGroupsLoop sink gs mem w0 s).2.2 a = mem a) ∧
      matchesStreamFn d (encodeGroupsLoop sink gs mem w0 s).2.2 w0
        (encGroupsE E upd s gs) := by
  intro gs
  induction gs with
  | nil =>
      intro mem w0 s
      exact ⟨rfl, by simp [encodeGroupsLoop, encGroupsE], fun a _ => rfl,
        trivial⟩
  | cons g gs ih =>
      intro mem w0 s
      have hmem1 := scalarEncode_mem_before d mem w0 (E s g)
      have hw := scalarEncode_written d mem w0 (E s g)
      have ht := scalarEncode_tag d hOk mem w0 (E s g)
      simp only [encodeGroupsLoop, hsink]
      rw [hw, ht]
      obtain ⟨ih1, ih2, ih3, ih4⟩ :=
        ih (scalarEncode d mem w0 (E s g)).2.2
          (w0 + groupWritten d (E s g)) (upd s g)
      refine ⟨?_, ?_, ?_, ?_⟩
      · simp only [encGroupsE, List.map_cons]
        rw [ih1]
      · simp only [encGroupsE, List.map_cons, List.sum_cons]
        rw [ih2]
        ring
      · intro a ha
        rw [ih3 a (by omega), hmem1 a ha]
      · refine ⟨fun q hq => ?_, ih4⟩
        obtain ⟨i, j, hi, hj, rfl⟩ :=
          groupWritten_pos_decomp d (E s g) q hq
        rw [ih3 _ (by omega),
          show w0 + (groupOff d (E s g) i + j) =
            w0 + groupOff d (E s g) i + j by ring,
          scalarEncode_mem_at d hOk mem w0 (E s g) i j hi hj,
          groupBytes_getD d (E s g) i j hi hj]

theorem stdEncSink_handle (d : Desc) :
    ∀ (s : Unit) (mem : Nat → Nat) (off : Nat) (g : List Nat),
      (stdEncSink d).handle s mem off g =
        ((scalarEncode d mem off g).1, (scalarEncode d mem off g).2.1,
         (scalarEncode d mem off g).2.2, ()) :=
  fun _ _ _ _ => rfl

theorem deltaEncSink_handle (d : Desc) :
    ∀ (s : List Nat) (mem : Nat → Nat) (off : Nat) (g : List Nat),
      (deltaEncSink d).handle s mem off g =
        ((scalarEncode d mem off (deltaGroup d s g)).1,
         (scalarEncode d mem off (deltaGroup d s g)).2.1,
         (scalarEncode d mem off (deltaGroup d s g)).2.2, g) :=
  fun _ _ _ _ => rfl

theorem chunks4_length (vs : List Nat) :
    (chunks4 vs).length = vs.length / 4 := by
  induction vs using chunks4.induct with
  | case1 a b c e rest ih =>
      rw [chunks4]
      simp only [List.length_cons, ih]
      omega
  | case2 vs h =>
      rcases vs with _ | ⟨a, _ | ⟨b, _ | ⟨c, _ | ⟨e, rest⟩⟩⟩⟩
      · simp [chunks4]
      · simp [chunks4]
      · simp [chunks4]
      · simp [chunks4]
      · exact absurd rfl (by intro hh; exact (h a b c e rest hh).elim)

theorem chunks4_chunk_length (vs : List Nat) :
    ∀ c ∈ chunks4 vs, c.length = 4 := by
  induction vs using chunks4.induct with
  | case1 a b c e rest ih =>
      rw [chunks4]
      intro x hx
      rcases List.mem_cons.mp hx with h | h
      · subst h; rfl
      · exact ih x h
  | case2 vs h =>
      rcases vs with _ | ⟨a, _ | ⟨b, _ | ⟨c, _ | ⟨e, rest⟩⟩⟩⟩
      · simp [chunks4]
      · simp [chunks4]
      · simp [chunks4]
      · simp [chunks4]
      · exact absurd rfl (by intro hh; exact (h a b c e rest hh).elim)

theorem expectedWrites_chunks4 (vs : List Nat) (hlen : vs.length % 4 = 0) :
    ∀ k, expectedWrites k (chunks4 vs) =
      (List.range vs.length).map (fun j => (4 * k + j, vs.getD j 0)) := by
  induction vs using chunks4.induct with
  | case1 a b c e rest ih =>
      intro k
      have hr : rest.length % 4 = 0 := by
        simp only [List.length_cons] at hlen
        omega
      rw [chunks4]
      simp only [expectedWrites]
      rw [ih hr (k + 1)]
      have hlc : (a :: b :: c :: e :: rest).length = 4 + rest.length := by
        simp only [List.length_cons]
        omega
      rw [hlc, List.range_add, List.map_append, List.map_map]
      congr 1
      · show groupWrites k [a, b, c, e] = _
        unfold groupWrites
        simp [List.range_succ]
        ring
      · apply List.map_congr_left
        intro j hj
        simp only [Function.comp_apply]
        rw [Prod.mk.injEq]
        refine ⟨by omega, ?_⟩
        rw [show 4 + j = j + 1 + 1 + 1 + 1 by ring]
        simp [List.getD_cons_succ]
  | case2 vs h =>
      intro k
      rcases vs with _ | ⟨a, _ | ⟨b, _ | ⟨c, _ | ⟨e, rest⟩⟩⟩⟩
      · simp [chunks4, expectedWrites]
      · simp at hlen
      · simp at hlen
      · simp at hlen
      · exact absurd rfl (by intro hh; exact (h a b c e rest hh).elim)

theorem zip_range_eq_map (vs : List Nat) :
    (List.range vs.length).zip vs =
      (List.range vs.length).map (fun j => (j, vs.getD j 0)) := by
  apply List.ext_getElem
  · simp
  · intro i h1 h2
    simp only [List.getElem_zip, List.getElem_map, List.getElem_range]
    have hi : i < vs.length := by simpa using h2
    rw [List.getD_eq_getElem vs 0 hi]

/-! ### Decode driver: lawful sinks -/

theorem tag8Bytes_loadLE (c : List Nat) (hl : c.length = 8)
    (hb : ∀ b ∈ c, b < 256) : tag8Bytes (loadLE 8 c 0) = c := by
  rcases c with _ | ⟨b0, c⟩
  · simp at hl
  rcases c with _ | ⟨b1, c⟩
  · simp at hl
  rcases c with _ | ⟨b2, c⟩
  · simp at hl
  rcases c with _ | ⟨b3, c⟩
  · simp at hl
  rcases c with _ | ⟨b4, c⟩
  · simp at hl
  rcases c with _ | ⟨b5, c⟩
  · simp at hl
  rcases c with _ | ⟨b6, c⟩
  · simp at hl
  rcases c with _ | ⟨b7, c⟩
  · simp at hl
  rcases c with _ | ⟨b8, c⟩
  swap
  · simp at hl
  have h0 : b0 < 256 := hb _ (by simp)
  have h1 : b1 < 256 := hb _ (by simp)
  have h2 : b2 < 256 := hb _ (by simp)
  have h3 : b3 < 256 := hb _ (by simp)
  have h4 : b4 < 256 := hb _ (by simp)
  have h5 : b5 < 256 := hb _ (by simp)
  have h6 : b6 < 256 := hb _ (by simp)
  have h7 : b7 < 256 := hb _ (by simp)
  have hS : loadLE 8 [b0, b1, b2, b3, b4, b5, b6, b7] 0 =
      ((((((((0 * 256 + b7) * 256 + b6) * 256 + b5) * 256 + b4) * 256 +
        b3) * 256 + b2) * 256 + b1) * 256 + b0) := rfl
  unfold tag8Bytes
  rw [hS]
  simp only [List.range_succ, List.range_zero, List.map_append,
    List.map_cons, List.map_nil, List.nil_append, List.cons_append,
    List.singleton_append]
  norm_num
  refine ⟨?_, ?_, ?_, ?_, ?_, ?_, ?_, ?_⟩ <;> omega

theorem scalarDecode_congr (d : Desc) (d1 d2 : List Nat) (o1 o2 tag : Nat)
    (h : ∀ k, d1.getD (o1 + k) 0 = d2.getD (o2 + k) 0) :
    scalarDecode d d1 o1 tag = scalarDecode d d2 o2 tag := by
  have hload : ∀ R, loadLE d.width d1 (o1 + R) = loadLE d.width d2 (o2 + R) := by
    intro R
    apply loadLE_congr
    intro k _
    rw [show o1 + R + k = o1 + (R + k) by ring,
      show o2 + R + k = o2 + (R + k) by ring]
    exact h (R + k)
  rw [scalarDecode_def, scalarDecode_def]
  simp only [hload]

theorem groupWrites8_nil (ti : Nat) : groupWrites8 ti [] = [] := rfl

theorem groupWrites8_snoc (ti : Nat) (gs : List (List Nat)) (g : List Nat) :
    groupWrites8 ti (gs ++ [g]) =
      groupWrites8 ti gs ++ groupWrites (ti + gs.length) g := by
  unfold groupWrites8
  rw [List.enum_append]
  simp

theorem wadd_assoc (d : Desc) (a b c : Nat) :
    wadd d (wadd d a b) c = wadd d a (wadd d b c) := by
  unfold wadd
  rw [Nat.mod_add_mod, Nat.add_mod_mod, Nat.add_assoc]

theorem default_decode8_eq_foldl (d : Desc) (data : List Nat)
    (off tag8 : Nat) :
    default_decode8 d data off tag8 =
      (tag8Bytes tag8).foldl
        (fun (s : Nat × List (List Nat)) tag =>
          let r := scalarDecode d data (off + s.1) tag
          (s.1 + r.1, s.2 ++ [r.2])) (0, []) := by
  unfold default_decode8 tag8Bytes
  rw [List.foldl_map]

theorem std_bridge (d : Desc) (data : List Nat) (off : Nat) :
    ∀ (ts : List Nat) (s : List (Nat × Nat)) (r : Nat)
      (gs : List (List Nat)) (ti : Nat),
      stepFold (stdDecSink d).handle1 data ts (s ++ groupWrites8 ti gs)
          (off + r) (ti + gs.length) =
        (s ++ groupWrites8 ti
          (ts.foldl
            (fun (a : Nat × List (List Nat)) tag =>
              let q := scalarDecode d data (off + a.1) tag
              (a.1 + q.1, a.2 ++ [q.2])) (r, gs)).2,
         off + (ts.foldl
            (fun (a : Nat × List (List Nat)) tag =>
              let q := scalarDecode d data (off + a.1) tag
              (a.1 + q.1, a.2 ++ [q.2])) (r, gs)).1) := by
  intro ts
  induction ts with
  | nil => intro s r gs ti; rfl
  | cons t ts ih =>
      intro s r gs ti
      show stepFold (stdDecSink d).handle1 data ts
          (s ++ groupWrites8 ti gs ++
            groupWrites (ti + gs.length) (scalarDecode d data (off + r) t).2)
          (off + r + (scalarDecode d data (off + r) t).1)
          (ti + gs.length + 1) = _
      rw [List.append_assoc, ← groupWrites8_snoc,
        show off + r + (scalarDecode d data (off + r) t).1 =
          off + (r + (scalarDecode d data (off + r) t).1) by ring,
        show ti + gs.length + 1 = ti + (gs ++ [(scalarDecode d data (off + r) t).2]).length by
          simp only [List.length_append, List.length_cons, List.length_nil]
          omega,
        ih s (r + (scalarDecode d data (off + r) t).1)
          (gs ++ [(scalarDecode d data (off + r) t).2]) ti]
      rfl

theorem stdDecSink_lawful (d : Desc) : SinkLawful d (stdDecSink d) := by
  refine ⟨?_, ?_, ?_⟩
  · intro s ti tag data off
    exact scalarDecode_read d data off tag
  · intro s ti tag d1 o1 d2 o2 h
    show ((scalarDecode d d1 o1 tag).1,
        s ++ groupWrites ti (scalarDecode d d1 o1 tag).2) = _
    rw [scalarDecode_congr d d1 d2 o1 o2 tag h]
    rfl
  · intro s ti tag8 data off
    show ((default_decode8 d data off tag8).1,
        s ++ groupWrites8 ti (default_decode8 d data off tag8).2) = _
    have hb := std_bridge d data off (tag8Bytes tag8) s 0 [] ti
    rw [groupWrites8_nil, List.append_nil, List.length_nil, Nat.add_zero,
      Nat.add_zero] at hb
    show _ = ((stepFold (stdDecSink d).handle1 data (tag8Bytes tag8) s off
        ti).2 - off,
      (stepFold (stdDecSink d).handle1 data (tag8Bytes tag8) s off ti).1)
    rw [hb, default_decode8_eq_foldl]
    rw [Prod.mk.injEq]
    exact ⟨by omega, rfl⟩

theorem scalarDecodeDeltas_read (d : Desc) (data : List Nat)
    (off tag : Nat) (base : List Nat) :
    (scalarDecodeDeltas d data off tag base).1 = dataLen d tag :=
  scalarDecode_read d data off tag

theorem scalarDecodeDeltas_congr (d : Desc) (d1 d2 : List Nat)
    (o1 o2 tag : Nat) (base : List Nat)
    (h : ∀ k, d1.getD (o1 + k) 0 = d2.getD (o2 + k) 0) :
    scalarDecodeDeltas d d1 o1 tag base = scalarDecodeDeltas d d2 o2 tag base := by
  unfold scalarDecodeDeltas
  rw [scalarDecode_congr d d1 d2 o1 o2 tag h]

theorem scalarSkipDeltas_read (d : Desc) (data : List Nat) (off tag : Nat) :
    (scalarSkipDeltas d data off tag).1 = dataLen d tag :=
  scalarDecode_read d data off tag

theorem scalarSkipDeltas_congr (d : Desc) (d1 d2 : List Nat)
    (o1 o2 tag : Nat)
    (h : ∀ k, d1.getD (o1 + k) 0 = d2.getD (o2 + k) 0) :
    scalarSkipDeltas d d1 o1 tag = scalarSkipDeltas d d2 o2 tag := by
  unfold scalarSkipDeltas
  rw [scalarDecode_congr d d1 d2 o1 o2 tag h]

theorem default_decode_deltas8_eq_foldl (d : Desc) (data : List Nat)
    (off tag8 : Nat) (base : List Nat) :
    default_decode_deltas8 d data off tag8 base =
      (tag8Bytes tag8).foldl
        (fun (s : Nat × List (List Nat) × List Nat) tag =>
          let r := scalarDecodeDeltas d data (off + s.1) tag s.2.2
          (s.1 + r.1, s.2.1 ++ [r.2], r.2)) (0, [], base) := by
  unfold default_decode_deltas8 tag8Bytes
  rw [List.foldl_map]

theorem delta_bridge (d : Desc) (data : List Nat) (off : Nat) :
    ∀ (ts : List Nat) (log : List (Nat × Nat)) (r : Nat)
      (gs : List (List Nat)) (prev : List Nat) (ti : Nat),
      stepFold (deltaDecSink d).handle1 data ts
          (log ++ groupWrites8 ti gs, prev) (off + r) (ti + gs.length) =
        ((log ++ groupWrites8 ti
          (ts.foldl
            (fun (a : Nat × List (List Nat) × List Nat) tag =>
              let q := scalarDecodeDeltas d data (off + a.1) tag a.2.2
              (a.1 + q.1, a.2.1 ++ [q.2], q.2)) (r, gs, prev)).2.1,
          (ts.foldl
            (fun (a : Nat × List (List Nat) × List Nat) tag =>
              let q := scalarDecodeDeltas d data (off + a.1) tag a.2.2
              (a.1 + q.1, a.2.1 ++ [q.2], q.2)) (r, gs, prev)).2.2),
         off + (ts.foldl
            (fun (a : Nat × List (List Nat) × List Nat) tag =>
              let q := scalarDecodeDeltas d data (off + a.1) tag a.2.2
              (a.1 + q.1, a.2.1 ++ [q.2], q.2)) (r, gs, prev)).1) := by
  intro ts
  induction ts with
  | nil => intro log r gs prev ti; rfl
  | cons t ts ih =>
      intro log r gs prev ti
      show stepFold (deltaDecSink d).handle1 data ts
          (log ++ groupWrites8 ti gs ++
            groupWrites (ti + gs.length)
              (scalarDecodeDeltas d data (off + r) t prev).2,
           (scalarDecodeDeltas d data (off + r) t prev).2)
          (off + r + (scalarDecodeDeltas d data (off + r) t prev).1)
          (ti + gs.length + 1) = _
      rw [List.append_assoc, ← groupWrites8_snoc,
        show off + r + (scalarDecodeDeltas d data (off + r) t prev).1 =
          off + (r + (scalarDecodeDeltas d data (off + r) t prev).1) by ring,
        show ti + gs.length + 1 =
          ti + (gs ++ [(scalarDecodeDeltas d data (off + r) t prev).2]).length by
          simp only [List.length_append, List.length_cons, List.length_nil]
          omega,
        ih log (r + (scalarDecodeDeltas d data (off + r) t prev).1)
          (gs ++ [(scalarDecodeDeltas d data (off + r) t prev).2])
          (scalarDecodeDeltas d data (off + r) t prev).2 ti]
      rfl

theorem deltaDecSink_lawful (d : Desc) : SinkLawful d (deltaDecSink d) := by
  refine ⟨?_, ?_, ?_⟩
  · intro s ti tag data off
    exact scalarDecodeDeltas_read d data off tag s.2
  · intro s ti tag d1 o1 d2 o2 h
    show ((scalarDecodeDeltas d d1 o1 tag s.2).1,
        (s.1 ++ groupWrites ti (scalarDecodeDeltas d d1 o1 tag s.2).2,
         (scalarDecodeDeltas d d1 o1 tag s.2).2)) = _
    rw [scalarDecodeDeltas_congr d d1 d2 o1 o2 tag s.2 h]
    rfl
  · intro s ti tag8 data off
    show ((default_decode_deltas8 d data off tag8 s.2).1,
        (s.1 ++ groupWrites8 ti (default_decode_deltas8 d data off tag8 s.2).2.1,
         (default_decode_deltas8 d data off tag8 s.2).2.2)) = _
    have hb := delta_bridge d data off (tag8Bytes tag8) s.1 0 [] s.2 ti
    rw [groupWrites8_nil, List.append_nil, List.length_nil, Nat.add_zero,
      Nat.add_zero] at hb
    show _ = ((stepFold (deltaDecSink d).handle1 data (tag8Bytes tag8)
        (s.1, s.2) off ti).2 - off,
      (stepFold (deltaDecSink d).handle1 data (tag8Bytes tag8)
        (s.1, s.2) off ti).1)
    rw [hb, default_decode_deltas8_eq_foldl]
    rw [Prod.mk.injEq]
    exact ⟨by omega, rfl⟩

theorem default_skip_deltas8_eq_foldl (d : Desc) (data : List Nat)
    (off tag8 : Nat) :
    default_skip_deltas8 d data off tag8 =
      (tag8Bytes tag8).foldl
        (fun (s : Nat × Nat) tag =>
          let r := scalarSkipDeltas d data (off + s.1) tag
          (s.1 + r.1, wadd d s.2 r.2)) (0, 0) := by
  unfold default_skip_deltas8 tag8Bytes
  rw [List.foldl_map]

theorem skip_plain_shift (d : Desc) (data : List Nat) (off : Nat) :
    ∀ (ts : List Nat) (r s0 : Nat),
      ts.foldl
        (fun (a : Nat × Nat) tag =>
          (a.1 + (scalarSkipDeltas d data (off + a.1) tag).1,
           a.2 + (scalarSkipDeltas d data (off + a.1) tag).2)) (r, s0) =
      ((ts.foldl
        (fun (a : Nat × Nat) tag =>
          (a.1 + (scalarSkipDeltas d data (off + a.1) tag).1,
           a.2 + (scalarSkipDeltas d data (off + a.1) tag).2)) (r, 0)).1,
       s0 + (ts.foldl
        (fun (a : Nat × Nat) tag =>
          (a.1 + (scalarSkipDeltas d data (off + a.1) tag).1,
           a.2 + (scalarSkipDeltas d data (off + a.1) tag).2)) (r, 0)).2) := by
  intro ts
  induction ts with
  | nil => intro r s0; simp
  | cons t ts ih =>
      intro r s0
      simp only [List.foldl_cons]
      rw [ih (r + (scalarSkipDeltas d data (off + r) t).1)
        (s0 + (scalarSkipDeltas d data (off + r) t).2),
        ih (r + (scalarSkipDeltas d data (off + r) t).1)
        (0 + (scalarSkipDeltas d data (off + r) t).2)]
      rw [Prod.mk.injEq]
      exact ⟨rfl, by omega⟩

theorem skip_wadd_fold (d : Desc) (data : List Nat) (off : Nat) :
    ∀ (ts : List Nat) (r acc : Nat),
      ts.foldl
        (fun (s : Nat × Nat) tag =>
          let q := scalarSkipDeltas d data (off + s.1) tag
          (s.1 + q.1, wadd d s.2 q.2)) (r, acc) =
      ((ts.foldl
        (fun (a : Nat × Nat) tag =>
          (a.1 + (scalarSkipDeltas d data (off + a.1) tag).1,
           a.2 + (scalarSkipDeltas d data (off + a.1) tag).2)) (r, 0)).1,
       if ts.isEmpty then acc
       else (acc + (ts.foldl
        (fun (a : Nat × Nat) tag =>
          (a.1 + (scalarSkipDeltas d data (off + a.1) tag).1,
           a.2 + (scalarSkipDeltas d data (off + a.1) tag).2)) (r, 0)).2) %
          d.M) := by
  intro ts
  induction ts with
  | nil => intro r acc; simp
  | cons t ts ih =>
      intro r acc
      simp only [List.foldl_cons, List.isEmpty_cons]
      rw [ih (r + (scalarSkipDeltas d data (off + r) t).1)
        (wadd d acc (scalarSkipDeltas d data (off + r) t).2),
        skip_plain_shift d data off ts
          (r + (scalarSkipDeltas d data (off + r) t).1)
          (0 + (scalarSkipDeltas d data (off + r) t).2)]
      rcases ts with _ | ⟨t2, ts⟩
      · simp [wadd]
      · simp only [List.isEmpty_cons, if_false, Bool.false_eq_true]
        rw [Prod.mk.injEq]
        refine ⟨rfl, ?_⟩
        unfold wadd
        rw [Nat.mod_add_mod]
        congr 1
        omega

theorem skip_stepFold (d : Desc) (data : List Nat) (off : Nat) :
    ∀ (ts : List Nat) (S r ti : Nat),
      stepFold (skipDeltasSink d).handle1 data ts S (off + r) ti =
      (if ts.isEmpty then S
       else (S + (ts.foldl
        (fun (a : Nat × Nat) tag =>
          (a.1 + (scalarSkipDeltas d data (off + a.1) tag).1,
           a.2 + (scalarSkipDeltas d data (off + a.1) tag).2)) (r, 0)).2) %
          d.M,
       off + (ts.foldl
        (fun (a : Nat × Nat) tag =>
          (a.1 + (scalarSkipDeltas d data (off + a.1) tag).1,
           a.2 + (scalarSkipDeltas d data (off + a.1) tag).2)) (r, 0)).1) := by
  intro ts
  induction ts with
  | nil => intro S r ti; simp [stepFold]
  | cons t ts ih =>
      intro S r ti
      show stepFold (skipDeltasSink d).handle1 data ts
          (wadd d S (scalarSkipDeltas d data (off + r) t).2)
          (off + r + (scalarSkipDeltas d data (off + r) t).1) (ti + 1) = _
      rw [show off + r + (scalarSkipDeltas d data (off + r) t).1 =
        off + (r + (scalarSkipDeltas d data (off + r) t).1) by ring,
        ih (wadd d S (scalarSkipDeltas d data (off + r) t).2)
          (r + (scalarSkipDeltas d data (off + r) t).1) (ti + 1)]
      simp only [List.foldl_cons, List.isEmpty_cons]
      rw [skip_plain_shift d data off ts
        (r + (scalarSkipDeltas d data (off + r) t).1)
        (0 + (scalarSkipDeltas d data (off + r) t).2)]
      rcases ts with _ | ⟨t2, ts⟩
      · simp [wadd]
      · simp only [List.isEmpty_cons, if_false, Bool.false_eq_true]
        rw [Prod.mk.injEq]
        refine ⟨?_, rfl⟩
        unfold wadd
        rw [Nat.mod_add_mod]
        congr 1
        omega

theorem tag8Bytes_length (tag8 : Nat) : (tag8Bytes tag8).length = 8 := by
  simp [tag8Bytes]

theorem skipDeltasSink_lawful (d : Desc) : SinkLawful d (skipDeltasSink d) := by
  refine ⟨?_, ?_, ?_⟩
  · intro s ti tag data off
    exact scalarSkipDeltas_read d data off tag
  · intro s ti tag d1 o1 d2 o2 h
    show ((scalarSkipDeltas d d1 o1 tag).1,
        wadd d s (scalarSkipDeltas d d1 o1 tag).2) = _
    rw [scalarSkipDeltas_congr d d1 d2 o1 o2 tag h]
    rfl
  · intro s ti tag8 data off
    show ((default_skip_deltas8 d data off tag8).1,
        wadd d s (default_skip_deltas8 d data off tag8).2) = _
    show _ = ((stepFold (skipDeltasSink d).handle1 data (tag8Bytes tag8) s
        off ti).2 - off,
      (stepFold (skipDeltasSink d).handle1 data (tag8Bytes tag8) s off
        ti).1)
    have hne : (tag8Bytes tag8).isEmpty = false := by
      rcases h8 : tag8Bytes tag8 with _ | ⟨x, xs⟩
      · have := tag8Bytes_length tag8
        rw [h8] at this
        simp at this
      · rfl
    have hstep := skip_stepFold d data off (tag8Bytes tag8) s 0 ti
    rw [Nat.add_zero] at hstep
    rw [hstep, default_skip_deltas8_eq_foldl,
      skip_wadd_fold d data off (tag8Bytes tag8) 0 0, hne]
    simp only [Bool.false_eq_true, if_false]
    rw [Prod.mk.injEq]
    refine ⟨by omega, ?_⟩
    unfold wadd
    rw [Nat.add_mod_mod, Nat.zero_add]

/-! ### Decode driver: loop specifications -/

theorem sumLens_nil (d : Desc) : sumLens d [] = 0 := rfl

theorem sumLens_cons (d : Desc) (t : Nat) (ts : List Nat) :
    sumLens d (t :: ts) = dataLen d t + sumLens d ts := by
  unfold sumLens
  simp

theorem sumLens_append (d : Desc) (l1 l2 : List Nat) :
    sumLens d (l1 ++ l2) = sumLens d l1 + sumLens d l2 := by
  unfold sumLens
  simp

theorem stepFold_read (d : Desc) {σ : Type} (sink : DecSink σ)
    (hL : SinkLawful d sink) (data : List Nat) :
    ∀ (ts : List Nat) (s : σ) (read ti : Nat),
      (stepFold sink.handle1 data ts s read ti).2 = read + sumLens d ts := by
  intro ts
  induction ts with
  | nil => intro s read ti; simp [stepFold, sumLens_nil]
  | cons t ts ih =>
      intro s read ti
      show (stepFold sink.handle1 data ts
          (sink.handle1 s ti t data read).2
          (read + (sink.handle1 s ti t data read).1) (ti + 1)).2 = _
      rw [ih, hL.read1, sumLens_cons]
      ring

theorem stepFold_append {σ : Type} (sink : DecSink σ)
    (data : List Nat) :
    ∀ (l1 l2 : List Nat) (s : σ) (read ti : Nat),
      stepFold sink.handle1 data (l1 ++ l2) s read ti =
        stepFold sink.handle1 data l2
          (stepFold sink.handle1 data l1 s read ti).1
          (stepFold sink.handle1 data l1 s read ti).2 (ti + l1.length) := by
  intro l1
  induction l1 with
  | nil => intro l2 s read ti; rfl
  | cons t l1 ih =>
      intro l2 s read ti
      show stepFold sink.handle1 data (l1 ++ l2)
          (sink.handle1 s ti t data read).2
          (read + (sink.handle1 s ti t data read).1) (ti + 1) = _
      rw [ih]
      congr 1
      simp only [List.length_cons]
      omega

theorem take_of_drop_eq (tags c rest : List Nat) (ti : Nat)
    (h : tags.drop ti = c ++ rest) :
    tags.take (ti + c.length) = tags.take ti ++ c := by
  rw [List.take_add, h, List.take_left]

theorem drop_of_drop_eq (tags c rest : List Nat) (ti : Nat)
    (h : tags.drop ti = c ++ rest) :
    tags.drop (ti + c.length) = rest := by
  rw [← List.drop_drop, h, List.drop_left]

theorem drop_len_bound (tags c rest : List Nat) (ti : Nat)
    (h : tags.drop ti = c ++ rest) (hti : ti ≤ tags.length) :
    ti + c.length ≤ tags.length := by
  have := congrArg List.length h
  simp only [List.length_drop, List.length_append] at this
  omega

theorem data_len8_eq_sumLens (d : Desc) (tag8 : Nat) :
    data_len8 d tag8 = sumLens d (tag8Bytes tag8) := by
  unfold data_len8 sumLens tag8Bytes
  rw [List.map_map]
  congr 1

theorem chunks8_flatten (tags : List Nat) :
    ∀ c ∈ chunks8 tags, c.length = 8 := by
  induction tags using chunks8.induct with
  | case1 a b c e f g h i rest ih =>
      rw [chunks8]
      intro x hx
      rcases List.mem_cons.mp hx with hh | hh
      · subst hh; rfl
      · exact ih x hh
  | case2 vs hne =>
      intro x hx
      rw [chunks8.eq_def] at hx
      split at hx
      · rename_i a b c e f g h i rest
        exact absurd rfl (by intro hh; exact (hne a b c e f g h i rest hh).elim)
      · simp at hx

theorem chunks8_decomp (tags : List Nat) :
    tags = (chunks8 tags).flatten ++
      tags.drop (8 * (chunks8 tags).length) := by
  induction tags using chunks8.induct with
  | case1 a b c e f g h i rest ih =>
      rw [chunks8]
      simp only [List.flatten_cons, List.length_cons, List.cons_append]
      rw [show 8 * ((chunks8 rest).length + 1) =
        8 * (chunks8 rest).length + 1 + 1 + 1 + 1 + 1 + 1 + 1 + 1 by ring]
      simp only [List.drop_succ_cons]
      simp only [List.cons_append, List.cons.injEq, true_and]
      exact ih
  | case2 vs hne =>
      rw [chunks8.eq_def]
      split
      · rename_i a b c e f g h i rest
        exact absurd rfl (by intro hh; exact (hne a b c e f g h i rest hh).elim)
      · simp

theorem chunks8_mem_subset (tags : List Nat) :
    ∀ c ∈ chunks8 tags, ∀ b ∈ c, b ∈ tags := by
  induction tags using chunks8.induct with
  | case1 a b c e f g h i rest ih =>
      rw [chunks8]
      intro x hx y hy
      rcases List.mem_cons.mp hx with hh | hh
      · subst hh
        simp only [List.mem_cons, List.mem_singleton] at hy
        simp only [List.mem_cons]
        tauto
      · have := ih x hh y hy
        simp only [List.mem_cons]
        tauto
  | case2 vs hne =>
      intro x hx
      rw [chunks8.eq_def] at hx
      split at hx
      · rename_i a b c e f g h i rest
        exact absurd rfl (by intro hh; exact (hne a b c e f g h i rest hh).elim)
      · simp at hx

theorem decodeBatchLoop_cons (d : Desc) {σ : Type} (sink : DecSink σ)
    (data : List Nat) (c : List Nat) (cs : List (List Nat)) (s : σ)
    (read ti : Nat) :
    decodeBatchLoop d sink data (c :: cs) s read ti =
      if data.length <
          read + (data_len8 d (loadLE 8 c 0) +
            (d.TAG_LEN 3 - d.TAG_LEN 0) * 4) then (s, read, ti)
      else
        decodeBatchLoop d sink data cs
          (sink.handle8 s ti (loadLE 8 c 0) data read).2
          (read + (sink.handle8 s ti (loadLE 8 c 0) data read).1)
          (ti + 8) := rfl

theorem decodeSingleLoop_cons (d : Desc) {σ : Type} (sink : DecSink σ)
    (data : List Nat) (t : Nat) (ts : List Nat) (s : σ) (read ti : Nat) :
    decodeSingleLoop d sink data (t :: ts) s read ti =
      if data.length < read + d.TAG_LEN 3 * 4 then (s, read, ti)
      else
        decodeSingleLoop d sink data ts (sink.handle1 s ti t data read).2
          (read + (sink.handle1 s ti t data read).1) (ti + 1) := rfl

theorem decodeRemainderLoop_cons (d : Desc) {σ : Type} (sink : DecSink σ)
    (buf : List Nat) (t : Nat) (ts : List Nat) (s : σ) (bufr ti : Nat) :
    decodeRemainderLoop d sink buf (t :: ts) s bufr ti =
      if bufr < d.TAG_LEN 3 * 4 then
        decodeRemainderLoop d sink buf ts (sink.handle1 s ti t buf bufr).2
          (bufr + (sink.handle1 s ti t buf bufr).1) (ti + 1)
      else none := rfl

theorem batchLoop_spec (d : Desc) {σ : Type} (sink : DecSink σ)
    (hL : SinkLawful d sink) (tags data : List Nat)
    (h256 : ∀ b ∈ tags, b < 256) :
    ∀ (cs : List (List Nat)) (s : σ) (read ti : Nat),
      (∀ c ∈ cs, c.length = 8) →
      (∀ c ∈ cs, ∀ b ∈ c, b ∈ tags) →
      tags.drop ti = cs.flatten ++ tags.drop (ti + 8 * cs.length) →
      stepFold sink.handle1 data (tags.drop ti) s read ti =
        stepFold sink.handle1 data
          (tags.drop (decodeBatchLoop d sink data cs s read ti).2.2)
          (decodeBatchLoop d sink data cs s read ti).1
          (decodeBatchLoop d sink data cs s read ti).2.1
          (decodeBatchLoop d sink data cs s read ti).2.2 := by
  intro cs
  induction cs with
  | nil => intro s read ti _ _ _; rfl
  | cons c cs ih =>
      intro s read ti h8 hsub hdrop
      have hc8 : c.length = 8 := h8 c (by simp)
      have hcb : ∀ b ∈ c, b < 256 := fun b hb =>
        h256 b (hsub c (by simp) b hb)
      have htb : tag8Bytes (loadLE 8 c 0) = c := tag8Bytes_loadLE c hc8 hcb
      rw [decodeBatchLoop_cons]
      by_cases hg : data.length <
          read + (data_len8 d (loadLE 8 c 0) +
            (d.TAG_LEN 3 - d.TAG_LEN 0) * 4)
      · rw [if_pos hg]
      · rw [if_neg hg]
        have hdrop1 : tags.drop ti =
            c ++ (cs.flatten ++ tags.drop (ti + 8 * (c :: cs).length)) := by
          rw [hdrop, List.flatten_cons, List.append_assoc]
        have hdrop8 : tags.drop (ti + 8) =
            cs.flatten ++ tags.drop (ti + 8 + 8 * cs.length) := by
          have h1 := drop_of_drop_eq tags c _ ti hdrop1
          rw [hc8] at h1
          rw [h1, show ti + 8 * (c :: cs).length = ti + 8 + 8 * cs.length by
            simp only [List.length_cons]; ring]
        have hh8 : sink.handle8 s ti (loadLE 8 c 0) data read =
            ((stepFold sink.handle1 data c s read ti).2 - read,
             (stepFold sink.handle1 data c s read ti).1) := by
          rw [hL.h8, htb]
        have hrd : read ≤ (stepFold sink.handle1 data c s read ti).2 := by
          rw [stepFold_read d sink hL]
          omega
        have hread' :
            read + (sink.handle8 s ti (loadLE 8 c 0) data read).1 =
              (stepFold sink.handle1 data c s read ti).2 := by
          rw [hh8]
          omega
        have hstate : (sink.handle8 s ti (loadLE 8 c 0) data read).2 =
            (stepFold sink.handle1 data c s read ti).1 := by rw [hh8]
        have hfin := ih (sink.handle8 s ti (loadLE 8 c 0) data read).2
            (read + (sink.handle8 s ti (loadLE 8 c 0) data read).1) (ti + 8)
            (fun x hx => h8 x (by simp [hx]))
            (fun x hx => hsub x (by simp [hx])) hdrop8
        calc stepFold sink.handle1 data (tags.drop ti) s read ti
            = stepFold sink.handle1 data
                (c ++ (cs.flatten ++ tags.drop (ti + 8 * (c :: cs).length)))
                s read ti := by rw [← hdrop1]
          _ = stepFold sink.handle1 data
                (cs.flatten ++ tags.drop (ti + 8 * (c :: cs).length))
                (stepFold sink.handle1 data c s read ti).1
            (stepFold sink.handle1 data c s read ti).2 (ti + c.length) :=
              stepFold_append sink data c _ s read ti
          _ = stepFold sink.handle1 data (tags.drop (ti + 8))
                (stepFold sink.handle1 data c s read ti).1
                (stepFold sink.handle1 data c s read ti).2 (ti + 8) := by
              rw [show ti + 8 * (c :: cs).length = ti + 8 + 8 * cs.length by
                simp only [List.length_cons]; ring, ← hdrop8, hc8]
          _ = _ := by
              rw [← hstate, ← hread']
              exact hfin

theorem singleLoop_spec (d : Desc) {σ : Type} (sink : DecSink σ)
    (tags data : List Nat) :
    ∀ (ts : List Nat) (s : σ) (read ti : Nat),
      ts = tags.drop ti →
      stepFold sink.handle1 data (tags.drop ti) s read ti =
        stepFold sink.handle1 data
          (tags.drop (decodeSingleLoop d sink data ts s read ti).2.2)
          (decodeSingleLoop d sink data ts s read ti).1
          (decodeSingleLoop d sink data ts s read ti).2.1
          (decodeSingleLoop d sink data ts s read ti).2.2 ∧
      (tags.drop (decodeSingleLoop d sink data ts s read ti).2.2 = [] ∨
        data.length <
          (decodeSingleLoop d sink data ts s read ti).2.1 +
            d.TAG_LEN 3 * 4) := by
  intro ts
  induction ts with
  | nil =>
      intro s read ti hts
      exact ⟨rfl, Or.inl hts.symm⟩
  | cons t ts ih =>
      intro s read ti hts
      rw [decodeSingleLoop_cons]
      by_cases hg : data.length < read + d.TAG_LEN 3 * 4
      · rw [if_pos hg]
        exact ⟨rfl, Or.inr hg⟩
      · rw [if_neg hg]
        have hts' : ts = tags.drop (ti + 1) := by
          have h1 := drop_of_drop_eq tags [t] ts ti (by simpa using hts.symm)
          simpa using h1.symm
        have hmain := ih (sink.handle1 s ti t data read).2
          (read + (sink.handle1 s ti t data read).1) (ti + 1) hts'
        rw [← hts'] at hmain
        refine ⟨?_, hmain.2⟩
        rw [← hts]
        rw [show stepFold sink.handle1 data (t :: ts) s read ti =
          stepFold sink.handle1 data ts (sink.handle1 s ti t data read).2
            (read + (sink.handle1 s ti t data read).1) (ti + 1) from rfl]
        exact hmain.1

theorem scratchBuf_getD (data : List Nat) (read m : Nat)
    (hr : read ≤ data.length) :
    (scratchBuf data read).getD m 0 = data.getD (read + m) 0 := by
  unfold scratchBuf
  by_cases hm : m < data.length - read
  · rw [List.getD_append _ _ _ _ (by rw [List.length_drop]; exact hm)]
    have hm2 : m < (data.drop read).length := by
      rw [List.length_drop]; exact hm
    have hm3 : read + m < data.length := by omega
    rw [List.getD_eq_getElem _ _ hm2, List.getD_eq_getElem _ _ hm3]
    simp [List.getElem_drop]
  · rw [List.getD_append_right _ _ _ _ (by rw [List.length_drop]; omega)]
    have hz : ∀ (k j : Nat), (List.replicate k (0 : Nat)).getD j 0 = 0 := by
      intro k j
      by_cases hj : j < k
      · rw [List.getD_eq_getElem _ _ (by simpa using hj)]
        simp
      · rw [List.getD_eq_default _ _ (by simp; omega)]
    rw [hz]
    rw [List.getD_eq_default _ _ (by omega)]

theorem remLoop_spec (d : Desc) {σ : Type} (sink : DecSink σ)
    (hL : SinkLawful d sink) (data : List Nat) (read : Nat)
    (hr : read ≤ data.length) :
    ∀ (ts : List Nat) (s : σ) (bufr ti : Nat),
      bufr + sumLens d ts < d.TAG_LEN 3 * 4 →
      decodeRemainderLoop d sink (scratchBuf data read) ts s bufr ti =
        some ((stepFold sink.handle1 data ts s (read + bufr) ti).1,
          bufr + sumLens d ts) := by
  intro ts
  induction ts with
  | nil =>
      intro s bufr ti _
      show some (s, bufr) = some (s, bufr + sumLens d [])
      rw [sumLens_nil, Nat.add_zero]
  | cons t ts ih =>
      intro s bufr ti hbound
      rw [sumLens_cons] at hbound
      rw [decodeRemainderLoop_cons, if_pos (by omega)]
      have hshift : sink.handle1 s ti t (scratchBuf data read) bufr =
          sink.handle1 s ti t data (read + bufr) := by
        apply hL.shift1
        intro k
        rw [scratchBuf_getD data read (bufr + k) hr,
          show read + (bufr + k) = read + bufr + k by ring]
      rw [hshift, hL.read1]
      rw [ih (sink.handle1 s ti t data (read + bufr)).2
        (bufr + dataLen d t) (ti + 1) (by omega)]
      rw [show stepFold sink.handle1 data (t :: ts) s (read + bufr) ti =
        stepFold sink.handle1 data ts
          (sink.handle1 s ti t data (read + bufr)).2
          (read + bufr + (sink.handle1 s ti t data (read + bufr)).1)
          (ti + 1) from rfl]
      rw [hL.read1, sumLens_cons,
        show read + (bufr + dataLen d t) = read + bufr + dataLen d t by ring,
        show bufr + dataLen d t + sumLens d ts =
          bufr + (dataLen d t + sumLens d ts) by ring]

theorem decodeToSink_eq (d : Desc) {σ : Type} (sink : DecSink σ)
    (tags data : List Nat) (s : σ) (si : σ × Nat × Nat)
    (hsi : si = decodeSingleLoop d sink data
        (tags.drop (decodeBatchLoop d sink data (chunks8 tags) s 0 0).2.2)
        (decodeBatchLoop d sink data (chunks8 tags) s 0 0).1
        (decodeBatchLoop d sink data (chunks8 tags) s 0 0).2.1
        (decodeBatchLoop d sink data (chunks8 tags) s 0 0).2.2) :
    decodeToSink d sink tags data s =
      (if (tags.drop si.2.2).isEmpty then some (si.2.1, si.1)
       else if si.2.1 ≤ data.length ∧ data.length - si.2.1 ≤ 64 then
         match decodeRemainderLoop d sink (scratchBuf data si.2.1)
             (tags.drop si.2.2) si.1 0 si.2.2 with
         | none => none
         | some (s2, bufr) =>
             if si.2.1 + bufr ≤ data.length then some (si.2.1 + bufr, s2)
             else none
       else none) := by
  subst hsi
  rfl

/-- On a data stream exactly as long as the tag stream demands, the
driver `decode_to_sink` succeeds, consumes the whole stream, and its
sink state is the result of processing every tag in order. -/
theorem decodeToSink_stream (d : Desc) (hOk : DescOk d) {σ : Type}
    (sink : DecSink σ) (hL : SinkLawful d sink) (tags data : List Nat)
    (h256 : ∀ b ∈ tags, b < 256) (hlen : data.length = sumLens d tags)
    (s : σ) :
    decodeToSink d sink tags data s =
      some (data.length, (stepFold sink.handle1 data tags s 0 0).1) := by
  obtain ⟨B, hB⟩ :
      ∃ b, decodeBatchLoop d sink data (chunks8 tags) s 0 0 = b := ⟨_, rfl⟩
  obtain ⟨SI, hSI⟩ :
      ∃ x, decodeSingleLoop d sink data
        (tags.drop B.2.2) B.1 B.2.1 B.2.2 = x := ⟨_, rfl⟩
  have hdrop0 : tags.drop 0 =
      (chunks8 tags).flatten ++ tags.drop (0 + 8 * (chunks8 tags).length) := by
    simpa using chunks8_decomp tags
  have hbatch : stepFold sink.handle1 data tags s 0 0 =
      stepFold sink.handle1 data (tags.drop B.2.2) B.1 B.2.1 B.2.2 := by
    have h := batchLoop_spec d sink hL tags data h256 (chunks8 tags) s 0 0
      (chunks8_flatten tags) (chunks8_mem_subset tags) hdrop0
    rw [List.drop_zero, hB] at h
    exact h
  have hsingle := singleLoop_spec d sink tags data
    (tags.drop B.2.2) B.1 B.2.1 B.2.2 rfl
  rw [hSI] at hsingle
  have hfull : stepFold sink.handle1 data tags s 0 0 =
      stepFold sink.handle1 data (tags.drop SI.2.2) SI.1 SI.2.1 SI.2.2 :=
    hbatch.trans hsingle.1
  have hreads := congrArg Prod.snd hfull
  rw [stepFold_read d sink hL, stepFold_read d sink hL] at hreads
  rw [decodeToSink_eq d sink tags data s SI (by rw [← hSI, ← hB])]
  by_cases hrem : tags.drop SI.2.2 = []
  · rw [if_pos (by simp [hrem])]
    have h1 : SI.2.1 = data.length := by
      rw [hrem, sumLens_nil] at hreads
      omega
    have h2 : (stepFold sink.handle1 data tags s 0 0).1 = SI.1 := by
      rw [hfull, hrem]
      rfl
    rw [h1, h2]
  · have hbreak : data.length < SI.2.1 + d.TAG_LEN 3 * 4 := by
      rcases hsingle.2 with h | h
      · exact absurd h hrem
      · exact h
    have hT3w : d.TAG_LEN 3 ≤ 8 := by
      have h1 := hOk.len_le 3
      have h2 := hOk.width_le
      norm_num at h1
      omega
    have hrle : SI.2.1 ≤ data.length := by omega
    rw [if_neg (by simpa using hrem), if_pos ⟨hrle, by omega⟩]
    have hbound : (0 : Nat) + sumLens d (tags.drop SI.2.2) <
        d.TAG_LEN 3 * 4 := by
      omega
    rw [remLoop_spec d sink hL data SI.2.1 hrle
      (tags.drop SI.2.2) SI.1 0 SI.2.2 hbound]
    have hif : SI.2.1 + (0 + sumLens d (tags.drop SI.2.2)) ≤ data.length := by
      omega
    show (if SI.2.1 + (0 + sumLens d (tags.drop SI.2.2)) ≤ data.length then
        some (SI.2.1 + (0 + sumLens d (tags.drop SI.2.2)),
          (stepFold sink.handle1 data (tags.drop SI.2.2) SI.1 (SI.2.1 + 0)
            SI.2.2).1)
      else none) =
        some (data.length, (stepFold sink.handle1 data tags s 0 0).1)
    rw [if_pos hif]
    have hsum : SI.2.1 + (0 + sumLens d (tags.drop SI.2.2)) = data.length := by
      omega
    rw [hsum, Nat.add_zero, ← hfull]

theorem stdDecSink_handle1 (d : Desc) (s : List (Nat × Nat)) (ti tag : Nat)
    (data : List Nat) (off : Nat) :
    (stdDecSink d).handle1 s ti tag data off =
      ((scalarDecode d data off tag).1,
       s ++ groupWrites ti (scalarDecode d data off tag).2) := rfl

theorem deltaDecSink_handle1 (d : Desc) (s : List (Nat × Nat) × List Nat)
    (ti tag : Nat) (data : List Nat) (off : Nat) :
    (deltaDecSink d).handle1 s ti tag data off =
      ((scalarDecodeDeltas d data off tag s.2).1,
       (s.1 ++ groupWrites ti (scalarDecodeDeltas d data off tag s.2).2,
        (scalarDecodeDeltas d data off tag s.2).2)) := rfl

theorem skipDeltasSink_handle1 (d : Desc) (s ti tag : Nat) (data : List Nat)
    (off : Nat) :
    (skipDeltasSink d).handle1 s ti tag data off =
      ((scalarSkipDeltas d data off tag).1,
       wadd d s (scalarSkipDeltas d data off tag).2) := rfl

theorem chunks4_mem_subset (vs : List Nat) :
    ∀ c ∈ chunks4 vs, ∀ v ∈ c, v ∈ vs := by
  induction vs using chunks4.induct with
  | case1 a b c e rest ih =>
      rw [chunks4]
      intro x hx y hy
      rcases List.mem_cons.mp hx with hh | hh
      · subst hh
        simp only [List.mem_cons, List.mem_singleton] at hy
        simp only [List.mem_cons]
        tauto
      · have := ih x hh y hy
        simp only [List.mem_cons]
        tauto
  | case2 vs h =>
      intro x hx
      rcases vs with _ | ⟨a, _ | ⟨b, _ | ⟨c, _ | ⟨e, rest⟩⟩⟩⟩
      · simp [chunks4] at hx
      · simp [chunks4] at hx
      · simp [chunks4] at hx
      · simp [chunks4] at hx
      · exact absurd rfl (by intro hh; exact (h a b c e rest hh).elim)

theorem groupTag_nibble (d : Desc) (hOk : DescOk d) (e : List Nat) :
    ∀ i, i < 4 → groupTag d e / 4 ^ i % 4 = groupVTag d e i := by
  have h0 : groupVTag d e 0 < 4 := hOk.tv_lt4 _
  have h1 : groupVTag d e 1 < 4 := hOk.tv_lt4 _
  have h2 : groupVTag d e 2 < 4 := hOk.tv_lt4 _
  have h3 : groupVTag d e 3 < 4 := hOk.tv_lt4 _
  intro i hi
  interval_cases i <;> (unfold groupTag; norm_num; omega)

theorem groupTag_lt_256 (d : Desc) (hOk : DescOk d) (e : List Nat) :
    groupTag d e < 256 := by
  have h0 : groupVTag d e 0 < 4 := hOk.tv_lt4 _
  have h1 : groupVTag d e 1 < 4 := hOk.tv_lt4 _
  have h2 : groupVTag d e 2 < 4 := hOk.tv_lt4 _
  have h3 : groupVTag d e 3 < 4 := hOk.tv_lt4 _
  unfold groupTag
  omega

theorem dataLen_groupTag (d : Desc) (hOk : DescOk d) (e : List Nat) :
    dataLen d (groupTag d e) = groupWritten d e := by
  have e0 : groupTag d e % 4 = groupVTag d e 0 := by
    have := groupTag_nibble d hOk e 0 (by norm_num)
    simpa using this
  have e1 : groupTag d e / 4 % 4 = groupVTag d e 1 := by
    have := groupTag_nibble d hOk e 1 (by norm_num)
    simpa using this
  have e2 : groupTag d e / 16 % 4 = groupVTag d e 2 := by
    have := groupTag_nibble d hOk e 2 (by norm_num)
    simpa using this
  have e3 : groupTag d e / 64 % 4 = groupVTag d e 3 := by
    have := groupTag_nibble d hOk e 3 (by norm_num)
    simpa using this
  have l0 : d.TAG_LEN (groupVTag d e 0) = groupLen d e 0 :=
    (hOk.tv_len _).symm
  have l1 : d.TAG_LEN (groupVTag d e 1) = groupLen d e 1 :=
    (hOk.tv_len _).symm
  have l2 : d.TAG_LEN (groupVTag d e 2) = groupLen d e 2 :=
    (hOk.tv_len _).symm
  have l3 : d.TAG_LEN (groupVTag d e 3) = groupLen d e 3 :=
    (hOk.tv_len _).symm
  unfold dataLen tagToEncodedLen
  rw [e0, e1, e2, e3, l0, l1, l2, l3, groupWritten_eq]

theorem sumLens_map_groupTag (d : Desc) (hOk : DescOk d)
    (es : List (List Nat)) :
    sumLens d (es.map (groupTag d)) = (es.map (groupWritten d)).sum := by
  unfold sumLens
  rw [List.map_map]
  congr 1
  apply List.map_congr_left
  intro e _
  exact dataLen_groupTag d hOk e

theorem encGroupsE_std (s : Unit) (gs : List (List Nat)) :
    encGroupsE (fun (_ : Unit) (g : List Nat) => g) (fun _ _ => ()) s gs =
      gs := by
  induction gs generalizing s with
  | nil => rfl
  | cons g gs ih => simp [encGroupsE, ih]

theorem groupWrites_canon (ti : Nat) (e : List Nat) :
    groupWrites ti [e.getD 0 0, e.getD 1 0, e.getD 2 0, e.getD 3 0] =
      groupWrites ti e := by
  unfold groupWrites
  simp [List.range_succ]

theorem stepFold_std (d : Desc) (hOk : DescOk d) (data : List Nat) :
    ∀ (es : List (List Nat)) (s0 : List (Nat × Nat)) (off ti : Nat),
      (∀ e ∈ es, ∀ i, i < 4 → e.getD i 0 < d.M) →
      matchesStream d data off es →
      (stepFold (stdDecSink d).handle1 data (es.map (groupTag d)) s0 off
          ti).1 = s0 ++ expectedWrites ti es := by
  intro es
  induction es with
  | nil => intro s0 off ti _ _; simp [stepFold, expectedWrites]
  | cons e es ih =>
      intro s0 off ti hv hm
      have hdec := scalarDecode_stream d hOk data off e
        (fun i hi => hv e (by simp) i hi) hm.1
      rw [List.map_cons]
      rw [show stepFold (stdDecSink d).handle1 data
          (groupTag d e :: es.map (groupTag d)) s0 off ti =
        stepFold (stdDecSink d).handle1 data (es.map (groupTag d))
          ((stdDecSink d).handle1 s0 ti (groupTag d e) data off).2
          (off + ((stdDecSink d).handle1 s0 ti (groupTag d e) data off).1)
          (ti + 1) from rfl]
      have hh : (stdDecSink d).handle1 s0 ti (groupTag d e) data off =
          (groupWritten d e, s0 ++ groupWrites ti e) := by
        rw [stdDecSink_handle1, hdec]
        show (groupWritten d e,
          s0 ++ groupWrites ti
            [e.getD 0 0, e.getD 1 0, e.getD 2 0, e.getD 3 0]) = _
        rw [groupWrites_canon]
      rw [hh]
      rw [ih (s0 ++ groupWrites ti e) (off + groupWritten d e) (ti + 1)
        (fun x hx i hi => hv x (by simp [hx]) i hi) hm.2]
      rw [expectedWrites, List.append_assoc]

theorem groupWrites_map_fst (ti : Nat) (g : List Nat) :
    (groupWrites ti g).map Prod.fst =
      (List.range 4).map (fun j => ti * 4 + j) := by
  unfold groupWrites
  rw [List.map_map]
  rfl

theorem stepFold_std_fst (d : Desc) (data : List Nat) :
    ∀ (ts : List Nat) (s0 : List (Nat × Nat)) (off ti : Nat),
      ((stepFold (stdDecSink d).handle1 data ts s0 off ti).1).map Prod.fst =
        s0.map Prod.fst ++
          (List.range (4 * ts.length)).map (fun j => ti * 4 + j) := by
  intro ts
  induction ts with
  | nil => intro s0 off ti; simp [stepFold]
  | cons t ts ih =>
      intro s0 off ti
      rw [show stepFold (stdDecSink d).handle1 data (t :: ts) s0 off ti =
        stepFold (stdDecSink d).handle1 data ts
          ((stdDecSink d).handle1 s0 ti t data off).2
          (off + ((stdDecSink d).handle1 s0 ti t data off).1) (ti + 1)
        from rfl]
      rw [stdDecSink_handle1, ih, List.map_append, groupWrites_map_fst,
        List.append_assoc]
      congr 1
      rw [List.length_cons,
        show 4 * (ts.length + 1) = 4 + 4 * ts.length by ring,
        List.range_add, List.map_append, List.map_map]
      congr 1
      apply List.map_congr_left
      intro j _
      simp only [Function.comp_apply]
      ring

theorem scalarDecodeDeltas_eq (d : Desc) (data : List Nat) (off tag : Nat)
    (base : List Nat) (r : Nat × List Nat)
    (hr : scalarDecode d data off tag = r) :
    scalarDecodeDeltas d data off tag base =
      (r.1,
       [wadd d (base.getD 3 0) (r.2.getD 0 0),
        wadd d (wadd d (base.getD 3 0) (r.2.getD 0 0)) (r.2.getD 1 0),
        wadd d (wadd d (wadd d (base.getD 3 0) (r.2.getD 0 0))
          (r.2.getD 1 0)) (r.2.getD 2 0),
        wadd d (wadd d (wadd d (wadd d (base.getD 3 0) (r.2.getD 0 0))
          (r.2.getD 1 0)) (r.2.getD 2 0)) (r.2.getD 3 0)]) := by
  subst hr
  rfl

theorem deltaGroup_vals_lt (d : Desc) (prev g : List Nat) :
    ∀ i, i < 4 → (deltaGroup d prev g).getD i 0 < d.M := by
  intro i hi
  interval_cases i <;> exact wsub_lt d _ _

theorem scalarDecodeDeltas_stream (d : Desc) (hOk : DescOk d)
    (data : List Nat) (off : Nat) (p1 p2 g : List Nat)
    (hp : p1.getD 3 0 = p2.getD 3 0)
    (hg : ∀ i, i < 4 → g.getD i 0 < d.M)
    (hwin : ∀ q, q < groupWritten d (deltaGroup d p2 g) →
      data.getD (off + q) 0 = (groupBytes d (deltaGroup d p2 g)).getD q 0) :
    scalarDecodeDeltas d data off (groupTag d (deltaGroup d p2 g)) p1 =
      (groupWritten d (deltaGroup d p2 g),
       [g.getD 0 0, g.getD 1 0, g.getD 2 0, g.getD 3 0]) := by
  have hdec := scalarDecode_stream d hOk data off (deltaGroup d p2 g)
    (deltaGroup_vals_lt d p2 g) hwin
  rw [scalarDecodeDeltas_eq d data off _ p1 _ hdec]
  show (groupWritten d (deltaGroup d p2 g),
    [wadd d (p1.getD 3 0) (wsub d (g.getD 0 0) (p2.getD 3 0)),
     wadd d (wadd d (p1.getD 3 0) (wsub d (g.getD 0 0) (p2.getD 3 0)))
       (wsub d (g.getD 1 0) (g.getD 0 0)),
     wadd d (wadd d (wadd d (p1.getD 3 0)
         (wsub d (g.getD 0 0) (p2.getD 3 0)))
       (wsub d (g.getD 1 0) (g.getD 0 0)))
       (wsub d (g.getD 2 0) (g.getD 1 0)),
     wadd d (wadd d (wadd d (wadd d (p1.getD 3 0)
         (wsub d (g.getD 0 0) (p2.getD 3 0)))
       (wsub d (g.getD 1 0) (g.getD 0 0)))
       (wsub d (g.getD 2 0) (g.getD 1 0)))
       (wsub d (g.getD 3 0) (g.getD 2 0))]) = _
  rw [hp,
    wadd_wsub_cancel d (p2.getD 3 0) (g.getD 0 0) (hg 0 (by norm_num)),
    wadd_wsub_cancel d (g.getD 0 0) (g.getD 1 0) (hg 1 (by norm_num)),
    wadd_wsub_cancel d (g.getD 1 0) (g.getD 2 0) (hg 2 (by norm_num)),
    wadd_wsub_cancel d (g.getD 2 0) (g.getD 3 0) (hg 3 (by norm_num))]

theorem stepFold_delta (d : Desc) (hOk : DescOk d) (data : List Nat) :
    ∀ (gs : List (List Nat)) (p1 p2 : List Nat) (s0 : List (Nat × Nat))
      (off ti : Nat),
      (∀ g ∈ gs, ∀ i, i < 4 → g.getD i 0 < d.M) →
      p1.getD 3 0 = p2.getD 3 0 →
      matchesStream d data off
        (encGroupsE (deltaGroup d) (fun _ g => g) p2 gs) →
      (stepFold (deltaDecSink d).handle1 data
          ((encGroupsE (deltaGroup d) (fun _ g => g) p2 gs).map
            (groupTag d)) (s0, p1) off ti).1.1 =
        s0 ++ expectedWrites ti gs := by
  intro gs
  induction gs with
  | nil => intro p1 p2 s0 off ti _ _ _; simp [stepFold, expectedWrites]
  | cons g gs ih =>
      intro p1 p2 s0 off ti hv hp hm
      rw [show encGroupsE (deltaGroup d) (fun _ g => g) p2 (g :: gs) =
        deltaGroup d p2 g ::
          encGroupsE (deltaGroup d) (fun _ g => g) g gs from rfl]
      rw [List.map_cons]
      rw [show stepFold (deltaDecSink d).handle1 data
          (groupTag d (deltaGroup d p2 g) ::
            (encGroupsE (deltaGroup d) (fun _ g => g) g gs).map
              (groupTag d)) (s0, p1) off ti =
        stepFold (deltaDecSink d).handle1 data
          ((encGroupsE (deltaGroup d) (fun _ g => g) g gs).map (groupTag d))
          ((deltaDecSink d).handle1 (s0, p1) ti
            (groupTag d (deltaGroup d p2 g)) data off).2
          (off + ((deltaDecSink d).handle1 (s0, p1) ti
            (groupTag d (deltaGroup d p2 g)) data off).1)
          (ti + 1) from rfl]
      rw [show encGroupsE (deltaGroup d) (fun _ g => g) p2 (g :: gs) =
        deltaGroup d p2 g ::
          encGroupsE (deltaGroup d) (fun _ g => g) g gs from rfl] at hm
      have hdd := scalarDecodeDeltas_stream d hOk data off p1 p2 g hp
        (fun i hi => hv g (by simp) i hi) hm.1
      have hh : (deltaDecSink d).handle1 (s0, p1) ti
          (groupTag d (deltaGroup d p2 g)) data off =
          (groupWritten d (deltaGroup d p2 g),
           (s0 ++ groupWrites ti g,
            [g.getD 0 0, g.getD 1 0, g.getD 2 0, g.getD 3 0])) := by
        rw [deltaDecSink_handle1]
        show ((scalarDecodeDeltas d data off
            (groupTag d (deltaGroup d p2 g)) p1).1,
          (s0 ++ groupWrites ti (scalarDecodeDeltas d data off
            (groupTag d (deltaGroup d p2 g)) p1).2,
           (scalarDecodeDeltas d data off
            (groupTag d (deltaGroup d p2 g)) p1).2)) = _
        rw [hdd]
        show (groupWritten d (deltaGroup d p2 g),
          (s0 ++ groupWrites ti
            [g.getD 0 0, g.getD 1 0, g.getD 2 0, g.getD 3 0],
           [g.getD 0 0, g.getD 1 0, g.getD 2 0, g.getD 3 0])) = _
        rw [groupWrites_canon]
      rw [hh]
      rw [ih [g.getD 0 0, g.getD 1 0, g.getD 2 0, g.getD 3 0] g
        (s0 ++ groupWrites ti g) (off + groupWritten d (deltaGroup d p2 g))
        (ti + 1) (fun x hx i hi => hv x (by simp [hx]) i hi) (by simp) hm.2]
      rw [expectedWrites, List.append_assoc]

theorem natCast_wadd (d : Desc) (a b : Nat) :
    ((wadd d a b : Nat) : ZMod d.M) = (a : ZMod d.M) + (b : ZMod d.M) := by
  unfold wadd
  rw [ZMod.natCast_mod]
  push_cast
  ring

theorem natCast_wsub (d : Desc) (a b : Nat) :
    ((wsub d a b : Nat) : ZMod d.M) = (a : ZMod d.M) - (b : ZMod d.M) := by
  unfold wsub
  rw [ZMod.natCast_mod]
  have hle : b % d.M ≤ d.M := le_of_lt (Nat.mod_lt _ (M_pos d))
  push_cast [hle]
  rw [ZMod.natCast_self, ZMod.natCast_mod]
  ring

theorem eq_of_cast_eq (d : Desc) (a b : Nat) (ha : a < d.M) (hb : b < d.M)
    (h : (a : ZMod d.M) = (b : ZMod d.M)) : a = b := by
  have h1 := ZMod.val_cast_of_lt ha
  have h2 := ZMod.val_cast_of_lt hb
  rw [← h1, ← h2, h]

theorem scalarSkipDeltas_delta (d : Desc) (hOk : DescOk d) (data : List Nat)
    (off : Nat) (p2 g : List Nat)
    (hwin : ∀ q, q < groupWritten d (deltaGroup d p2 g) →
      data.getD (off + q) 0 = (groupBytes d (deltaGroup d p2 g)).getD q 0) :
    (scalarSkipDeltas d data off (groupTag d (deltaGroup d p2 g))).1 =
        groupWritten d (deltaGroup d p2 g) ∧
    (scalarSkipDeltas d data off (groupTag d (deltaGroup d p2 g))).2 <
        d.M ∧
    (((scalarSkipDeltas d data off
        (groupTag d (deltaGroup d p2 g))).2 : Nat) : ZMod d.M) =
      (g.getD 3 0 : ZMod d.M) - (p2.getD 3 0 : ZMod d.M) := by
  have hdec := scalarDecode_stream d hOk data off (deltaGroup d p2 g)
    (deltaGroup_vals_lt d p2 g) hwin
  unfold scalarSkipDeltas
  rw [hdec]
  refine ⟨rfl, ?_, ?_⟩
  · show wadd d (wadd d (wadd d (wadd d 0
        (wsub d (g.getD 0 0) (p2.getD 3 0)))
        (wsub d (g.getD 1 0) (g.getD 0 0)))
        (wsub d (g.getD 2 0) (g.getD 1 0)))
        (wsub d (g.getD 3 0) (g.getD 2 0)) < d.M
    exact wadd_lt d _ _
  · show ((wadd d (wadd d (wadd d (wadd d 0
        (wsub d (g.getD 0 0) (p2.getD 3 0)))
        (wsub d (g.getD 1 0) (g.getD 0 0)))
        (wsub d (g.getD 2 0) (g.getD 1 0)))
        (wsub d (g.getD 3 0) (g.getD 2 0)) : Nat) : ZMod d.M) = _
    rw [natCast_wadd, natCast_wadd, natCast_wadd, natCast_wadd,
      natCast_wsub, natCast_wsub, natCast_wsub, natCast_wsub]
    push_cast
    ring

theorem stepFold_skip (d : Desc) (hOk : DescOk d) (data : List Nat) :
    ∀ (gs : List (List Nat)) (p2 : List Nat) (s0 off ti : Nat),
      s0 < d.M →
      matchesStream d data off
        (encGroupsE (deltaGroup d) (fun _ g => g) p2 gs) →
      (stepFold (skipDeltasSink d).handle1 data
          ((encGroupsE (deltaGroup d) (fun _ g => g) p2 gs).map
            (groupTag d)) s0 off ti).1 < d.M ∧
      (((stepFold (skipDeltasSink d).handle1 data
          ((encGroupsE (deltaGroup d) (fun _ g => g) p2 gs).map
            (groupTag d)) s0 off ti).1 : Nat) : ZMod d.M) =
        (s0 : ZMod d.M) + (lastOf p2 gs : ZMod d.M) -
          (p2.getD 3 0 : ZMod d.M) := by
  intro gs
  induction gs with
  | nil =>
      intro p2 s0 off ti hs0 _
      refine ⟨hs0, ?_⟩
      show ((s0 : Nat) : ZMod d.M) = _
      rw [show lastOf p2 [] = p2.getD 3 0 from rfl]
      ring
  | cons g gs ih =>
      intro p2 s0 off ti hs0 hm
      rw [show encGroupsE (deltaGroup d) (fun _ g => g) p2 (g :: gs) =
        deltaGroup d p2 g ::
          encGroupsE (deltaGroup d) (fun _ g => g) g gs from rfl] at hm ⊢
      obtain ⟨RD, hRD⟩ : ∃ r, scalarSkipDeltas d data off
          (groupTag d (deltaGroup d p2 g)) = r := ⟨_, rfl⟩
      have hsk := scalarSkipDeltas_delta d hOk data off p2 g hm.1
      rw [hRD] at hsk
      rw [List.map_cons]
      rw [show stepFold (skipDeltasSink d).handle1 data
          (groupTag d (deltaGroup d p2 g) ::
            (encGroupsE (deltaGroup d) (fun _ g => g) g gs).map
              (groupTag d)) s0 off ti =
        stepFold (skipDeltasSink d).handle1 data
          ((encGroupsE (deltaGroup d) (fun _ g => g) g gs).map (groupTag d))
          ((skipDeltasSink d).handle1 s0 ti
            (groupTag d (deltaGroup d p2 g)) data off).2
          (off + ((skipDeltasSink d).handle1 s0 ti
            (groupTag d (deltaGroup d p2 g)) data off).1)
          (ti + 1) from rfl]
      have hh : (skipDeltasSink d).handle1 s0 ti
          (groupTag d (deltaGroup d p2 g)) data off =
          (RD.1, wadd d s0 RD.2) := by
        rw [skipDeltasSink_handle1, hRD]
      rw [hh, hsk.1]
      obtain ⟨ihb, ihc⟩ := ih g (wadd d s0 RD.2)
        (off + groupWritten d (deltaGroup d p2 g)) (ti + 1)
        (wadd_lt d _ _) hm.2
      refine ⟨ihb, ?_⟩
      rw [ihc, natCast_wadd, hsk.2.2,
        show lastOf p2 (g :: gs) = lastOf g gs from rfl]
      ring

theorem memBytes_length (mem : Nat → Nat) (n : Nat) :
    (memBytes mem n).length = n := by
  unfold memBytes
  simp

theorem chunks4_vals_lt (d : Desc) (vs : List Nat)
    (hvals : ∀ v ∈ vs, v < d.M) :
    ∀ e ∈ chunks4 vs, ∀ i, i < 4 → e.getD i 0 < d.M := by
  intro e he i hi
  have hl : e.length = 4 := chunks4_chunk_length vs e he
  have hi' : i < e.length := by omega
  rw [List.getD_eq_getElem _ _ hi']
  exact hvals _ (chunks4_mem_subset vs e he _ (List.getElem_mem _))

theorem deltaEncSink_handleE (d : Desc) :
    ∀ (s : List Nat) (mem : Nat → Nat) (off : Nat) (g : List Nat),
      (deltaEncSink d).handle s mem off g =
        ((scalarEncode d mem off (deltaGroup d s g)).1,
         (scalarEncode d mem off (deltaGroup d s g)).2.1,
         (scalarEncode d mem off (deltaGroup d s g)).2.2, g) :=
  fun _ _ _ _ => rfl

theorem encode_eq (d : Desc) (hOk : DescOk d) (vs : List Nat)
    (mem : Nat → Nat) (tagsCap dataCap : Nat)
    (hc : vs.length % 4 = 0 ∧ vs.length / 4 ≤ tagsCap ∧
      vs.length / 4 * d.TAG_LEN 3 * 4 ≤ dataCap) :
    encode d vs tagsCap dataCap mem =
      some ((chunks4 vs).map (groupTag d),
        ((chunks4 vs).map (groupWritten d)).sum,
        (encodeGroupsLoop (stdEncSink d) (chunks4 vs) mem 0 ()).2.2) ∧
    matchesStreamFn d
      (encodeGroupsLoop (stdEncSink d) (chunks4 vs) mem 0 ()).2.2 0
      (chunks4 vs) := by
  obtain ⟨h1, h2, _, h4⟩ := encodeGroupsLoop_spec d hOk (stdEncSink d)
    (fun _ g => g) (fun _ _ => ()) (stdEncSink_handle d) (chunks4 vs) mem 0 ()
  rw [encGroupsE_std] at h1 h2 h4
  refine ⟨?_, h4⟩
  unfold encode encodeToSink
  rw [if_pos hc]
  have hL : encodeGroupsLoop (stdEncSink d) (chunks4 vs) mem 0 () =
      ((chunks4 vs).map (groupTag d),
       ((chunks4 vs).map (groupWritten d)).sum,
       (encodeGroupsLoop (stdEncSink d) (chunks4 vs) mem 0 ()).2.2) := by
    refine Prod.ext h1 (Prod.ext ?_ rfl)
    rw [h2]
    rw [Nat.zero_add]
  exact congrArg some hL

theorem encode_deltas_eq (d : Desc) (hOk : DescOk d) (initial : Nat)
    (vs : List Nat) (mem : Nat → Nat) (tagsCap dataCap : Nat)
    (hc : vs.length % 4 = 0 ∧ vs.length / 4 ≤ tagsCap ∧
      vs.length / 4 * d.TAG_LEN 3 * 4 ≤ dataCap) :
    encode_deltas d initial vs tagsCap dataCap mem =
      some ((encGroupsE (deltaGroup d) (fun _ g => g) (set1 initial)
          (chunks4 vs)).map (groupTag d),
        ((encGroupsE (deltaGroup d) (fun _ g => g) (set1 initial)
          (chunks4 vs)).map (groupWritten d)).sum,
        (encodeGroupsLoop (deltaEncSink d) (chunks4 vs) mem 0
          (set1 initial)).2.2) ∧
    matchesStreamFn d
      (encodeGroupsLoop (deltaEncSink d) (chunks4 vs) mem 0
        (set1 initial)).2.2 0
      (encGroupsE (deltaGroup d) (fun _ g => g) (set1 initial)
        (chunks4 vs)) := by
  obtain ⟨h1, h2, _, h4⟩ := encodeGroupsLoop_spec d hOk (deltaEncSink d)
    (deltaGroup d) (fun _ g => g) (deltaEncSink_handleE d) (chunks4 vs) mem
    0 (set1 initial)
  refine ⟨?_, h4⟩
  unfold encode_deltas encodeToSink
  rw [if_pos hc]
  have hL : encodeGroupsLoop (deltaEncSink d) (chunks4 vs) mem 0
      (set1 initial) =
      ((encGroupsE (deltaGroup d) (fun _ g => g) (set1 initial)
          (chunks4 vs)).map (groupTag d),
       ((encGroupsE (deltaGroup d) (fun _ g => g) (set1 initial)
          (chunks4 vs)).map (groupWritten d)).sum,
       (encodeGroupsLoop (deltaEncSink d) (chunks4 vs) mem 0
          (set1 initial)).2.2) := by
    refine Prod.ext h1 (Prod.ext ?_ rfl)
    rw [h2]
    rw [Nat.zero_add]
  exact congrArg some hL

/-- C1: for each of the three parameterizations, encoding a values
slice whose length is a multiple of 4 into buffers sized by
`max_compressed_bytes` succeeds, and decoding the produced tag and data
streams writes back exactly the input values (element `j` receives
`vs[j]`) and returns the same data byte count the encoder reported. -/
theorem C1_round_trip (d : Desc)
    (hd : d = desc1234 ∨ d = desc0124 ∨ d = desc1248)
    (vs : List Nat) (hlen : vs.length % 4 = 0)
    (hvals : ∀ v ∈ vs, v < d.M) (mem : Nat → Nat) :
    ∃ tagsL written memF,
      encode d vs (max_compressed_bytes d vs.length).1
        (max_compressed_bytes d vs.length).2 mem =
        some (tagsL, written, memF) ∧
      decode d tagsL (memBytes memF written) vs.length =
        some (written, (List.range vs.length).zip vs) := by
  have hOk : DescOk d := by
    rcases hd with h | h | h
    · exact h ▸ descOk1234
    · exact h ▸ descOk0124
    · exact h ▸ descOk1248
  have hT : d.TAG_LEN 3 ≤ d.width := by
    have h := hOk.len_le 3
    norm_num at h
    exact h
  have hcap : vs.length % 4 = 0 ∧
      vs.length / 4 ≤ (max_compressed_bytes d vs.length).1 ∧
      vs.length / 4 * d.TAG_LEN 3 * 4 ≤
        (max_compressed_bytes d vs.length).2 := by
    refine ⟨hlen, ?_, ?_⟩
    · show vs.length / 4 ≤ (vs.length + 3) / 4
      omega
    · show vs.length / 4 * d.TAG_LEN 3 * 4 ≤
        (vs.length + 3) / 4 * 4 * d.width
      calc vs.length / 4 * d.TAG_LEN 3 * 4 =
            vs.length / 4 * 4 * d.TAG_LEN 3 := by ring
        _ ≤ (vs.length + 3) / 4 * 4 * d.width :=
            Nat.mul_le_mul (by omega) hT
  obtain ⟨henc, hmsf⟩ := encode_eq d hOk vs mem _ _ hcap
  refine ⟨(chunks4 vs).map (groupTag d),
    ((chunks4 vs).map (groupWritten d)).sum,
    (encodeGroupsLoop (stdEncSink d) (chunks4 vs) mem 0 ()).2.2, henc, ?_⟩
  have h256 : ∀ b ∈ (chunks4 vs).map (groupTag d), b < 256 := by
    intro b hb
    obtain ⟨e, _, rfl⟩ := List.mem_map.mp hb
    exact groupTag_lt_256 d hOk e
  have hdlen : (memBytes (encodeGroupsLoop (stdEncSink d) (chunks4 vs) mem
      0 ()).2.2 ((chunks4 vs).map (groupWritten d)).sum).length =
      sumLens d ((chunks4 vs).map (groupTag d)) := by
    rw [memBytes_length, sumLens_map_groupTag d hOk]
  have hms : matchesStream d
      (memBytes (encodeGroupsLoop (stdEncSink d) (chunks4 vs) mem
        0 ()).2.2 ((chunks4 vs).map (groupWritten d)).sum) 0
      (chunks4 vs) :=
    matchesStreamFn_to_list d _ _ (chunks4 vs) 0 hmsf (by omega)
  have hcond : vs.length % 4 = 0 ∧
      vs.length / 4 ≤ ((chunks4 vs).map (groupTag d)).length := by
    refine ⟨hlen, ?_⟩
    rw [List.length_map, chunks4_length]
  unfold decode
  rw [if_pos hcond]
  rw [decodeToSink_stream d hOk (stdDecSink d) (stdDecSink_lawful d) _ _
    h256 hdlen []]
  rw [stepFold_std d hOk _ (chunks4 vs) [] 0 0
    (chunks4_vals_lt d vs hvals) hms]
  rw [memBytes_length, List.nil_append,
    expectedWrites_chunks4 vs hlen 0, zip_range_eq_map]
  simp

theorem descOk_of_three (d : Desc)
    (hd : d = desc1234 ∨ d = desc0124 ∨ d = desc1248) : DescOk d := by
  rcases hd with h | h | h
  · exact h ▸ descOk1234
  · exact h ▸ descOk0124
  · exact h ▸ descOk1248

theorem max_compressed_ok (d : Desc) (hOk : DescOk d) (vs : List Nat)
    (hlen : vs.length % 4 = 0) :
    vs.length % 4 = 0 ∧
    vs.length / 4 ≤ (max_compressed_bytes d vs.length).1 ∧
    vs.length / 4 * d.TAG_LEN 3 * 4 ≤
      (max_compressed_bytes d vs.length).2 := by
  have hT : d.TAG_LEN 3 ≤ d.width := by
    have h := hOk.len_le 3
    norm_num at h
    exact h
  refine ⟨hlen, ?_, ?_⟩
  · show vs.length / 4 ≤ (vs.length + 3) / 4
    omega
  · show vs.length / 4 * d.TAG_LEN 3 * 4 ≤
      (vs.length + 3) / 4 * 4 * d.width
    calc vs.length / 4 * d.TAG_LEN 3 * 4 =
          vs.length / 4 * 4 * d.TAG_LEN 3 := by ring
      _ ≤ (vs.length + 3) / 4 * 4 * d.width :=
          Nat.mul_le_mul (by omega) hT

/-- C2: for each parameterization and every anchor, delta-encoding a
values slice (wrapping differences, so also for non-monotonic input)
and delta-decoding with the same anchor writes back exactly the input
values and returns the encoder's data byte count. -/
theorem C2_delta_round_trip (d : Desc)
    (hd : d = desc1234 ∨ d = desc0124 ∨ d = desc1248)
    (initial : Nat) (vs : List Nat) (hlen : vs.length % 4 = 0)
    (hvals : ∀ v ∈ vs, v < d.M) (mem : Nat → Nat) :
    ∃ tagsL written memF pfin,
      encode_deltas d initial vs (max_compressed_bytes d vs.length).1
        (max_compressed_bytes d vs.length).2 mem =
        some (tagsL, written, memF) ∧
      decode_deltas d initial tagsL (memBytes memF written) vs.length =
        some (written, ((List.range vs.length).zip vs, pfin)) := by
  have hOk : DescOk d := descOk_of_three d hd
  obtain ⟨henc, hmsf⟩ := encode_deltas_eq d hOk initial vs mem _ _
    (max_compressed_ok d hOk vs hlen)
  have h256 : ∀ b ∈ (encGroupsE (deltaGroup d) (fun _ g => g)
      (set1 initial) (chunks4 vs)).map (groupTag d), b < 256 := by
    intro b hb
    obtain ⟨e, _, rfl⟩ := List.mem_map.mp hb
    exact groupTag_lt_256 d hOk e
  have hdlen : (memBytes (encodeGroupsLoop (deltaEncSink d) (chunks4 vs)
      mem 0 (set1 initial)).2.2
      ((encGroupsE (deltaGroup d) (fun _ g => g) (set1 initial)
        (chunks4 vs)).map (groupWritten d)).sum).length =
      sumLens d ((encGroupsE (deltaGroup d) (fun _ g => g) (set1 initial)
        (chunks4 vs)).map (groupTag d)) := by
    rw [memBytes_length, sumLens_map_groupTag d hOk]
  have hms : matchesStream d
      (memBytes (encodeGroupsLoop (deltaEncSink d) (chunks4 vs) mem 0
        (set1 initial)).2.2
        ((encGroupsE (deltaGroup d) (fun _ g => g) (set1 initial)
          (chunks4 vs)).map (groupWritten d)).sum) 0
      (encGroupsE (deltaGroup d) (fun _ g => g) (set1 initial)
        (chunks4 vs)) :=
    matchesStreamFn_to_list d _ _ _ 0 hmsf (by omega)
  have hcond : vs.length % 4 = 0 ∧ vs.length / 4 ≤
      ((encGroupsE (deltaGroup d) (fun _ g => g) (set1 initial)
        (chunks4 vs)).map (groupTag d)).length := by
    refine ⟨hlen, ?_⟩
    rw [List.length_map]
    have henl : ∀ (gs : List (List Nat)) (p : List Nat),
        (encGroupsE (deltaGroup d) (fun _ g => g) p gs).length =
          gs.length := by
      intro gs
      induction gs with
      | nil => intro p; rfl
      | cons g gs ih => intro p; simp [encGroupsE, ih]
    rw [henl, chunks4_length]
  have hlog := stepFold_delta d hOk
    (memBytes (encodeGroupsLoop (deltaEncSink d) (chunks4 vs) mem 0
      (set1 initial)).2.2
      ((encGroupsE (deltaGroup d) (fun _ g => g) (set1 initial)
        (chunks4 vs)).map (groupWritten d)).sum)
    (chunks4 vs) (set1 initial) (set1 initial) [] 0 0
    (chunks4_vals_lt d vs hvals) rfl hms
  refine ⟨_, _, _,
    (stepFold (deltaDecSink d).handle1
      (memBytes (encodeGroupsLoop (deltaEncSink d) (chunks4 vs) mem 0
        (set1 initial)).2.2
        ((encGroupsE (deltaGroup d) (fun _ g => g) (set1 initial)
          (chunks4 vs)).map (groupWritten d)).sum)
      ((encGroupsE (deltaGroup d) (fun _ g => g) (set1 initial)
        (chunks4 vs)).map (groupTag d)) ([], set1 initial) 0 0).1.2,
    henc, ?_⟩
  · unfold decode_deltas
    rw [if_pos hcond]
    rw [decodeToSink_stream d hOk (deltaDecSink d) (deltaDecSink_lawful d)
      _ _ h256 hdlen ([], set1 initial)]
    rw [memBytes_length]
    refine congrArg some (Prod.ext rfl (Prod.ext ?_ rfl))
    rw [hlog, List.nil_append, expectedWrites_chunks4 vs hlen 0,
      zip_range_eq_map]
    simp

theorem lastOf_chunks4 (vs : List Nat) (hlen : vs.length % 4 = 0)
    (hne : vs ≠ []) :
    ∀ base, lastOf base (chunks4 vs) = vs.getD (vs.length - 1) 0 := by
  induction vs using chunks4.induct with
  | case1 a b c e rest ih =>
      intro base
      rw [chunks4]
      rw [show lastOf base ([a, b, c, e] :: chunks4 rest) =
        lastOf [a, b, c, e] (chunks4 rest) from rfl]
      by_cases hr : rest = []
      · subst hr
        rfl
      · have hrl : rest.length % 4 = 0 := by
          simp only [List.length_cons] at hlen
          omega
        rw [ih hrl hr [a, b, c, e]]
        rw [show (a :: b :: c :: e :: rest).length - 1 =
          (rest.length - 1) + 1 + 1 + 1 + 1 by
            have hrlen : 1 ≤ rest.length := by
              rcases rest with _ | _
              · exact absurd rfl hr
              · simp
            simp only [List.length_cons]
            omega]
        simp [List.getD_cons_succ]
  | case2 vs h =>
      intro base
      rcases vs with _ | ⟨a, _ | ⟨b, _ | ⟨c, _ | ⟨e, rest⟩⟩⟩⟩
      · exact absurd rfl hne
      · simp at hlen
      · simp at hlen
      · simp at hlen
      · exact absurd rfl (by intro hh; exact (h a b c e rest hh).elim)

/-- C5: skipping the stream produced by `encode_deltas(initial, vs)`
returns the data byte count the encoder reported together with the
wrapping difference between the last input value and the anchor. -/
theorem C5_skip_deltas (d : Desc)
    (hd : d = desc1234 ∨ d = desc0124 ∨ d = desc1248)
    (initial : Nat) (vs : List Nat) (hlen : vs.length % 4 = 0)
    (hne : vs ≠ []) (mem : Nat → Nat) :
    ∃ tagsL written memF,
      encode_deltas d initial vs (max_compressed_bytes d vs.length).1
        (max_compressed_bytes d vs.length).2 mem =
        some (tagsL, written, memF) ∧
      skip_deltas d tagsL (memBytes memF written) =
        some (written, wsub d (vs.getD (vs.length - 1) 0) initial) := by
  have hOk : DescOk d := descOk_of_three d hd
  obtain ⟨henc, hmsf⟩ := encode_deltas_eq d hOk initial vs mem _ _
    (max_compressed_ok d hOk vs hlen)
  have h256 : ∀ b ∈ (encGroupsE (deltaGroup d) (fun _ g => g)
      (set1 initial) (chunks4 vs)).map (groupTag d), b < 256 := by
    intro b hb
    obtain ⟨e, _, rfl⟩ := List.mem_map.mp hb
    exact groupTag_lt_256 d hOk e
  have hdlen : (memBytes (encodeGroupsLoop (deltaEncSink d) (chunks4 vs)
      mem 0 (set1 initial)).2.2
      ((encGroupsE (deltaGroup d) (fun _ g => g) (set1 initial)
        (chunks4 vs)).map (groupWritten d)).sum).length =
      sumLens d ((encGroupsE (deltaGroup d) (fun _ g => g) (set1 initial)
        (chunks4 vs)).map (groupTag d)) := by
    rw [memBytes_length, sumLens_map_groupTag d hOk]
  have hms : matchesStream d
      (memBytes (encodeGroupsLoop (deltaEncSink d) (chunks4 vs) mem 0
        (set1 initial)).2.2
        ((encGroupsE (deltaGroup d) (fun _ g => g) (set1 initial)
          (chunks4 vs)).map (groupWritten d)).sum) 0
      (encGroupsE (deltaGroup d) (fun _ g => g) (set1 initial)
        (chunks4 vs)) :=
    matchesStreamFn_to_list d _ _ _ 0 hmsf (by omega)
  obtain ⟨hb, hc⟩ := stepFold_skip d hOk
    (memBytes (encodeGroupsLoop (deltaEncSink d) (chunks4 vs) mem 0
      (set1 initial)).2.2
      ((encGroupsE (deltaGroup d) (fun _ g => g) (set1 initial)
        (chunks4 vs)).map (groupWritten d)).sum)
    (chunks4 vs) (set1 initial) 0 0 0 (M_pos d) hms
  refine ⟨_, _, _, henc, ?_⟩
  unfold skip_deltas
  rw [decodeToSink_stream d hOk (skipDeltasSink d) (skipDeltasSink_lawful d)
    _ _ h256 hdlen 0]
  rw [memBytes_length]
  refine congrArg some (Prod.ext rfl ?_)
  show (stepFold (skipDeltasSink d).handle1 _ _ 0 0 0).1 =
    wsub d (vs.getD (vs.length - 1) 0) initial
  apply eq_of_cast_eq d _ _ hb (wsub_lt d _ _)
  rw [hc, natCast_wsub, lastOf_chunks4 vs hlen hne (set1 initial),
    show (set1 initial).getD 3 0 = initial from rfl]
  push_cast
  ring

/-- C10: with exactly enough data bytes for every tag byte, `decode`
(whose entry assertion only requires `tags.len() >= values.len()/4`)
succeeds, decodes one group per tag byte, and its element-store log
targets exactly the indices `0 .. 4*tags.len()`; whenever
`values.len() < 4*tags.len()` that log contains a store at an index
past the end of the values slice. -/
theorem C10_decode_oob (d : Desc)
    (hd : d = desc1234 ∨ d = desc0124 ∨ d = desc1248)
    (tags data : List Nat) (valuesLen : Nat)
    (h256 : ∀ b ∈ tags, b < 256) (hlen : data.length = sumLens d tags)
    (hv4 : valuesLen % 4 = 0) (hvle : valuesLen / 4 ≤ tags.length) :
    ∃ log, decode d tags data valuesLen = some (data.length, log) ∧
      log.map Prod.fst = List.range (4 * tags.length) ∧
      (valuesLen < 4 * tags.length → ∃ w ∈ log, valuesLen ≤ w.1) := by
  have hOk : DescOk d := descOk_of_three d hd
  have hfst : ((stepFold (stdDecSink d).handle1 data tags [] 0 0).1).map
      Prod.fst = List.range (4 * tags.length) := by
    rw [stepFold_std_fst d data tags [] 0 0]
    simp
  refine ⟨(stepFold (stdDecSink d).handle1 data tags [] 0 0).1, ?_, hfst,
    ?_⟩
  · unfold decode
    rw [if_pos ⟨hv4, hvle⟩,
      decodeToSink_stream d hOk (stdDecSink d) (stdDecSink_lawful d)
        _ _ h256 hlen []]
  · intro hlt
    have hlenlog :
        ((stepFold (stdDecSink d).handle1 data tags [] 0 0).1).length =
          4 * tags.length := by
      have h := congrArg List.length hfst
      simpa using h
    have hvlt : valuesLen <
        ((stepFold (stdDecSink d).handle1 data tags [] 0 0).1).length := by
      omega
    have h2 := congrArg (fun l => l.getD valuesLen 0) hfst
    simp only [] at h2
    rw [List.getD_eq_getElem
        (((stepFold (stdDecSink d).handle1 data tags [] 0 0).1).map
          Prod.fst) 0 (by rw [List.length_map]; omega),
      List.getD_eq_getElem (List.range (4 * tags.length)) 0
        (by rw [List.length_range]; omega),
      List.getElem_map, List.getElem_range] at h2
    refine ⟨((stepFold (stdDecSink d).handle1 data tags [] 0 0).1).get
      ⟨valuesLen, hvlt⟩, ?_, ?_⟩
    · rw [List.get_eq_getElem]
      exact List.getElem_mem _
    · rw [List.get_eq_getElem]
      exact le_of_eq h2.symm

theorem minCoveringTag_min (d : Desc) (v t : Nat)
    (ht : t < minCoveringTag d v) : ¬ v ≤ d.TAG_MAX t := by
  intro hle
  unfold minCoveringTag at ht
  split_ifs at ht with h1 h2 h3
  · omega
  · have h : t = 0 := by omega
    subst h
    exact h1 hle
  · have h : t = 0 ∨ t = 1 := by omega
    rcases h with h | h <;> subst h
    · exact h1 hle
    · exact h2 hle
  · have h : t = 0 ∨ t = 1 ∨ t = 2 := by omega
    rcases h with h | h | h <;> subst h
    · exact h1 hle
    · exact h2 hle
    · exact h3 hle

/-- C4: for each parameterization and every in-range value, the encoder
value-tag equals the least tag whose `TAG_MAX` covers the value: it
covers `v`, no smaller tag covers `v`, and the encoded length is that
tag's `TAG_LEN` entry (so never more bytes than necessary). -/
theorem C4_tag_minimality (d : Desc)
    (hd : d = desc1234 ∨ d = desc0124 ∨ d = desc1248)
    (v : Nat) (hv : v < d.M) :
    (d.tagValue v).1 = minCoveringTag d v ∧
    v ≤ d.TAG_MAX (d.tagValue v).1 ∧
    (∀ t, t < (d.tagValue v).1 → ¬ v ≤ d.TAG_MAX t) ∧
    (d.tagValue v).2 = d.TAG_LEN (d.tagValue v).1 := by
  have hOk : DescOk d := descOk_of_three d hd
  have heq : (d.tagValue v).1 = minCoveringTag d v := by
    rcases hd with h | h | h <;> subst h
    · exact tagValue1234_eq_min v (by norm_num [Desc.M] at hv; exact hv)
    · exact tagValue0124_eq_min v (by norm_num [Desc.M] at hv; exact hv)
    · exact tagValue1248_eq_min v (by norm_num [Desc.M] at hv; exact hv)
  refine ⟨heq, hOk.tv_covers v hv, ?_, hOk.tv_len v⟩
  intro t ht
  rw [heq] at ht
  exact minCoveringTag_min d v t ht

/-- C7 (amended): under the 1248 parameterization the spec's literal
group `[1, 0x100, 0x1_0000_0000, 0xFF_FFFF_FFFF_FFFF]` gets value-tags
0, 1, 3, 3 — `0x1_0000_0000` needs five bytes, so the encoder picks the
8-byte tag — giving tag byte `0b11_11_01_00 = 244` and 19 data bytes;
the intended all-four-tags illustration holds with `0x1000_0000`
(value-tags 0, 1, 2, 3, tag byte `0b11_10_01_00 = 228`, written 15). -/
theorem C7_width_selection_amended :
    ((desc1248.tagValue 1).1 = 0 ∧
     (desc1248.tagValue 256).1 = 1 ∧
     (desc1248.tagValue 268435456).1 = 2 ∧
     (desc1248.tagValue 72057594037927935).1 = 3 ∧
     (scalarEncode desc1248 (fun _ => 0) 0
       [1, 256, 268435456, 72057594037927935]).1 = 228 ∧
     (scalarEncode desc1248 (fun _ => 0) 0
       [1, 256, 268435456, 72057594037927935]).2.1 = 15) ∧
    ((desc1248.tagValue 4294967296).1 = 3 ∧
     (scalarEncode desc1248 (fun _ => 0) 0
       [1, 256, 4294967296, 72057594037927935]).1 = 244 ∧
     (scalarEncode desc1248 (fun _ => 0) 0
       [1, 256, 4294967296, 72057594037927935]).2.1 = 19) := by
  decide

/-- C7 counterexample: on the claim's literal third value
`0x1_0000_0000` the encoder does not choose value-tag 2, the group's
tag byte is not `228`, and the written count is not 15. -/
theorem C7_width_selection_counterexample :
    ¬ ((desc1248.tagValue 4294967296).1 = 2) ∧
    ¬ ((scalarEncode desc1248 (fun _ => 0) 0
      [1, 256, 4294967296, 72057594037927935]).1 = 228) ∧
    ¬ ((scalarEncode desc1248 (fun _ => 0) 0
      [1, 256, 4294967296, 72057594037927935]).2.1 = 15) := by
  decide

theorem C1_round_trip_witness :
    ∃ tagsL written memF,
      encode desc1234 [1, 256, 65536, 16777216]
        (max_compressed_bytes desc1234 4).1
        (max_compressed_bytes desc1234 4).2 (fun _ => 0) =
        some (tagsL, written, memF) ∧
      decode desc1234 tagsL (memBytes memF written) 4 =
        some (written, (List.range 4).zip [1, 256, 65536, 16777216]) :=
  C1_round_trip desc1234 (Or.inl rfl) [1, 256, 65536, 16777216]
    (by decide) (by decide) (fun _ => 0)

theorem C2_delta_round_trip_witness :
    ∃ tagsL written memF pfin,
      encode_deltas desc1234 5 [3, 1, 4, 1]
        (max_compressed_bytes desc1234 4).1
        (max_compressed_bytes desc1234 4).2 (fun _ => 0) =
        some (tagsL, written, memF) ∧
      decode_deltas desc1234 5 tagsL (memBytes memF written) 4 =
        some (written, ((List.range 4).zip [3, 1, 4, 1], pfin)) :=
  C2_delta_round_trip desc1234 (Or.inl rfl) 5 [3, 1, 4, 1]
    (by decide) (by decide) (fun _ => 0)

theorem C5_skip_deltas_witness :
    ∃ tagsL written memF,
      encode_deltas desc1234 7 [9, 2, 5, 11]
        (max_compressed_bytes desc1234 4).1
        (max_compressed_bytes desc1234 4).2 (fun _ => 0) =
        some (tagsL, written, memF) ∧
      skip_deltas desc1234 tagsL (memBytes memF written) =
        some (written, wsub desc1234 11 7) :=
  C5_skip_deltas desc1234 (Or.inl rfl) 7 [9, 2, 5, 11] (by decide)
    (by decide) (fun _ => 0)

theorem C10_decode_oob_witness :
    ∃ log, decode desc1234 [0, 0] (List.replicate 8 0) 4 =
        some ((List.replicate (8 : Nat) (0 : Nat)).length, log) ∧
      log.map Prod.fst = List.range 8 ∧
      (4 < 8 → ∃ w ∈ log, 4 ≤ w.1) :=
  C10_decode_oob desc1234 (Or.inl rfl) [0, 0] (List.replicate 8 0) 4
    (by decide) (by decide) (by decide) (by decide)

theorem C4_tag_minimality_witness :
    (desc1234.tagValue 256).1 = minCoveringTag desc1234 256 ∧
    256 ≤ desc1234.TAG_MAX (desc1234.tagValue 256).1 ∧
    (∀ t, t < (desc1234.tagValue 256).1 →
      ¬ 256 ≤ desc1234.TAG_MAX t) ∧
    (desc1234.tagValue 256).2 =
      desc1234.TAG_LEN (desc1234.tagValue 256).1 :=
  C4_tag_minimality desc1234 (Or.inl rfl) 256 (by decide)

theorem sum_map_add {α : Type} (l : List α) (f g : α → Nat) :
    (l.map f).sum + (l.map g).sum = (l.map (fun x => f x + g x)).sum := by
  induction l with
  | nil => rfl
  | cons a l ih =>
      simp only [List.map_cons, List.sum_cons]
      omega

theorem hi_nibble_idx (x k : Nat) :
    x / 16 / 2 ^ k % 256 % 16 = x / 2 ^ k % 256 / 16 := by
  rw [Nat.div_div_eq_div_mul, Nat.mul_comm, ← Nat.div_div_eq_div_mul]
  rw [Nat.mod_mod_of_dvd (x / 2 ^ k / 16) (show (16 : Nat) ∣ 256 by
    norm_num)]
  omega

set_option maxRecDepth 4096 in
theorem nibble_table_byte1234 : ∀ b, b < 256 →
    (generate_nibble_tag_len_table tagLen1234).getD (b % 16) 0 +
      (generate_nibble_tag_len_table tagLen1234).getD (b / 16) 0 =
      dataLen desc1234 b := by
  decide

theorem data_len8_neon_eq (tag8 : Nat) :
    data_len8_neon tagLen1234 tag8 = data_len8 desc1234 tag8 := by
  unfold data_len8_neon data_len8
  rw [List.sum_append, sum_map_add]
  congr 1
  apply List.map_congr_left
  intro i _
  rw [hi_nibble_idx tag8 (8 * i)]
  exact nibble_table_byte1234 (tag8 / 2 ^ (8 * i) % 256)
    (Nat.mod_lt _ (by norm_num))

/-- C6: for every packed tag word, `data_len8` agrees with the sum of
`data_len` over its eight tag bytes: definitionally for the default
byte-by-byte implementation of each parameterization, and provably for
the NEON nibble-table implementation used by `group1234`. -/
theorem C6_data_len8_agreement (tag8 : Nat) :
    data_len8 desc1234 tag8 =
      ((List.range 8).map (fun i =>
        dataLen desc1234 (tag8 / 2 ^ (8 * i) % 256))).sum ∧
    data_len8 desc0124 tag8 =
      ((List.range 8).map (fun i =>
        dataLen desc0124 (tag8 / 2 ^ (8 * i) % 256))).sum ∧
    data_len8 desc1248 tag8 =
      ((List.range 8).map (fun i =>
        dataLen desc1248 (tag8 / 2 ^ (8 * i) % 256))).sum ∧
    data_len8_neon tagLen1234 tag8 = data_len8 desc1234 tag8 :=
  ⟨rfl, rfl, rfl, data_len8_neon_eq tag8⟩

/-- C9 counterexample: the NEON tables fill unused entry positions with
`64`, whose high bit (bit 7) is clear, contradicting the claim that
every fill byte has the high bit set. -/
theorem C9_fill_counterexample :
    (tag_encode_shuffle_entry32 tagLen1234 0).getD 4 0 = 64 ∧
    (tag_decode_shuffle_entry32 tagLen1234 0).getD 1 0 = 64 ∧
    Nat.testBit 64 7 = false := by
  decide

set_option maxRecDepth 8192 in
set_option maxHeartbeats 2000000 in
/-- C9 (amended): every byte of a NEON (`arch/neon.rs`) encode or
decode shuffle entry is either a real source index below 16 or the fill
byte 64 — out of `vqtbl1q_u8`'s index range, so those lanes are
zero-filled, but its high bit is clear; the `arch/shuffle.rs` entries
as instantiated by the x86 backends (fill byte 128) hold either a real
index or 128, whose high bit is set. -/
theorem C9_fill_amended : ∀ tag, tag < 256 →
    (∀ k, k < 16 →
      ((tag_encode_shuffle_entry32 tagLen1234 tag).getD k 0 < 16 ∨
       ((tag_encode_shuffle_entry32 tagLen1234 tag).getD k 0 = 64 ∧
        Nat.testBit 64 7 = false))) ∧
    (∀ k, k < 16 →
      ((tag_decode_shuffle_entry32 tagLen1234 tag).getD k 0 < 16 ∨
       (tag_decode_shuffle_entry32 tagLen1234 tag).getD k 0 = 64)) ∧
    (∀ k, k < 16 →
      ((encode_shuffle_entry 4 16 tag tagLen1234 128).getD k 0 < 16 ∨
       ((encode_shuffle_entry 4 16 tag tagLen1234 128).getD k 0 = 128 ∧
        Nat.testBit 128 7 = true))) ∧
    (∀ k, k < 16 →
      ((decode_shuffle_entry 4 16 tag tagLen1234 128).getD k 0 < 16 ∨
       (decode_shuffle_entry 4 16 tag tagLen1234 128).getD k 0 = 128)) := by
  decide

theorem C9_fill_amended_witness :
    (∀ k, k < 16 →
      ((tag_encode_shuffle_entry32 tagLen1234 7).getD k 0 < 16 ∨
       ((tag_encode_shuffle_entry32 tagLen1234 7).getD k 0 = 64 ∧
        Nat.testBit 64 7 = false))) ∧
    (∀ k, k < 16 →
      ((tag_decode_shuffle_entry32 tagLen1234 7).getD k 0 < 16 ∨
       (tag_decode_shuffle_entry32 tagLen1234 7).getD k 0 = 64)) ∧
    (∀ k, k < 16 →
      ((encode_shuffle_entry 4 16 7 tagLen1234 128).getD k 0 < 16 ∨
       ((encode_shuffle_entry 4 16 7 tagLen1234 128).getD k 0 = 128 ∧
        Nat.testBit 128 7 = true))) ∧
    (∀ k, k < 16 →
      ((decode_shuffle_entry 4 16 7 tagLen1234 128).getD k 0 < 16 ∨
       (decode_shuffle_entry 4 16 7 tagLen1234 128).getD k 0 = 128)) :=
  C9_fill_amended 7 (by decide)

theorem dataLen_le (d : Desc) (hOk : DescOk d) (t : Nat) :
    dataLen d t ≤ d.TAG_LEN 3 * 4 := by
  unfold dataLen tagToEncodedLen
  have h0 := hOk.len_mono (t % 4) (Nat.mod_lt _ (by norm_num))
  have h1 := hOk.len_mono (t / 4 % 4) (Nat.mod_lt _ (by norm_num))
  have h2 := hOk.len_mono (t / 16 % 4) (Nat.mod_lt _ (by norm_num))
  have h3 := hOk.len_mono (t / 64 % 4) (Nat.mod_lt _ (by norm_num))
  omega

theorem batchLoop_read_le (d : Desc) {σ : Type} (sink : DecSink σ)
    (hL : SinkLawful d sink) (data : List Nat) :
    ∀ (cs : List (List Nat)) (s : σ) (read ti : Nat),
      read ≤ data.length →
      (decodeBatchLoop d sink data cs s read ti).2.1 ≤ data.length := by
  intro cs
  induction cs with
  | nil => intro s read ti h; exact h
  | cons c cs ih =>
      intro s read ti h
      rw [decodeBatchLoop_cons]
      by_cases hg : data.length <
          read + (data_len8 d (loadLE 8 c 0) +
            (d.TAG_LEN 3 - d.TAG_LEN 0) * 4)
      · rw [if_pos hg]
        exact h
      · rw [if_neg hg]
        apply ih
        rw [hL.h8]
        show read + ((stepFold sink.handle1 data
          (tag8Bytes (loadLE 8 c 0)) s read ti).2 - read) ≤ data.length
        rw [stepFold_read d sink hL, ← data_len8_eq_sumLens]
        omega

theorem singleLoop_read_le (d : Desc) (hOk : DescOk d) {σ : Type}
    (sink : DecSink σ) (hL : SinkLawful d sink) (data : List Nat) :
    ∀ (ts : List Nat) (s : σ) (read ti : Nat),
      read ≤ data.length →
      (decodeSingleLoop d sink data ts s read ti).2.1 ≤ data.length := by
  intro ts
  induction ts with
  | nil => intro s read ti h; exact h
  | cons t ts ih =>
      intro s read ti h
      rw [decodeSingleLoop_cons]
      by_cases hg : data.length < read + d.TAG_LEN 3 * 4
      · rw [if_pos hg]
        exact h
      · rw [if_neg hg]
        apply ih
        rw [hL.read1]
        have hle := dataLen_le d hOk t
        omega

/-- C8 (amended): the driver's scratch tail buffer is the 64-byte
zero-filled `[0u8; 64]` — not `2 * W * 4` bytes: with `read ≤
data.len()` and at most 64 remaining bytes it has length 64, mirrors
the remaining data bytes, is zero beyond them, and for every lawful
sink a successful `decode_to_sink` reports at most `data.len()`
consumed bytes. -/
theorem C8_scratch_amended (d : Desc) (hOk : DescOk d) {σ : Type}
    (sink : DecSink σ) (hL : SinkLawful d sink) (tags data : List Nat)
    (s : σ) (read : Nat) (hr : read ≤ data.length)
    (h64 : data.length - read ≤ 64) :
    (scratchBuf data read).length = 64 ∧
    (∀ m, (scratchBuf data read).getD m 0 = data.getD (read + m) 0) ∧
    (∀ m, data.length - read ≤ m → (scratchBuf data read).getD m 0 = 0) ∧
    (∀ n sf, decodeToSink d sink tags data s = some (n, sf) →
      n ≤ data.length) := by
  refine ⟨?_, fun m => scratchBuf_getD data read m hr, ?_, ?_⟩
  · unfold scratchBuf
    rw [List.length_append, List.length_drop, List.length_replicate]
    omega
  · intro m hm
    rw [scratchBuf_getD data read m hr,
      List.getD_eq_default _ _ (by omega)]
  · obtain ⟨B, hB⟩ :
        ∃ b, decodeBatchLoop d sink data (chunks8 tags) s 0 0 = b :=
      ⟨_, rfl⟩
    obtain ⟨SI, hSI⟩ :
        ∃ x, decodeSingleLoop d sink data
          (tags.drop B.2.2) B.1 B.2.1 B.2.2 = x := ⟨_, rfl⟩
    have hrB : B.2.1 ≤ data.length := by
      rw [← hB]
      exact batchLoop_read_le d sink hL data (chunks8 tags) s 0 0
        (by omega)
    have hrS : SI.2.1 ≤ data.length := by
      rw [← hSI]
      exact singleLoop_read_le d hOk sink hL data
        (tags.drop B.2.2) B.1 B.2.1 B.2.2 hrB
    intro n sf hds
    rw [decodeToSink_eq d sink tags data s SI (by rw [← hSI, ← hB])] at hds
    split at hds
    · injection hds with h1
      have h2 : SI.2.1 = n := congrArg Prod.fst h1
      omega
    · split at hds
      · split at hds
        · exact absurd hds (by simp)
        · split at hds
          · rename_i hle
            injection hds with h1
            have h2 := congrArg Prod.fst h1
            simp only [] at h2
            omega
          · exact absurd hds (by simp)
      · exact absurd hds (by simp)

/-- C8 counterexample: the scratch buffer holds 64 bytes even for the
`W = 4` parameterizations, where the claimed size `2 * W * 4` is 32. -/
theorem C8_scratch_counterexample :
    (scratchBuf [1] 0).length = 64 ∧ 2 * desc1234.width * 4 = 32 ∧
    ¬ ((scratchBuf [1] 0).length = 2 * desc1234.width * 4) := by
  decide

theorem C8_scratch_amended_witness :
    (scratchBuf [5] 0).length = 64 ∧
    (∀ m, (scratchBuf [5] 0).getD m 0 = [5].getD (0 + m) 0) ∧
    (∀ m, [5].length - 0 ≤ m → (scratchBuf [5] 0).getD m 0 = 0) ∧
    (∀ n sf, decodeToSink desc1234 (stdDecSink desc1234) [] [5] [] =
        some (n, sf) → n ≤ [5].length) :=
  C8_scratch_amended desc1234 descOk1234 (stdDecSink desc1234)
    (stdDecSink_lawful desc1234) [] [5] [] 0 (by decide) (by decide)

theorem tagLen1234_le4 (n : Nat) : tagLen1234 n ≤ 4 := by
  rcases n with _ | _ | _ | n <;> first | decide | exact Nat.le_refl 4

theorem tagLen1234_pos (n : Nat) : 1 ≤ tagLen1234 n := by
  rcases n with _ | _ | _ | n
  · decide
  · decide
  · decide
  · show (1 : Nat) ≤ 4
    norm_num

theorem tagLen1234_eq_succ (n : Nat) (hn : n < 4) : tagLen1234 n = n + 1 := by
  interval_cases n <;> rfl

set_option maxRecDepth 8192 in
set_option maxHeartbeats 2000000 in
theorem decode_entry32_getD : ∀ tag, tag < 256 → ∀ i, i < 4 → ∀ j, j < 4 →
    (tag_decode_shuffle_entry32 tagLen1234 tag).getD (i * 4 + j) 64 =
      (if j < tagLen1234 (tag / 4 ^ i % 4) then
        ((List.range i).map (fun k => tagLen1234 (tag / 4 ^ k % 4))).sum + j
      else 64) := by
  decide

theorem prefix_sum_le (tag : Nat) :
    ∀ i, i < 4 →
    ((List.range i).map (fun k => tagLen1234 (tag / 4 ^ k % 4))).sum ≤
      4 * i := by
  intro i hi
  have h0 := tagLen1234_le4 (tag % 4)
  have h1 := tagLen1234_le4 (tag / 4 % 4)
  have h2 := tagLen1234_le4 (tag / 16 % 4)
  interval_cases i <;> simp [List.range_succ] <;> omega

theorem neonOutByte_eq (data : List Nat) (off tag : Nat) (ht : tag < 256)
    (i j : Nat) (hi : i < 4) (hj : j < 4) :
    neonOutByte data off tag (i * 4 + j) =
      if j < tagLen1234 (tag / 4 ^ i % 4) then
        data.getD (off +
          ((List.range i).map (fun k => tagLen1234 (tag / 4 ^ k % 4))).sum
          + j) 0
      else 0 := by
  unfold neonOutByte
  rw [decode_entry32_getD tag ht i hi j hj]
  by_cases h : j < tagLen1234 (tag / 4 ^ i % 4)
  · rw [if_pos h]
    have hS : ((List.range i).map
        (fun k => tagLen1234 (tag / 4 ^ k % 4))).sum + j < 16 := by
      have hp := prefix_sum_le tag i hi
      omega
    rw [if_pos hS, if_pos h, ← Nat.add_assoc]
  · rw [if_neg h, if_neg (by norm_num), if_neg h]

theorem tagMask32_eq (L : Nat) (hL : L ≤ 4) :
    tagMask32 L = 2 ^ (8 * L) - 1 := by
  unfold tagMask32
  split_ifs with h
  · subst h
    norm_num
  · rw [Nat.mul_comm L 8]

theorem mask_lane1234 (data : List Nat)
    (hdata : ∀ b ∈ data, b < 256) (o n : Nat) :
    loadLE desc1234.width data o &&& desc1234.TAG_MAX n =
      loadLE (tagLen1234 n) data o := by
  have h4 := tagLen1234_le4 n
  show loadLE 4 data o &&& tagMask32 (tagLen1234 n) = _
  rw [tagMask32_eq _ h4, Nat.and_pow_two_sub_one_eq_mod,
    loadLE_mask 4 _ data _ h4 hdata]

theorem neon_lane_eq (data : List Nat) (off tag : Nat) (ht : tag < 256)
    (i : Nat) (hi : i < 4) :
    neonOutByte data off tag (i * 4 + 0) +
      neonOutByte data off tag (i * 4 + 1) * 256 +
      neonOutByte data off tag (i * 4 + 2) * 65536 +
      neonOutByte data off tag (i * 4 + 3) * 16777216 =
      loadLE (tagLen1234 (tag / 4 ^ i % 4)) data
        (off + ((List.range i).map
          (fun k => tagLen1234 (tag / 4 ^ k % 4))).sum) := by
  rw [neonOutByte_eq data off tag ht i 0 hi (by norm_num),
    neonOutByte_eq data off tag ht i 1 hi (by norm_num),
    neonOutByte_eq data off tag ht i 2 hi (by norm_num),
    neonOutByte_eq data off tag ht i 3 hi (by norm_num)]
  have h1 := tagLen1234_pos (tag / 4 ^ i % 4)
  have h4 := tagLen1234_le4 (tag / 4 ^ i % 4)
  generalize ((List.range i).map
    (fun k => tagLen1234 (tag / 4 ^ k % 4))).sum = S
  generalize hL : tagLen1234 (tag / 4 ^ i % 4) = L at h1 h4 ⊢
  interval_cases L <;>
  · simp [loadLE, List.range_succ]
    try ring

theorem neonDecode1234_outBytes (data : List Nat) (off tag : Nat) :
    neonDecode1234 data off tag =
      (dataLen desc1234 tag,
       [neonOutByte data off tag (0 * 4 + 0) +
          neonOutByte data off tag (0 * 4 + 1) * 256 +
          neonOutByte data off tag (0 * 4 + 2) * 65536 +
          neonOutByte data off tag (0 * 4 + 3) * 16777216,
        neonOutByte data off tag (1 * 4 + 0) +
          neonOutByte data off tag (1 * 4 + 1) * 256 +
          neonOutByte data off tag (1 * 4 + 2) * 65536 +
          neonOutByte data off tag (1 * 4 + 3) * 16777216,
        neonOutByte data off tag (2 * 4 + 0) +
          neonOutByte data off tag (2 * 4 + 1) * 256 +
          neonOutByte data off tag (2 * 4 + 2) * 65536 +
          neonOutByte data off tag (2 * 4 + 3) * 16777216,
        neonOutByte data off tag (3 * 4 + 0) +
          neonOutByte data off tag (3 * 4 + 1) * 256 +
          neonOutByte data off tag (3 * 4 + 2) * 65536 +
          neonOutByte data off tag (3 * 4 + 3) * 16777216]) := rfl

theorem neonDecode1234_eq (data : List Nat)
    (hdata : ∀ b ∈ data, b < 256) (off tag : Nat) (ht : tag < 256) :
    neonDecode1234 data off tag = scalarDecode desc1234 data off tag := by
  rw [neonDecode1234_outBytes, scalarDecode_def,
    neon_lane_eq data off tag ht 0 (by norm_num),
    neon_lane_eq data off tag ht 1 (by norm_num),
    neon_lane_eq data off tag ht 2 (by norm_num),
    neon_lane_eq data off tag ht 3 (by norm_num),
    mask_lane1234 data hdata _ _, mask_lane1234 data hdata _ _,
    mask_lane1234 data hdata _ _, mask_lane1234 data hdata _ _,
    show desc1234.TAG_LEN = tagLen1234 from rfl]
  simp only [List.nil_append, List.cons_append]
  have hS0 : ((List.range 0).map
      (fun k => tagLen1234 (tag / 4 ^ k % 4))).sum = 0 := rfl
  have hS1 : ((List.range 1).map
      (fun k => tagLen1234 (tag / 4 ^ k % 4))).sum =
      0 + tagLen1234 (tag / 4 ^ 0 % 4) := by
    simp [List.range_succ]
    try omega
  have hS2 : ((List.range 2).map
      (fun k => tagLen1234 (tag / 4 ^ k % 4))).sum =
      0 + tagLen1234 (tag / 4 ^ 0 % 4) + tagLen1234 (tag / 4 ^ 1 % 4) := by
    simp [List.range_succ]
    try omega
  have hS3 : ((List.range 3).map
      (fun k => tagLen1234 (tag / 4 ^ k % 4))).sum =
      0 + tagLen1234 (tag / 4 ^ 0 % 4) + tagLen1234 (tag / 4 ^ 1 % 4) +
        tagLen1234 (tag / 4 ^ 2 % 4) := by
    simp [List.range_succ]
    try omega
  rw [hS0, hS1, hS2, hS3]
  refine Prod.ext ?_ rfl
  show dataLen desc1234 tag =
    0 + tagLen1234 (tag / 4 ^ 0 % 4) + tagLen1234 (tag / 4 ^ 1 % 4) +
      tagLen1234 (tag / 4 ^ 2 % 4) + tagLen1234 (tag / 4 ^ 3 % 4)
  unfold dataLen tagToEncodedLen
  rw [show desc1234.TAG_LEN = tagLen1234 from rfl]
  norm_num

theorem sum_deltas32_eq_wadd (b : Nat) (Δ : List Nat) :
    sum_deltas32 (set1 b) Δ =
      [wadd desc1234 b (Δ.getD 0 0),
       wadd desc1234 (wadd desc1234 b (Δ.getD 0 0)) (Δ.getD 1 0),
       wadd desc1234 (wadd desc1234 (wadd desc1234 b (Δ.getD 0 0))
         (Δ.getD 1 0)) (Δ.getD 2 0),
       wadd desc1234 (wadd desc1234 (wadd desc1234 (wadd desc1234 b
         (Δ.getD 0 0)) (Δ.getD 1 0)) (Δ.getD 2 0)) (Δ.getD 3 0)] := by
  have hw : ∀ a c : Nat, wadd desc1234 a c = (a + c) % 2 ^ 32 :=
    fun a c => rfl
  simp only [sum_deltas32, set1, hw, Nat.mod_add_mod, List.getD_cons_zero,
    List.getD_cons_succ, Nat.add_assoc]

theorem wadd_fold4 (a b c e : Nat) :
    wadd desc1234 (wadd desc1234 (wadd desc1234 (wadd desc1234 0 a) b) c)
      e = (a + b + c + e) % 2 ^ 32 := by
  have hw : ∀ x y : Nat, wadd desc1234 x y = (x + y) % 2 ^ 32 :=
    fun x y => rfl
  simp only [hw, Nat.mod_add_mod, Nat.zero_add]

theorem neonDecodeDeltas1234_eq (data : List Nat)
    (hdata : ∀ b ∈ data, b < 256) (off tag : Nat) (ht : tag < 256)
    (base : List Nat) :
    neonDecodeDeltas1234 data off tag base =
      scalarDecodeDeltas desc1234 data off tag base := by
  obtain ⟨R, hR⟩ : ∃ r, scalarDecode desc1234 data off tag = r := ⟨_, rfl⟩
  unfold neonDecodeDeltas1234
  rw [neonDecode1234_eq data hdata off tag ht, hR,
    scalarDecodeDeltas_eq desc1234 data off tag base R hR]
  show (R.1, sum_deltas32 (set1 (base.getD 3 0)) R.2) = _
  rw [sum_deltas32_eq_wadd]

theorem neonSkipDeltas1234_eq (data : List Nat)
    (hdata : ∀ b ∈ data, b < 256) (off tag : Nat) (ht : tag < 256) :
    neonSkipDeltas1234 data off tag =
      scalarSkipDeltas desc1234 data off tag := by
  unfold neonSkipDeltas1234 scalarSkipDeltas
  rw [neonDecode1234_eq data hdata off tag ht, scalarDecode_def]
  generalize loadLE desc1234.width data (off + 0) &&&
    desc1234.TAG_MAX (tag / 4 ^ 0 % 4) = a
  generalize loadLE desc1234.width data
    (off + (0 + desc1234.TAG_LEN (tag / 4 ^ 0 % 4))) &&&
    desc1234.TAG_MAX (tag / 4 ^ 1 % 4) = b
  generalize loadLE desc1234.width data
    (off + (0 + desc1234.TAG_LEN (tag / 4 ^ 0 % 4) +
      desc1234.TAG_LEN (tag / 4 ^ 1 % 4))) &&&
    desc1234.TAG_MAX (tag / 4 ^ 2 % 4) = c
  generalize loadLE desc1234.width data
    (off + (0 + desc1234.TAG_LEN (tag / 4 ^ 0 % 4) +
      desc1234.TAG_LEN (tag / 4 ^ 1 % 4) +
      desc1234.TAG_LEN (tag / 4 ^ 2 % 4))) &&&
    desc1234.TAG_MAX (tag / 4 ^ 3 % 4) = e
  exact Prod.ext rfl (wadd_fold4 a b c e).symm

set_option maxRecDepth 8192 in
set_option maxHeartbeats 2000000 in
theorem encode_entry32_getD : ∀ tag, tag < 256 → ∀ i, i < 4 →
    ∀ j, j < tagLen1234 (tag / 4 ^ i % 4) →
    (tag_encode_shuffle_entry32 tagLen1234 tag).getD
      (((List.range i).map (fun k => tagLen1234 (tag / 4 ^ k % 4))).sum + j)
      64 = i * 4 + j := by
  decide

theorem groupVTag1234_le3 (g : List Nat) (k : Nat) :
    groupVTag desc1234 g k ≤ 3 := by
  show 3 - leadingZeros 32 (g.getD k 0) / 8 ≤ 3
  omega

theorem neonEncode1234_def (mem : Nat → Nat) (off : Nat) (g : List Nat) :
    neonEncode1234 mem off g =
      ((groupVTag desc1234 g 0 + groupVTag desc1234 g 1 * 4 +
          groupVTag desc1234 g 2 * 16 + groupVTag desc1234 g 3 * 64) %
          2 ^ 32 % 256,
       (groupVTag desc1234 g 0 + groupVTag desc1234 g 1 +
          groupVTag desc1234 g 2 + groupVTag desc1234 g 3) % 2 ^ 32 + 4,
       fun a =>
        if off ≤ a ∧ a < off + 16 then
          (if (tag_encode_shuffle_entry32 tagLen1234
              ((groupVTag desc1234 g 0 + groupVTag desc1234 g 1 * 4 +
                groupVTag desc1234 g 2 * 16 + groupVTag desc1234 g 3 * 64) %
                2 ^ 32 % 256)).getD (a - off) 64 < 16 then
            regBytes32 g ((tag_encode_shuffle_entry32 tagLen1234
              ((groupVTag desc1234 g 0 + groupVTag desc1234 g 1 * 4 +
                groupVTag desc1234 g 2 * 16 + groupVTag desc1234 g 3 * 64) %
                2 ^ 32 % 256)).getD (a - off) 64)
          else 0)
        else mem a) := rfl

theorem neonTag_eq (g : List Nat) :
    (groupVTag desc1234 g 0 + groupVTag desc1234 g 1 * 4 +
      groupVTag desc1234 g 2 * 16 + groupVTag desc1234 g 3 * 64) %
      2 ^ 32 % 256 = groupTag desc1234 g := by
  have h0 := groupVTag1234_le3 g 0
  have h1 := groupVTag1234_le3 g 1
  have h2 := groupVTag1234_le3 g 2
  have h3 := groupVTag1234_le3 g 3
  unfold groupTag
  rw [Nat.mod_eq_of_lt (by omega), Nat.mod_eq_of_lt (by omega)]

theorem neonWritten_eq (g : List Nat) :
    (groupVTag desc1234 g 0 + groupVTag desc1234 g 1 +
      groupVTag desc1234 g 2 + groupVTag desc1234 g 3) % 2 ^ 32 + 4 =
      groupWritten desc1234 g := by
  have h0 := groupVTag1234_le3 g 0
  have h1 := groupVTag1234_le3 g 1
  have h2 := groupVTag1234_le3 g 2
  have h3 := groupVTag1234_le3 g 3
  have e0 : groupLen desc1234 g 0 = groupVTag desc1234 g 0 + 1 := rfl
  have e1 : groupLen desc1234 g 1 = groupVTag desc1234 g 1 + 1 := rfl
  have e2 : groupLen desc1234 g 2 = groupVTag desc1234 g 2 + 1 := rfl
  have e3 : groupLen desc1234 g 3 = groupVTag desc1234 g 3 + 1 := rfl
  rw [groupWritten_eq, Nat.mod_eq_of_lt (by omega)]
  omega

theorem neonEncode1234_tag (mem : Nat → Nat) (off : Nat) (g : List Nat) :
    (neonEncode1234 mem off g).1 = groupTag desc1234 g := by
  rw [neonEncode1234_def]
  exact neonTag_eq g

theorem neonEncode1234_written (mem : Nat → Nat) (off : Nat)
    (g : List Nat) :
    (neonEncode1234 mem off g).2.1 = groupWritten desc1234 g := by
  rw [neonEncode1234_def]
  exact neonWritten_eq g

theorem neonEncode1234_mem (mem : Nat → Nat) (off : Nat) (g : List Nat)
    (i j : Nat) (hi : i < 4) (hj : j < groupLen desc1234 g i) :
    (neonEncode1234 mem off g).2.2 (off + groupOff desc1234 g i + j) =
      leByte (g.getD i 0) j := by
  have h0 := groupVTag1234_le3 g 0
  have h1 := groupVTag1234_le3 g 1
  have h2 := groupVTag1234_le3 g 2
  have h3 := groupVTag1234_le3 g 3
  have e0 : groupLen desc1234 g 0 = groupVTag desc1234 g 0 + 1 := rfl
  have e1 : groupLen desc1234 g 1 = groupVTag desc1234 g 1 + 1 := rfl
  have e2 : groupLen desc1234 g 2 = groupVTag desc1234 g 2 + 1 := rfl
  have e3 : groupLen desc1234 g 3 = groupVTag desc1234 g 3 + 1 := rfl
  have hq16 : groupOff desc1234 g i + j < 16 := by
    interval_cases i <;>
      simp only [groupOff_zero, groupOff_one, groupOff_two,
        groupOff_three] at hj ⊢ <;> omega
  rw [neonEncode1234_def, neonTag_eq]
  show (if off ≤ off + groupOff desc1234 g i + j ∧
      off + groupOff desc1234 g i + j < off + 16 then
      (if (tag_encode_shuffle_entry32 tagLen1234
          (groupTag desc1234 g)).getD
          (off + groupOff desc1234 g i + j - off) 64 < 16 then
        regBytes32 g ((tag_encode_shuffle_entry32 tagLen1234
          (groupTag desc1234 g)).getD
          (off + groupOff desc1234 g i + j - off) 64)
      else 0)
    else mem (off + groupOff desc1234 g i + j)) = leByte (g.getD i 0) j
  rw [if_pos ⟨by omega, by omega⟩,
    show off + groupOff desc1234 g i + j - off =
      groupOff desc1234 g i + j by omega]
  have hfo : groupOff desc1234 g i =
      ((List.range i).map
        (fun k => tagLen1234 (groupTag desc1234 g / 4 ^ k % 4))).sum := by
    unfold groupOff
    congr 1
    apply List.map_congr_left
    intro k hk
    have hk4 : k < 4 := by
      have hki : k < i := List.mem_range.mp hk
      omega
    rw [groupTag_nibble desc1234 descOk1234 g k hk4]
    exact (descOk1234.tv_len _)
  have hjt : j < tagLen1234 (groupTag desc1234 g / 4 ^ i % 4) := by
    rw [groupTag_nibble desc1234 descOk1234 g i hi]
    have hlen := descOk1234.tv_len (g.getD i 0)
    unfold groupLen at hj
    show j < desc1234.TAG_LEN (desc1234.tagValue (g.getD i 0)).1
    rw [← hlen]
    exact hj
  have hm4 := tagLen1234_le4 (groupTag desc1234 g / 4 ^ i % 4)
  rw [hfo, encode_entry32_getD (groupTag desc1234 g)
    (groupTag_lt_256 desc1234 descOk1234 g) i hi j hjt,
    if_pos (by omega)]
  unfold regBytes32
  rw [show (i * 4 + j) / 4 = i by omega, show (i * 4 + j) % 4 = j by omega]

theorem storeLE_lt256 (w : Nat) (m : Nat → Nat) (off v : Nat)
    (hm : ∀ a, m a < 256) : ∀ a, storeLE w m off v a < 256 := by
  intro a
  unfold storeLE
  split_ifs
  · exact leByte_lt v _
  · exact hm a

theorem scalarEncode_mem_lt256 (d : Desc) (mem : Nat → Nat) (off : Nat)
    (g : List Nat) (hm : ∀ a, mem a < 256) :
    ∀ a, (scalarEncode d mem off g).2.2 a < 256 := by
  intro a
  rw [scalarEncode_def]
  exact storeLE_lt256 _ _ _ _
    (storeLE_lt256 _ _ _ _
      (storeLE_lt256 _ _ _ _ (storeLE_lt256 _ _ _ _ hm))) a

theorem neonEncode1234_mem_lt256 (mem : Nat → Nat) (off : Nat)
    (g : List Nat) (hm : ∀ a, mem a < 256) :
    ∀ a, (neonEncode1234 mem off g).2.2 a < 256 := by
  intro a
  unfold neonEncode1234
  simp only []
  split_ifs
  · exact leByte_lt _ _
  · norm_num
  · exact hm a

theorem groupWritten1234_le16 (g : List Nat) :
    groupWritten desc1234 g ≤ 16 := by
  have h0 := groupVTag1234_le3 g 0
  have h1 := groupVTag1234_le3 g 1
  have h2 := groupVTag1234_le3 g 2
  have h3 := groupVTag1234_le3 g 3
  have e0 : groupLen desc1234 g 0 = groupVTag desc1234 g 0 + 1 := rfl
  have e1 : groupLen desc1234 g 1 = groupVTag desc1234 g 1 + 1 := rfl
  have e2 : groupLen desc1234 g 2 = groupVTag desc1234 g 2 + 1 := rfl
  have e3 : groupLen desc1234 g 3 = groupVTag desc1234 g 3 + 1 := rfl
  rw [groupWritten_eq]
  omega

theorem memBytes_lt256 (m : Nat → Nat) (n : Nat)
    (hm : ∀ a, m a < 256) : ∀ b ∈ memBytes m n, b < 256 := by
  intro b hb
  obtain ⟨p, _, rfl⟩ := List.mem_map.mp hb
  exact hm p

/-- C3: the aarch64 NEON `group1234` backend matches the scalar
reference backend bit-exactly: identical tag byte, written count and
written data bytes on every input group; identical `decode`,
`decode_deltas` and `skip_deltas` results on every tag byte and every
byte-valued buffer; and every encoder/decoder backend pairing
round-trips a group of in-range values to the same decoded group. -/
theorem C3_neon_matches_scalar :
    (∀ (mem : Nat → Nat) (off : Nat) (g : List Nat),
      (neonEncode1234 mem off g).1 = (scalarEncode desc1234 mem off g).1 ∧
      (neonEncode1234 mem off g).2.1 =
        (scalarEncode desc1234 mem off g).2.1 ∧
      (∀ q, q < groupWritten desc1234 g →
        (neonEncode1234 mem off g).2.2 (off + q) =
          (scalarEncode desc1234 mem off g).2.2 (off + q))) ∧
    (∀ (data : List Nat), (∀ b ∈ data, b < 256) → ∀ (off tag : Nat),
      tag < 256 →
      neonDecode1234 data off tag = scalarDecode desc1234 data off tag) ∧
    (∀ (data : List Nat), (∀ b ∈ data, b < 256) →
      ∀ (off tag : Nat), tag < 256 → ∀ (base : List Nat),
      neonDecodeDeltas1234 data off tag base =
        scalarDecodeDeltas desc1234 data off tag base) ∧
    (∀ (data : List Nat), (∀ b ∈ data, b < 256) → ∀ (off tag : Nat),
      tag < 256 →
      neonSkipDeltas1234 data off tag =
        scalarSkipDeltas desc1234 data off tag) ∧
    (∀ (mem : Nat → Nat), (∀ a, mem a < 256) → ∀ (off : Nat)
      (g : List Nat), (∀ i, i < 4 → g.getD i 0 < desc1234.M) →
      neonDecode1234 (memBytes (neonEncode1234 mem off g).2.2
          (off + groupWritten desc1234 g)) off
          (neonEncode1234 mem off g).1 =
        (groupWritten desc1234 g,
         [g.getD 0 0, g.getD 1 0, g.getD 2 0, g.getD 3 0]) ∧
      scalarDecode desc1234 (memBytes (neonEncode1234 mem off g).2.2
          (off + groupWritten desc1234 g)) off
          (neonEncode1234 mem off g).1 =
        (groupWritten desc1234 g,
         [g.getD 0 0, g.getD 1 0, g.getD 2 0, g.getD 3 0]) ∧
      neonDecode1234 (memBytes (scalarEncode desc1234 mem off g).2.2
          (off + groupWritten desc1234 g)) off
          (scalarEncode desc1234 mem off g).1 =
        (groupWritten desc1234 g,
         [g.getD 0 0, g.getD 1 0, g.getD 2 0, g.getD 3 0]) ∧
      scalarDecode desc1234 (memBytes (scalarEncode desc1234 mem off g).2.2
          (off + groupWritten desc1234 g)) off
          (scalarEncode desc1234 mem off g).1 =
        (groupWritten desc1234 g,
         [g.getD 0 0, g.getD 1 0, g.getD 2 0, g.getD 3 0])) := by
  refine ⟨?_, ?_, ?_, ?_, ?_⟩
  · intro mem off g
    refine ⟨?_, ?_, ?_⟩
    · rw [neonEncode1234_tag, scalarEncode_tag desc1234 descOk1234]
    · rw [neonEncode1234_written, scalarEncode_written]
    · intro q hq
      obtain ⟨i, j, hi, hj, rfl⟩ :=
        groupWritten_pos_decomp desc1234 g q hq
      rw [show off + (groupOff desc1234 g i + j) =
        off + groupOff desc1234 g i + j by ring,
        neonEncode1234_mem mem off g i j hi hj,
        scalarEncode_mem_at desc1234 descOk1234 mem off g i j hi hj]
  · intro data hdata off tag ht
    exact neonDecode1234_eq data hdata off tag ht
  · intro data hdata off tag ht base
    exact neonDecodeDeltas1234_eq data hdata off tag ht base
  · intro data hdata off tag ht
    exact neonSkipDeltas1234_eq data hdata off tag ht
  · intro mem hmem off g hg
    have hwin_n : ∀ q, q < groupWritten desc1234 g →
        (memBytes (neonEncode1234 mem off g).2.2
          (off + groupWritten desc1234 g)).getD (off + q) 0 =
          (groupBytes desc1234 g).getD q 0 := by
      intro q hq
      rw [memBytes_getD _ _ _ (by omega)]
      obtain ⟨i, j, hi, hj, rfl⟩ :=
        groupWritten_pos_decomp desc1234 g q hq
      rw [show off + (groupOff desc1234 g i + j) =
        off + groupOff desc1234 g i + j by ring,
        neonEncode1234_mem mem off g i j hi hj,
        groupBytes_getD desc1234 g i j hi hj]
    have hwin_s : ∀ q, q < groupWritten desc1234 g →
        (memBytes (scalarEncode desc1234 mem off g).2.2
          (off + groupWritten desc1234 g)).getD (off + q) 0 =
          (groupBytes desc1234 g).getD q 0 := by
      intro q hq
      rw [memBytes_getD _ _ _ (by omega)]
      obtain ⟨i, j, hi, hj, rfl⟩ :=
        groupWritten_pos_decomp desc1234 g q hq
      rw [show off + (groupOff desc1234 g i + j) =
        off + groupOff desc1234 g i + j by ring,
        scalarEncode_mem_at desc1234 descOk1234 mem off g i j hi hj,
        groupBytes_getD desc1234 g i j hi hj]
    have hds_n := scalarDecode_stream desc1234 descOk1234
      (memBytes (neonEncode1234 mem off g).2.2
        (off + groupWritten desc1234 g)) off g hg hwin_n
    have hds_s := scalarDecode_stream desc1234 descOk1234
      (memBytes (scalarEncode desc1234 mem off g).2.2
        (off + groupWritten desc1234 g)) off g hg hwin_s
    have hb_n := memBytes_lt256 (neonEncode1234 mem off g).2.2
      (off + groupWritten desc1234 g)
      (neonEncode1234_mem_lt256 mem off g hmem)
    have hb_s := memBytes_lt256 (scalarEncode desc1234 mem off g).2.2
      (off + groupWritten desc1234 g)
      (scalarEncode_mem_lt256 desc1234 mem off g hmem)
    have htag_n : (neonEncode1234 mem off g).1 = groupTag desc1234 g :=
      neonEncode1234_tag mem off g
    have htag_s : (scalarEncode desc1234 mem off g).1 =
        groupTag desc1234 g := scalarEncode_tag desc1234 descOk1234 mem off g
    have ht256 := groupTag_lt_256 desc1234 descOk1234 g
    refine ⟨?_, ?_, ?_, ?_⟩
    · rw [htag_n, neonDecode1234_eq _ hb_n off _ ht256]
      exact hds_n
    · rw [htag_n]
      exact hds_n
    · rw [htag_s, neonDecode1234_eq _ hb_s off _ ht256]
      exact hds_s
    · rw [htag_s]
      exact hds_s
